import Mathlib

/-!
Verification of the BogusCF (bogus control flow) obfuscation pass,
`src/lib/Transform/boguscf.cpp`, against its natural-language specification.

The pass is shallowly embedded: LLVM IR is modelled as lists of blocks of
instructions carrying stable numeric identities; the C++ member functions
`BogusCF::doInitialization`, `BogusCF::runOnFunction` and `BogusCF::isEligible`
become Lean functions over that model, following the source line by line.
The pseudo-random engine plus `std::bernoulli_distribution` pair is modelled
as a stream of canonical uniform draws `Nat → ℚ` with a current position; one
trial at probability `p` reads the draw at the position and advances it, which
is the standard `u < p` realisation of a Bernoulli trial.  `double` options
are modelled as `ℚ`; the only probability values the claims exercise are
exactly representable, so no floating-point rounding is observable.
-/

namespace BogusCF

/-- Terminator instructions, after the source's dynamic downcasts
(`isa<TerminatorInst>`, `isa<InvokeInst>`, `isa<ReturnInst>`,
`getNumSuccessors`): unconditional branch, conditional branch, multi-way
switch, return, and the exceptional transfer `invoke`.  Successor operands
are block identities; `cond` operands are value identities. -/
inductive Term where
  | br (dest : Nat)
  | condbr (cond : Nat) (tdest fdest : Nat)
  | switchBr (cond : Nat) (dests : List Nat)
  | ret (v : Option Nat)
  | invoke (normal unwind : Nat)
  deriving Repr, DecidableEq

/-- `TerminatorInst::getNumSuccessors` / successor enumeration. -/
def Term.successors : Term → List Nat
  | .br d => [d]
  | .condbr _ t f => [t, f]
  | .switchBr _ ds => ds
  | .ret _ => []
  | .invoke n u => [n, u]

/-- Value operands of a terminator (successor blocks are not value operands
for the purpose of use lists in this model). -/
def Term.valueOps : Term → List Nat
  | .br _ => []
  | .condbr c _ _ => [c]
  | .switchBr c _ => [c]
  | .ret v => v.toList
  | .invoke _ _ => []

/-- Instruction payloads: PHI nodes with (incoming value, incoming block)
entries, debug/lifetime markers, ordinary instructions with value operands,
and the alloca/load/store instructions that PHI demotion manufactures. -/
inductive InstKind where
  | phi (incoming : List (Nat × Nat))
  | dbg
  | simple (ops : List Nat)
  | alloca
  | load (slot : Nat)
  | store (v : Nat) (slot : Nat)
  | term (t : Term)
  deriving Repr, DecidableEq

/-- An instruction: a stable identity (also the identity of the value it
produces) plus its payload. -/
structure Inst where
  id : Nat
  kind : InstKind
  deriving Repr, DecidableEq

/-- A basic block: stable identity, the `isLandingPad` flag, and its ordered
instruction list (last instruction is the terminator in well-formed IR). -/
structure BasicBlock where
  id : Nat
  landing : Bool
  insts : List Inst
  deriving Repr, DecidableEq

/-- A function: name, `isDeclaration`, the BogusCF obfuscation tag, and the
ordered block list; the entry block is the first block. -/
structure Func where
  name : String
  isDeclaration : Bool
  tagged : Bool
  blocks : List BasicBlock
  deriving Repr, DecidableEq

/-- Value operands of an instruction (its use list contribution). -/
def InstKind.valueOps : InstKind → List Nat
  | .phi inc => inc.map (·.1)
  | .dbg => []
  | .simple ops => ops
  | .alloca => []
  | .load s => [s]
  | .store v s => [v, s]
  | .term t => t.valueOps

def isPhi (i : Inst) : Bool :=
  match i.kind with
  | .phi _ => true
  | _ => false

def isDbg (i : Inst) : Bool :=
  match i.kind with
  | .dbg => true
  | _ => false

def isTermInst (i : Inst) : Bool :=
  match i.kind with
  | .term _ => true
  | _ => false

def isPhiOrDbg (i : Inst) : Bool := isPhi i || isDbg i

/-- `BasicBlock::getFirstNonPHIOrDbgOrLifetime`. -/
def getFirstNonPHIOrDbgOrLifetime (b : BasicBlock) : Option Inst :=
  b.insts.find? (fun i => !isPhiOrDbg i)

/-- `BasicBlock::getTerminator`, as the last instruction when it is a
terminator. -/
def blockTerm (b : BasicBlock) : Option Term :=
  match b.insts.getLast? with
  | some i =>
    match i.kind with
    | .term t => some t
    | _ => none
  | none => none

/-- Successor list of a block (empty when the block has no terminator). -/
def blockSuccs (b : BasicBlock) : List Nat :=
  match blockTerm b with
  | some t => t.successors
  | none => []

/-- The per-block skip test of lines 146-168 (and 418-431): the block's
effective first instruction is its terminator, or the block is a landing
pad, or the block is the function's entry block.  The three `continue`s
fire in this order in the source; only the disjunction is observable. -/
def skipBlock (entryId : Nat) (b : BasicBlock) : Bool :=
  (match getFirstNonPHIOrDbgOrLifetime b with
   | some i => isTermInst i
   | none => false)
  || b.landing
  || b.id == entryId

/-- Whether the block's terminator is an `InvokeInst` (lines 172-173 and
435-436). -/
def isInvokeTermB (b : BasicBlock) : Bool :=
  match blockTerm b with
  | some (.invoke _ _) => true
  | _ => false

/-- The candidate-collection loop of `runOnFunction` (lines 134-180):
for each block, skip it when `skipBlock` holds, abort the whole function
(`return hasBeenModified`, i.e. `none` here) when a surviving block ends in
an `InvokeInst`, and otherwise record it as a transformation candidate. -/
def collectGo (entryId : Nat) : List BasicBlock → Option (List Nat)
  | [] => some []
  | b :: rest =>
    if skipBlock entryId b then collectGo entryId rest
    else if isInvokeTermB b then none
    else (collectGo entryId rest).map (b.id :: ·)

/-- Candidate collection for a whole function; `F.getEntryBlock()` is the
first block. -/
def collectPass (F : Func) : Option (List Nat) :=
  match F.blocks with
  | [] => some []
  | e :: _ => collectGo e.id F.blocks

/-- All PHI instruction ids of the function, in program order; this is the
`phis` vector of lines 126 and 141-145 (populated for every block, before
any skip test fires). -/
def allPhiIds (F : Func) : List Nat :=
  F.blocks.flatMap (fun b => (b.insts.filter isPhi).map (·.id))

/-- The block-counting loop of `BogusCF::isEligible` (lines 417-441):
`none` when a surviving block ends in an `InvokeInst`, otherwise the number
of eligible blocks. -/
def eligGo (entryId : Nat) : List BasicBlock → Option Nat
  | [] => some 0
  | b :: rest =>
    if skipBlock entryId b then eligGo entryId rest
    else if isInvokeTermB b then none
    else (eligGo entryId rest).map (· + 1)

/-- `BogusCF::isEligible` (lines 408-449). -/
def isEligible (F : Func) : Bool :=
  if F.isDeclaration then false
  else
    match F.blocks with
    | [] => false
    | e :: _ =>
      match eligGo e.id F.blocks with
      | none => false
      | some n => n != 0

/-! ### Value substitution and generic block surgery -/

/-- Rewrite one value operand. -/
def substV (o n x : Nat) : Nat := if x = o then n else x

/-- Map a function over every value operand of a terminator (successor
blocks are untouched, as in `RemapInstruction` where blocks are absent from
the map). -/
def Term.mapOps (f : Nat → Nat) : Term → Term
  | .br d => .br d
  | .condbr c t fd => .condbr (f c) t fd
  | .switchBr c ds => .switchBr (f c) ds
  | .ret v => .ret (v.map f)
  | .invoke n u => .invoke n u

/-- Map a function over every value operand of an instruction payload; for
PHI nodes the incoming values are rewritten and the incoming blocks kept. -/
def InstKind.mapOps (f : Nat → Nat) : InstKind → InstKind
  | .phi inc => .phi (inc.map (fun vb => (f vb.1, vb.2)))
  | .dbg => .dbg
  | .simple ops => .simple (ops.map f)
  | .alloca => .alloca
  | .load s => .load (f s)
  | .store v s => .store (f v) (f s)
  | .term t => .term (t.mapOps f)

/-- `replaceUsesOfWith` / `replaceAllUsesWith` on a single instruction. -/
def Inst.subst (o n : Nat) (i : Inst) : Inst :=
  ⟨i.id, i.kind.mapOps (substV o n)⟩

/-- Apply an instruction-level rewrite to every instruction of the
function (shared shape of `replaceAllUsesWith`, targeted
`replaceUsesOfWith`, and `addIncoming`). -/
def mapInsts (h : Inst → Inst) (F : Func) : Func :=
  { F with blocks := F.blocks.map (fun b => { b with insts := b.insts.map h }) }

/-- Lookup in a `ValueToValueMapTy` with `RF_IgnoreMissingEntries`:
unmapped values stay themselves. -/
def lookupVM (vm : List (Nat × Nat)) (x : Nat) : Nat :=
  match vm.find? (fun p => p.1 == x) with
  | some p => p.2
  | none => x

/-- `RemapInstruction(&inst, VMap, RF_IgnoreMissingEntries)`. -/
def Inst.remap (vm : List (Nat × Nat)) (i : Inst) : Inst :=
  ⟨i.id, i.kind.mapOps (lookupVM vm)⟩

/-- `Function::getBasicBlockList` lookup by block identity. -/
def getBlock (F : Func) (bid : Nat) : Option BasicBlock :=
  F.blocks.find? (fun b => b.id == bid)

/-- Apply a block-level edit to the block with the given identity. -/
def modifyBlock (F : Func) (bid : Nat) (g : BasicBlock → BasicBlock) : Func :=
  { F with blocks := F.blocks.map (fun b => if b.id = bid then g b else b) }

/-- Insert an instruction immediately before the block's terminator
(`new StoreInst(..., pred->getTerminator())`). -/
def insertBeforeTerm (i : Inst) (b : BasicBlock) : BasicBlock :=
  match b.insts.getLast? with
  | none => { b with insts := [i] }
  | some t => { b with insts := b.insts.dropLast ++ [i, t] }

/-- Insert an instruction after the block's leading PHI nodes — the insert
point `DemotePHIToStack` computes by skipping `isa<PHINode>` instructions. -/
def insertAfterLeadingPhis (i : Inst) (b : BasicBlock) : BasicBlock :=
  { b with insts := b.insts.takeWhile isPhi ++ i :: b.insts.dropWhile isPhi }

/-- Insert an instruction before the block's first non-PHI, non-debug
instruction — the insert point `successor->getFirstNonPHIOrDbgOrLifetime()`
used by `PHINode::Create`. -/
def insertAfterLeadingPhiDbg (i : Inst) (b : BasicBlock) : BasicBlock :=
  { b with insts := b.insts.takeWhile isPhiOrDbg ++ i :: b.insts.dropWhile isPhiOrDbg }

/-- `eraseFromParent` on the instruction with the given identity. -/
def removeInstFrom (iid : Nat) (b : BasicBlock) : BasicBlock :=
  { b with insts := b.insts.filter (fun i => i.id ≠ iid) }

/-- `replaceAllUsesWith`: rewrite every use of value `o` to `n` in the whole
function. -/
def replaceUsesEverywhere (F : Func) (o n : Nat) : Func :=
  mapInsts (Inst.subst o n) F

/-- `user->replaceUsesOfWith(o, n)` for the named user instructions only. -/
def replaceUsesInUsers (F : Func) (userIds : List Nat) (o n : Nat) : Func :=
  mapInsts (fun i => if userIds.contains i.id then Inst.subst o n i else i) F

/-- `new AllocaInst(..., F->getEntryBlock().begin())`. -/
def prependToEntry (i : Inst) (F : Func) : Func :=
  match F.blocks with
  | [] => F
  | e :: rest => { F with blocks := { e with insts := i :: e.insts } :: rest }

/-- The use list of a value across the whole function: every (block id,
instruction) whose value operands mention `v`, in program order. -/
def usersOf (F : Func) (v : Nat) : List (Nat × Inst) :=
  F.blocks.flatMap (fun b =>
    (b.insts.filter (fun i => i.kind.valueOps.contains v)).map (fun i => (b.id, i)))

/-- Locate the block containing the instruction with identity `iid`. -/
def findInstBlock (F : Func) (iid : Nat) : Option (Nat × Inst) :=
  (F.blocks.flatMap (fun b =>
    (b.insts.filter (fun i => i.id == iid)).map (fun i => (b.id, i)))).head?

/-! ### PHI demotion (`llvm::DemotePHIToStack`, called at lines 190 and 366)

LLVM 3.4's `DemotePHIToStack`: if the PHI has no uses it is simply erased;
otherwise a stack slot is allocated at the entry block's begin, a store of
each incoming value is inserted before the matching predecessor's
terminator, a load from the slot is inserted after the leading PHIs of the
PHI's block, all uses of the PHI are redirected to the load, and the PHI is
erased. -/

/-- The store-insertion loop of `DemotePHIToStack`: for each incoming
(value, predecessor) entry, in order, insert a store of the value to the
slot immediately before the predecessor's terminator; store identities are
drawn consecutively from `sid`. -/
def addStores (slot : Nat) : List (Nat × Nat) → Nat → Func → Func
  | [], _, F => F
  | vb :: rest, sid, F =>
    addStores slot rest (sid + 1) (modifyBlock F vb.2 (insertBeforeTerm ⟨sid, .store vb.1 slot⟩))

def demotePHIToStack (F : Func) (pid : Nat) (fresh : Nat) : Func × Nat :=
  match findInstBlock F pid with
  | some (bId, i) =>
    match i.kind with
    | .phi inc =>
      if (usersOf F pid).isEmpty then
        (modifyBlock F bId (removeInstFrom pid), fresh)
      else
        let slot := fresh
        let F1 := prependToEntry ⟨slot, .alloca⟩ F
        let F2 := addStores slot inc (fresh + 1) F1
        let loadId := fresh + 1 + inc.length
        let F3 := modifyBlock F2 bId
          (fun b => insertAfterLeadingPhis ⟨loadId, .load slot⟩ (removeInstFrom pid b))
        (replaceUsesEverywhere F3 pid loadId, fresh + 2 + inc.length)
    | _ => (F, fresh)
  | none => (F, fresh)

/-- The PHI-demotion loop of lines 188-191, run after the candidate list is
known to be nonempty. -/
def normalizePhis (F : Func) (phis : List Nat) (fresh : Nat) : Func × Nat :=
  phis.foldl (fun acc pid => demotePHIToStack acc.1 pid acc.2) (F, fresh)

/-! ### Block splitting and cloning -/

/-- Retarget one PHI node's incoming-block entries from `o` to `n`. -/
def phiRetargetI (o n : Nat) (i : Inst) : Inst :=
  match i.kind with
  | .phi inc => ⟨i.id, .phi (inc.map (fun vb => (vb.1, if vb.2 = o then n else vb.2)))⟩
  | _ => i

/-- Retarget PHI incoming-block entries from `o` to `n` in one block — the
successor fix-up loop at the end of `BasicBlock::splitBasicBlock`. -/
def phiRetarget (o n : Nat) (b : BasicBlock) : BasicBlock :=
  { b with insts := b.insts.map (phiRetargetI o n) }

/-- `BasicBlock::splitBasicBlock(I)`: the instructions from `splitId` to the
end move into a new block inserted right after the original; the original
keeps its identity and ends with a fresh unconditional branch to the new
block; PHI nodes in the new block's successors are retargeted from the
original to the new block.  Returns (function, new block id, next fresh
id). -/
def splitBasicBlock (F : Func) (bid : Nat) (splitId : Nat) (fresh : Nat) :
    Func × Nat × Nat :=
  match getBlock F bid with
  | none => (F, bid, fresh)
  | some b =>
    let pre := b.insts.takeWhile (fun i => i.id ≠ splitId)
    let post := b.insts.dropWhile (fun i => i.id ≠ splitId)
    let newId := fresh
    let newBlock : BasicBlock := ⟨newId, false, post⟩
    let husk : BasicBlock := ⟨b.id, b.landing, pre ++ [⟨fresh + 1, .term (.br newId)⟩]⟩
    let F1 : Func :=
      { F with blocks := F.blocks.flatMap (fun x => if x.id = bid then [husk, newBlock] else [x]) }
    let F2 := (blockSuccs newBlock).foldl (fun acc s => modifyBlock acc s (phiRetarget bid newId)) F1
    (F2, newId, fresh + 2)

/-- `CloneBasicBlock(originalBlock, VMap, prefix, &F)` followed by the
remap loop of lines 242-244: the clone is appended at the end of the
function, every cloned instruction gets a fresh identity recorded in the
value map, and each cloned instruction's operands are rewritten through the
map with `RF_IgnoreMissingEntries` (operands defined outside the source
block stay as they are; successor blocks are not in the map and stay).
Returns (function, clone id, value map, next fresh id). -/
def cloneBasicBlock (F : Func) (srcId : Nat) (fresh : Nat) :
    Func × Nat × List (Nat × Nat) × Nat :=
  match getBlock F srcId with
  | none => (F, srcId, [], fresh)
  | some b =>
    let newBid := fresh
    let vmap := b.insts.enum.map (fun ki => (ki.2.id, fresh + 1 + ki.1))
    let copyInsts := b.insts.enum.map (fun ki => Inst.remap vmap ⟨fresh + 1 + ki.1, ki.2.kind⟩)
    let copy : BasicBlock := ⟨newBid, b.landing, copyInsts⟩
    ({ F with blocks := F.blocks ++ [copy] }, newBid, vmap, fresh + 1 + b.insts.length)

/-- Modelled from the spec: `OpaquePredicate::createStub` (declared in
`Transform/opaque_predicate.h`, whose implementation is not under `src/`)
is the external predicate-construction collaborator — it materialises an
opaquely-true two-way branch construct at the end of the given block, with
the always-taken arm branching to the original body and the never-taken arm
to the clone.  Modelled as one condition-computing instruction followed by
the conditional branch on it. -/
def createStub (F : Func) (bid origId copyId : Nat) (fresh : Nat) : Func × Nat :=
  (modifyBlock F bid (fun b =>
      { b with insts := b.insts ++ [⟨fresh, .simple []⟩, ⟨fresh + 1, .term (.condbr fresh origId copyId)⟩] }),
   fresh + 2)

/-! ### Boundary reconciliation (lines 246-394) -/

/-- Is this user a PHI node living in the join-point (successor) block
(lines 271-273)? -/
def isSuccPhi (succId : Nat) (bi : Nat × Inst) : Bool :=
  bi.1 == succId && isPhi bi.2

/-- `phi->addIncoming(v, bid)` applied to the instruction with identity
`pid` when it is a PHI without an entry for `bid` yet. -/
def addIncomingI (pid : Nat) (v bid : Nat) (i : Inst) : Inst :=
  if i.id = pid then
    match i.kind with
    | .phi inc =>
      if inc.any (fun vb => vb.2 == bid) then i else ⟨i.id, .phi (inc ++ [(v, bid)])⟩
    | _ => i
  else i

/-- `phi->addIncoming(v, bid)` guarded by `phi->getBasicBlockIndex(bid) == -1`
(lines 333-336). -/
def addIncomingIfMissing (F : Func) (pid : Nat) (v bid : Nat) : Func :=
  mapInsts (addIncomingI pid v bid) F

/-- One iteration of the `for (auto phi : phiUsers)` loop (lines 331-367):
add the missing incoming edges from the original body and the clone, then
redirect the collected ordinary users to the PHI, then demote the PHI to a
stack slot. -/
def phiFixStep (origId copyId v cloneV : Nat) (otherUsers : List Nat)
    (acc : Func × Nat) (pid : Nat) : Func × Nat :=
  let F1 := addIncomingIfMissing acc.1 pid v origId
  let F2 := addIncomingIfMissing F1 pid cloneV copyId
  let F3 := replaceUsesInUsers F2 otherUsers v pid
  demotePHIToStack F3 pid acc.2

/-- Reconciliation of one value `v` defined in the original body (the body
of the `for (auto &inst : *originalBlock)` loop, lines 250-368): skip
use-free values; collect the users outside the body and the clone; classify
them into join-point PHI readers and ordinary users; when an ordinary user
exists, create a fresh PHI node in the successor; then run `phiFixStep`
over the PHI users. -/
def reconcileInst (succId origId copyId : Nat) (vmap : List (Nat × Nat))
    (acc : Func × Nat) (v : Nat) : Func × Nat :=
  let F := acc.1
  if (usersOf F v).isEmpty then acc
  else
    let outs := (usersOf F v).filter (fun bi => bi.1 ≠ copyId ∧ bi.1 ≠ origId)
    if outs.isEmpty then acc
    else
      let succPhis := (outs.filter (isSuccPhi succId)).map (fun bi => bi.2.id)
      let others := (outs.filter (fun bi => !isSuccPhi succId bi)).map (fun bi => bi.2.id)
      let cloneV := lookupVM vmap v
      if others.isEmpty then
        succPhis.foldl (phiFixStep origId copyId v cloneV others) acc
      else
        let newPid := acc.2
        let F1 := modifyBlock F succId (insertAfterLeadingPhiDbg ⟨newPid, .phi []⟩)
        (succPhis ++ [newPid]).foldl (phiFixStep origId copyId v cloneV others) (F1, acc.2 + 1)

/-- The whole `if (successor)` body (lines 248-394): reconcile every
instruction of the original body, in order.  The source iterates the body's
live instruction list while demotion inserts stores into it; the inserted
stores produce no used value, so they fall to the `!inst.getNumUses()` skip
and folding over the body's snapshot is equivalent. -/
def reconcileBlock (F : Func) (succId origId copyId : Nat)
    (vmap : List (Nat × Nat)) (fresh : Nat) : Func × Nat :=
  match getBlock F origId with
  | none => (F, fresh)
  | some ob => (ob.insts.map (·.id)).foldl (reconcileInst succId origId copyId vmap) (F, fresh)

/-! ### The per-block transformation (steps 2-6, lines 213-400) -/

/-- What one successful per-block transformation produced: the head (husk)
block, the original body, the clone, and the join-point successor when the
original terminator had any successor. -/
structure TraceEnt where
  headId : Nat
  origId : Nat
  copyId : Nat
  succ : Option Nat
  deriving Repr, DecidableEq

/-- The transformation applied to a block whose Bernoulli trial succeeded
(lines 214-400): split off a join block when the terminator has more than
one successor, split the block at its first effective instruction into head
and body, clone the body and remap it, reconcile uses crossing the boundary
when a successor exists, erase the head's unconditional branch and replace
it with the opaque-predicate stub. -/
def transformSelectedBlock (F : Func) (bid : Nat) (fresh : Nat) :
    Func × Nat × Option TraceEnt :=
  match getBlock F bid with
  | none => (F, fresh, none)
  | some b =>
    match blockTerm b with
    | none => (F, fresh, none)
    | some t =>
      match getFirstNonPHIOrDbgOrLifetime b with
      | none => (F, fresh, none)
      | some inst1 =>
        let stepA : Func × Option Nat × Nat :=
          if 1 < t.successors.length then
            match b.insts.getLast? with
            | none => (F, none, fresh)
            | some ti =>
              let r := splitBasicBlock F bid ti.id fresh
              (r.1, some r.2.1, r.2.2)
          else if t.successors.length = 1 then (F, t.successors.head?, fresh)
          else (F, none, fresh)
        let F1 := stepA.1
        let succOpt := stepA.2.1
        let r2 := splitBasicBlock F1 bid inst1.id stepA.2.2
        let F2 := r2.1
        let origId := r2.2.1
        let r3 := cloneBasicBlock F2 origId r2.2.2
        let F3 := r3.1
        let copyId := r3.2.1
        let vmap := r3.2.2.1
        let r4 : Func × Nat :=
          match succOpt with
          | some s => reconcileBlock F3 s origId copyId vmap r3.2.2.2
          | none => (F3, r3.2.2.2)
        let F5 := modifyBlock r4.1 bid (fun hb => { hb with insts := hb.insts.dropLast })
        let r6 := createStub F5 bid origId copyId r4.2
        (r6.1, r6.2, some ⟨bid, origId, copyId, succOpt⟩)

/-! ### The Bernoulli trial and the engine loop -/

/-- The state of the member `engine`/`trial` pair: a stream of canonical
uniform draws and the current draw position.  `std::bernoulli_distribution`
evaluates one trial by comparing a canonical draw against its probability
parameter, consuming engine entropy. -/
structure RandState where
  stream : Nat → ℚ
  pos : Nat

/-- One `trial(engine)` evaluation at probability `p`. -/
def bernoulliDraw (p : ℚ) (r : RandState) : Bool × RandState :=
  (decide (r.stream r.pos < p), ⟨r.stream, r.pos + 1⟩)

/-- Running state of the `for (BasicBlock *block : blocks)` loop
(lines 199-401). -/
structure EngineSt where
  fn : Func
  modified : Bool
  count : Nat
  rs : RandState
  fresh : Nat
  trace : List TraceEnt

/-- One iteration of the engine loop: draw the Bernoulli trial; on failure
skip the block, on success transform it, bump `NumBlocksTransformed` and
record the modification. -/
def engineStep (p : ℚ) (st : EngineSt) (bid : Nat) : EngineSt :=
  let d := bernoulliDraw p st.rs
  if d.1 then
    let r := transformSelectedBlock st.fn bid st.fresh
    ⟨r.1, true, st.count + 1, d.2, r.2.1, st.trace ++ r.2.2.toList⟩
  else
    ⟨st.fn, st.modified, st.count, d.2, st.fresh, st.trace⟩

/-! ### The per-function entry point -/

/-- The command-line option surface of the pass: `bcfFunc`,
`bcfProbability`, `disableBcf`.  (`bcfSeed` only determines the engine
stream, which the model takes directly as `RandState`.) -/
structure Config where
  bcfFunc : List String
  bcfProbability : ℚ
  disableBcf : Bool

/-- Result of one `runOnFunction`: the returned `hasBeenModified` flag, the
function after mutation, the `NumBlocksTransformed` delta, the engine state
after the run, the next fresh identity, and the per-block trace. -/
structure RunResult where
  modified : Bool
  fn : Func
  count : Nat
  rs : RandState
  fresh : Nat
  trace : List TraceEnt

/-- Modelled from the spec: `ObfUtils::tagFunction(F, ObfUtils::BogusCFObf)`
and `Copy::isFunctionTagged(F, ObfUtils::BogusCFObf)` (from
`Transform/obf_utilities.h` and `Transform/copy.h`, implementations not
under `src/`) write and read "a single boolean/opaque tag attribute
attached to each Function, read at entry and written at exit"; modelled as
the `tagged` field. -/
def tagFunction (F : Func) : Func := { F with tagged := true }

/-- `BogusCF::runOnFunction` (lines 93-406).  `shuffle` stands for
`std::random_shuffle` at line 197, which permutes the candidate list using
the C library's separate `rand` source, not the member engine.
`trial.reset()` at line 195 clears only the distribution's cached state —
`std::bernoulli_distribution` caches nothing and the member engine keeps
its draw position — so no model state changes there. -/
def runOnFunction (cfg : Config) (shuffle : List Nat → List Nat) (F : Func)
    (rs : RandState) (fresh : Nat) : RunResult :=
  if cfg.disableBcf then ⟨false, F, 0, rs, fresh, []⟩
  else if F.isDeclaration then ⟨false, F, 0, rs, fresh, []⟩
  else if ¬F.tagged ∧ cfg.bcfProbability = 0 then ⟨false, F, 0, rs, fresh, []⟩
  else if ¬F.tagged ∧ ¬cfg.bcfFunc.isEmpty ∧ ¬cfg.bcfFunc.contains F.name then
    ⟨false, F, 0, rs, fresh, []⟩
  else
    match collectPass F with
    | none => ⟨false, F, 0, rs, fresh, []⟩
    | some cands =>
      if cands.isEmpty then ⟨false, F, 0, rs, fresh, []⟩
      else
        let r1 := normalizePhis F (allPhiIds F) fresh
        let st := (shuffle cands).foldl (engineStep cfg.bcfProbability)
          ⟨r1.1, false, 0, rs, r1.2, []⟩
        ⟨st.modified, if st.modified then tagFunction st.fn else st.fn,
         st.count, st.rs, st.fresh, st.trace⟩

/-! ### Module-level driver -/

/-- `BogusCF::doInitialization` (lines 74-91): the option range check.  The
seeding of the engine is the choice of `RandState.stream`. -/
def doInitialization (cfg : Config) : Except String Unit :=
  if cfg.bcfProbability < 0 ∨ cfg.bcfProbability > 1 then
    Except.error "BogusCF: Probability must be between 0 and 1"
  else Except.ok ()

/-- The per-function fold of the host pass manager, threading the shared
member engine (and the fresh-identity supply) across functions. -/
def runModuleGo (cfg : Config) (shuffle : List Nat → List Nat) :
    List Func → RandState → Nat → List (Bool × Func)
  | [], _, _ => []
  | f :: rest, rs, fresh =>
    let r := runOnFunction cfg shuffle f rs fresh
    (r.modified, r.fn) :: runModuleGo cfg shuffle rest r.rs r.fresh

/-- Modelled from the spec: the host diagnostic channel.  The probability
range error is raised through `LLVMContext::emitError`, which with no
diagnostic handler installed (LLVM 3.4) prints the message and exits, so
"transform does not run" — the whole module run aborts with the error and
no function is modified. -/
def runModule (cfg : Config) (shuffle : List Nat → List Nat) (fns : List Func)
    (rs : RandState) (fresh : Nat) : Except String (List (Bool × Func)) :=
  match doInitialization cfg with
  | .error e => .error e
  | .ok _ => .ok (runModuleGo cfg shuffle fns rs fresh)

/-! ### Observation helpers -/

def numBlocks (F : Func) : Nat := F.blocks.length

def countPhis (F : Func) : Nat :=
  (F.blocks.map (fun b => (b.insts.filter isPhi).length)).sum

def countAllocas (F : Func) : Nat :=
  (F.blocks.map (fun b => (b.insts.filter (fun i => i.kind == .alloca)).length)).sum

def allInstIds (F : Func) : List Nat :=
  F.blocks.flatMap (fun b => b.insts.map (·.id))

def blockIds (F : Func) : List Nat := F.blocks.map (·.id)

/-- Identity `iid` is (still) an instruction of `F`. -/
def hasInst (F : Func) (iid : Nat) : Prop := iid ∈ allInstIds F

/-- Successor list of the block with identity `bid`. -/
def succsOf (F : Func) (bid : Nat) : List Nat :=
  match getBlock F bid with
  | some b => blockSuccs b
  | none => []

/-- Terminator of the block with identity `bid`. -/
def termOf (F : Func) (bid : Nat) : Option Term :=
  match getBlock F bid with
  | some b => blockTerm b
  | none => none

/-! ### Well-formedness invariants -/

/-- Instruction identities of one block. -/
def instIdsB (b : BasicBlock) : List Nat := b.insts.map (·.id)

/-- The block is nonempty and its last instruction is a terminator. -/
def endsInTerm (b : BasicBlock) : Prop :=
  ∃ L, b.insts.getLast? = some L ∧ isTermInst L = true

/-- The state invariant maintained at every loop boundary of the transform:
all instruction identities are distinct, all block identities are distinct,
all identities are below the fresh-identity supply `n`, and every block is
nonempty and ends in a terminator. -/
def GoodF (F : Func) (n : Nat) : Prop :=
  (allInstIds F).Nodup ∧ (blockIds F).Nodup ∧
  (∀ i ∈ allInstIds F, i < n) ∧ (∀ b ∈ blockIds F, b < n) ∧
  (∀ b ∈ F.blocks, endsInTerm b)

/-- No PHI node exists anywhere in the function. -/
def phiFree (F : Func) : Prop :=
  ∀ b ∈ F.blocks, ∀ i ∈ b.insts, isPhi i = false

instance : DecidablePred (fun iid => hasInst F iid) := fun _ => by
  unfold hasInst; infer_instance

instance : Decidable (endsInTerm b) := by
  unfold endsInTerm
  cases b.insts.getLast? with
  | none => exact isFalse (by simp)
  | some L => exact decidable_of_iff (isTermInst L = true) (by simp)

instance : Decidable (GoodF F n) := by unfold GoodF; infer_instance

instance : Decidable (phiFree F) := by unfold phiFree; infer_instance

/-! ### Shape of a terminator: constructor and successors, operands erased -/

/-- The shape of a terminator: its constructor and successor blocks, with
value operands erased.  Value substitution preserves shapes. -/
def Term.shape (t : Term) : Term := t.mapOps (fun _ => 0)

/-- Terminator shape of the block with identity `bid` in `F`. -/
def termShapeOf (F : Func) (x : Nat) : Option Term :=
  (termOf F x).map Term.shape

/-- Terminator shape carried by an instruction payload. -/
def kindTermShape (k : InstKind) : Option Term :=
  match k with
  | .term t => some t.shape
  | _ => none

/-- Shape of a block's terminator (constructor and successors only). -/
def termShapeB (b : BasicBlock) : Option Term := (blockTerm b).map Term.shape

/-- An instruction rewrite that keeps identity, kind class and terminator
shape: value substitution, guarded substitution, `addIncoming`, PHI
retargeting. -/
structure InstHom (h : Inst → Inst) : Prop where
  id_eq : ∀ i, (h i).id = i.id
  phi_eq : ∀ i, isPhi (h i) = isPhi i
  dbg_eq : ∀ i, isDbg (h i) = isDbg i
  term_eq : ∀ i, isTermInst (h i) = isTermInst i
  shape_eq : ∀ i, kindTermShape (h i).kind = kindTermShape i.kind
  alloca_eq : ∀ i, ((h i).kind == InstKind.alloca) = (i.kind == InstKind.alloca)

/-- A block-level edit that inserts exactly the instruction `i`, preserving
order-irrelevant content, the block identity, and the terminator shape of
any properly terminated block. -/
def InsertsOne (g : BasicBlock → BasicBlock) (i : Inst) : Prop :=
  ∀ b, (g b).id = b.id ∧ (g b).insts.Perm (i :: b.insts) ∧
    (endsInTerm b → endsInTerm (g b) ∧ termShapeB (g b) = termShapeB b)

/-- All instructions of the function, in program order. -/
def allInsts (F : Func) : List Inst := F.blocks.flatMap (·.insts)

/-- The instruction with identity `pid` is a PHI node sitting in the block
with identity `bid`. -/
def phiInBlock (F : Func) (bid pid : Nat) : Prop :=
  ∃ b, getBlock F bid = some b ∧ ∃ ip ∈ b.insts, ip.id = pid ∧ isPhi ip = true

/-- A block that survives the per-block skips yet ends in an `InvokeInst`:
the whole-function veto condition. -/
def vetoBlock (entryId : Nat) (b : BasicBlock) : Bool :=
  !skipBlock entryId b && isInvokeTermB b

/-- Identities of the non-PHI instructions of the function. -/
def nonPhiIds (F : Func) : List Nat :=
  F.blocks.flatMap (fun b => (b.insts.filter (fun i => !isPhi i)).map (·.id))

/-- Control flow out of blocks `o` and `c` reconverges at one unique join
point reachable from both: each has the same single join point as its only
successor.  (Equivalently: there is a `j` with `succsOf F o = [j]` and
`succsOf F c = [j]`.) -/
def JoinsAt (F : Func) (o c : Nat) : Prop :=
  (succsOf F o).length = 1 ∧ succsOf F o = succsOf F c

instance : Decidable (JoinsAt F o c) := by unfold JoinsAt; infer_instance

/-- The identity of the instruction sitting in the terminator slot (the last
position) of the block with identity `y` — the instruction that
`block->getTerminator()->eraseFromParent()` at line 397 would remove. -/
def lastIdOf (F : Func) (y : Nat) : Option Nat :=
  (getBlock F y).bind (fun b => b.insts.getLast?.map (fun i => i.id))

/-- The block has an effective first instruction (its first
non-PHI-non-debug instruction) and that instruction is not the terminator —
exactly the per-block condition under which the source's per-block skips do
not fire for reasons of block content (lines 153-161). -/
def hasEffFirst (b : BasicBlock) : Prop :=
  ∃ i1, getFirstNonPHIOrDbgOrLifetime b = some i1 ∧ isTermInst i1 = false

/-- An edit preserves, block by block, the existence of a non-terminator
effective first instruction. -/
def EffOK (F F' : Func) : Prop :=
  ∀ y b b', getBlock F y = some b → getBlock F' y = some b' →
    hasEffFirst b → hasEffFirst b'

/-- The envelope of an in-place IR edit (no block created or destroyed)
relative to a base identity bound `m`: well-formedness is kept, the fresh
supply only grows, every terminator keeps its shape, every block keeps the
identity of its terminator-slot instruction, the block list is untouched,
every instruction below the base bound survives, every new instruction
identity comes from the fresh supply, and every block keeps a
non-terminator effective first instruction. -/
def EditOK (m : Nat) (F : Func) (fresh : Nat) (F' : Func) (fresh' : Nat) : Prop :=
  GoodF F' fresh' ∧ fresh ≤ fresh' ∧
  (∀ y, termShapeOf F' y = termShapeOf F y) ∧
  (∀ y, lastIdOf F' y = lastIdOf F y) ∧
  blockIds F' = blockIds F ∧
  numBlocks F' = numBlocks F ∧
  (∀ x ∈ allInstIds F, x < m → x ∈ allInstIds F') ∧
  (∀ x ∈ allInstIds F', x ∈ allInstIds F ∨ fresh ≤ x) ∧
  EffOK F F'

/-! ### Concrete inputs used by the claim witnesses and counterexamples -/

/-- Default options with probability 1 (`-bcfProbability=1`). -/
def exCfgP1 : Config := ⟨[], 1, false⟩

/-- Default options with probability 0 (`-bcfProbability=0`). -/
def exCfgP0 : Config := ⟨[], 0, false⟩

/-- One half, built directly as a normalised rational so that concrete runs
evaluate inside the kernel. -/
def exHalf : ℚ := ⟨1, 2, by decide, by decide⟩

/-- Three quarters, built directly as a normalised rational. -/
def exThreeQuarters : ℚ := ⟨3, 4, by decide, by decide⟩

/-- Default options with probability 1/2. -/
def exCfgHalf : Config := ⟨[], exHalf, false⟩

/-- An out-of-range probability (`-bcfProbability=2`). -/
def exCfgBad : Config := ⟨[], 2, false⟩

/-- An engine whose canonical draws are all 0 (every trial succeeds for any
positive probability). -/
def exStream0 : RandState := ⟨fun _ => 0, 0⟩

/-- An engine whose first canonical draw is 0 and later draws are 3/4. -/
def exStreamTwo : RandState := ⟨fun k => if k = 0 then 0 else exThreeQuarters, 0⟩

/-- Two blocks: entry branching to a block with one real instruction and a
return.  The second block is the only transformation candidate. -/
def exFunA : Func :=
  ⟨"a", false, false,
   [⟨0, false, [⟨10, .term (.br 1)⟩]⟩,
    ⟨1, false, [⟨11, .simple []⟩, ⟨12, .term (.ret none)⟩]⟩]⟩

/-- An exceptional transfer in the entry block: the entry skip fires before
the invoke check, so the function is not vetoed. -/
def exFunB : Func :=
  ⟨"b", false, false,
   [⟨0, false, [⟨10, .simple []⟩, ⟨11, .term (.invoke 1 2)⟩]⟩,
    ⟨1, false, [⟨12, .simple []⟩, ⟨13, .term (.ret none)⟩]⟩,
    ⟨2, true, [⟨14, .term (.ret none)⟩]⟩]⟩

/-- An exceptional transfer in a non-skipped block: the whole function is
vetoed. -/
def exFunB2 : Func :=
  ⟨"b2", false, false,
   [⟨0, false, [⟨10, .term (.br 1)⟩]⟩,
    ⟨1, false, [⟨12, .simple []⟩, ⟨13, .term (.invoke 2 3)⟩]⟩,
    ⟨2, false, [⟨15, .simple []⟩, ⟨16, .term (.ret none)⟩]⟩,
    ⟨3, true, [⟨14, .term (.ret none)⟩]⟩]⟩

/-- A PHI node in a terminator-only block: the candidate list is empty and
the transform returns before the PHI-demotion loop runs. -/
def exFunC : Func :=
  ⟨"c", false, false,
   [⟨0, false, [⟨9, .simple []⟩, ⟨10, .term (.br 1)⟩]⟩,
    ⟨1, false, [⟨11, .phi [(9, 0)]⟩, ⟨12, .term (.ret none)⟩]⟩]⟩

/-- A PHI node in a block that is also a transformation candidate. -/
def exFunD : Func :=
  ⟨"d", false, false,
   [⟨0, false, [⟨9, .simple []⟩, ⟨10, .term (.br 1)⟩]⟩,
    ⟨1, false, [⟨11, .phi [(9, 0)]⟩, ⟨12, .simple [11]⟩, ⟨13, .term (.ret none)⟩]⟩]⟩

/-- The same shape as `exFunA`, under another name (the "other" function
processed first in the two-run engine-state experiment). -/
def exFunG : Func :=
  ⟨"g", false, false,
   [⟨0, false, [⟨10, .term (.br 1)⟩]⟩,
    ⟨1, false, [⟨11, .simple []⟩, ⟨12, .term (.ret none)⟩]⟩]⟩

/-- `exFunA` with the obfuscation tag already set, as a first run leaves it. -/
def exFunT : Func :=
  ⟨"t", false, true,
   [⟨0, false, [⟨10, .term (.br 1)⟩]⟩,
    ⟨1, false, [⟨11, .simple []⟩, ⟨12, .term (.ret none)⟩]⟩]⟩

/-- A declaration: a function with no body in this translation unit. -/
def exDecl : Func := ⟨"decl", true, false, []⟩

/-- The first run of the transform on `exFunA` at probability 1. -/
def exRunA1 : RunResult := runOnFunction exCfgP1 id exFunA exStream0 100

/-- The second run, on the function the first run produced, threading the
engine state as the host pass manager does. -/
def exRunA2 : RunResult := runOnFunction exCfgP1 id exRunA1.fn exRunA1.rs exRunA1.fresh

/-- `exFunA` processed alone from a fresh engine at probability 1/2: the
first canonical draw 0 succeeds. -/
def exRunFAlone : RunResult := runOnFunction exCfgHalf id exFunA exStreamTwo 100

/-- `exFunG` processed first from the same fresh engine. -/
def exRunG : RunResult := runOnFunction exCfgHalf id exFunG exStreamTwo 100

/-- `exFunA` processed after `exFunG`, threading the member engine state
across the two `runOnFunction` calls as the pass manager does: the draw it
sees is 3/4 and fails. -/
def exRunFAfterG : RunResult := runOnFunction exCfgHalf id exFunA exRunG.rs exRunG.fresh

/-- Mid-reconciliation state for one transformed block: head block 1,
original body 2, clone 3, join-point successor 4.  The join point holds a
PHI node (50) reading value 30 along the edge from the original body, and
an ordinary instruction (51) reading the PHI. -/
def exS7 : Func :=
  ⟨"s7", false, false,
   [⟨1, false, [⟨20, .term (.br 2)⟩]⟩,
    ⟨2, false, [⟨30, .simple []⟩, ⟨31, .term (.br 4)⟩]⟩,
    ⟨3, false, [⟨40, .simple []⟩, ⟨41, .term (.br 4)⟩]⟩,
    ⟨4, false, [⟨50, .phi [(30, 2)]⟩, ⟨51, .simple [50]⟩, ⟨52, .term (.ret none)⟩]⟩]⟩

/-- The clone map produced by cloning block 2 into block 3 in `exS7`. -/
def exVmap7 : List (Nat × Nat) := [(30, 40), (31, 41)]

@[simp] theorem Term.successors_mapOps (f : Nat → Nat) (t : Term) :
    (t.mapOps f).successors = t.successors := by
  cases t <;> rfl

@[simp] theorem Term.shape_mapOps (f : Nat → Nat) (t : Term) :
    (t.mapOps f).shape = t.shape := by
  cases t with
  | ret v => cases v <;> rfl
  | _ => rfl

@[simp] theorem Term.successors_shape (t : Term) :
    t.shape.successors = t.successors := by
  cases t <;> rfl

@[simp] theorem InstKind.mapOps_id_isPhi (f : Nat → Nat) (i : Inst) :
    isPhi ⟨i.id, i.kind.mapOps f⟩ = isPhi i := by
  cases i with
  | mk iid k => cases k <;> rfl

@[simp] theorem InstKind.mapOps_id_isDbg (f : Nat → Nat) (i : Inst) :
    isDbg ⟨i.id, i.kind.mapOps f⟩ = isDbg i := by
  cases i with
  | mk iid k => cases k <;> rfl

@[simp] theorem InstKind.mapOps_id_isTerm (f : Nat → Nat) (i : Inst) :
    isTermInst ⟨i.id, i.kind.mapOps f⟩ = isTermInst i := by
  cases i with
  | mk iid k => cases k <;> rfl

@[simp] theorem Inst.subst_id (o n : Nat) (i : Inst) : (Inst.subst o n i).id = i.id := rfl

@[simp] theorem Inst.remap_id (vm : List (Nat × Nat)) (i : Inst) :
    (Inst.remap vm i).id = i.id := rfl

@[simp] theorem isPhi_subst (o n : Nat) (i : Inst) : isPhi (Inst.subst o n i) = isPhi i := by
  cases i with
  | mk iid k => cases k <;> rfl

@[simp] theorem isTermInst_subst (o n : Nat) (i : Inst) :
    isTermInst (Inst.subst o n i) = isTermInst i := by
  cases i with
  | mk iid k => cases k <;> rfl

@[simp] theorem isPhi_remap (vm : List (Nat × Nat)) (i : Inst) :
    isPhi (Inst.remap vm i) = isPhi i := by
  cases i with
  | mk iid k => cases k <;> rfl

@[simp] theorem isTermInst_remap (vm : List (Nat × Nat)) (i : Inst) :
    isTermInst (Inst.remap vm i) = isTermInst i := by
  cases i with
  | mk iid k => cases k <;> rfl

/-! ### Generic list helper lemmas -/

theorem getLast?_cons_ne {α} (a : α) {l : List α} (h : l ≠ []) :
    (a :: l).getLast? = l.getLast? := by
  cases l with
  | nil => exact absurd rfl h
  | cons x xs => simp [List.getLast?_cons_cons]

theorem getLast?_of_dropWhile_ne_nil {α} {p : α → Bool} {l : List α}
    (h : l.dropWhile p ≠ []) : (l.dropWhile p).getLast? = l.getLast? := by
  induction l with
  | nil => simp at h
  | cons a l ih =>
    by_cases hp : p a
    · rw [List.dropWhile_cons_of_pos hp] at h ⊢
      rw [ih h]
      have hl : l ≠ [] := by
        intro he; rw [he] at h; simp at h
      exact (getLast?_cons_ne a hl).symm
    · rw [List.dropWhile_cons_of_neg hp]

theorem getLast?_filter_of_last {α} {p : α → Bool} {l : List α} {L : α}
    (hl : l.getLast? = some L) (hp : p L = true) :
    (l.filter p).getLast? = some L := by
  induction l with
  | nil => simp at hl
  | cons a l ih =>
    cases l with
    | nil =>
      simp at hl
      subst hl
      simp [List.filter_cons, hp]
    | cons x xs =>
      rw [List.getLast?_cons_cons] at hl
      have hrec := ih hl
      have hne : (x :: xs).filter p ≠ [] := by
        intro he; rw [he] at hrec; simp at hrec
      rw [List.filter_cons]
      by_cases ha : p a
      · simp only [ha, if_pos]
        rw [getLast?_cons_ne a hne]
        exact hrec
      · simp only [ha, Bool.false_eq_true, if_neg, not_false_iff]
        exact hrec

theorem dropLast_append_last {α} {l : List α} {L : α} (h : l.getLast? = some L) :
    l.dropLast ++ [L] = l := by
  have hne : l ≠ [] := by
    intro he; rw [he] at h; simp at h
  have h2 : l.getLast hne = L := by
    rw [List.getLast?_eq_getLast l hne, Option.some_inj] at h
    exact h
  rw [← h2]
  exact List.dropLast_append_getLast hne

/-! ### `getBlock`, `modifyBlock` and `mapInsts` lemmas -/

theorem getBlock_map (f : BasicBlock → BasicBlock) (hf : ∀ b, (f b).id = b.id)
    (L : List BasicBlock) (x : Nat) (nm : String) (d t : Bool) :
    getBlock ⟨nm, d, t, L.map f⟩ x = (getBlock ⟨nm, d, t, L⟩ x).map f := by
  unfold getBlock
  have hpred : ((fun b => b.id == x) ∘ f) = (fun b : BasicBlock => b.id == x) := by
    funext b
    simp [Function.comp, hf]
  simp only [List.find?_map, hpred]

theorem getBlock_modify (F : Func) (bid : Nat) (g : BasicBlock → BasicBlock)
    (hg : ∀ b, (g b).id = b.id) (x : Nat) :
    getBlock (modifyBlock F bid g) x =
      (getBlock F x).map (fun b => if b.id = bid then g b else b) := by
  cases F with
  | mk nm d t L =>
    exact getBlock_map (fun b => if b.id = bid then g b else b)
      (fun b => by by_cases h : b.id = bid <;> simp [h, hg]) L x nm d t

theorem getBlock_id (F : Func) (x : Nat) {b : BasicBlock}
    (h : getBlock F x = some b) : b.id = x := by
  have := List.find?_some h
  simpa using this

theorem getBlock_mem (F : Func) (x : Nat) {b : BasicBlock}
    (h : getBlock F x = some b) : b ∈ F.blocks :=
  List.mem_of_find?_eq_some h

theorem getBlock_modify_ne (F : Func) (bid : Nat) (g : BasicBlock → BasicBlock)
    (hg : ∀ b, (g b).id = b.id) {x : Nat} (hx : x ≠ bid) :
    getBlock (modifyBlock F bid g) x = getBlock F x := by
  rw [getBlock_modify F bid g hg x]
  cases h : getBlock F x with
  | none => rfl
  | some b =>
    have hbx : b.id = x := getBlock_id F x h
    simp [hbx, hx]

theorem getBlock_modify_self (F : Func) (bid : Nat) (g : BasicBlock → BasicBlock)
    (hg : ∀ b, (g b).id = b.id) :
    getBlock (modifyBlock F bid g) bid = (getBlock F bid).map g := by
  rw [getBlock_modify F bid g hg bid]
  cases h : getBlock F bid with
  | none => rfl
  | some b =>
    have hbx : b.id = bid := getBlock_id F bid h
    simp [hbx]

theorem blockIds_modify (F : Func) (bid : Nat) (g : BasicBlock → BasicBlock)
    (hg : ∀ b, (g b).id = b.id) :
    blockIds (modifyBlock F bid g) = blockIds F := by
  unfold blockIds modifyBlock
  simp only [List.map_map]
  exact List.map_congr_left (fun b _ => by by_cases h : b.id = bid <;> simp [h, hg])

theorem numBlocks_modify (F : Func) (bid : Nat) (g : BasicBlock → BasicBlock) :
    numBlocks (modifyBlock F bid g) = numBlocks F := by
  simp [numBlocks, modifyBlock]

theorem termShapeOf_modify_ne (F : Func) (bid : Nat) (g : BasicBlock → BasicBlock)
    (hg : ∀ b, (g b).id = b.id) {x : Nat} (hx : x ≠ bid) :
    termShapeOf (modifyBlock F bid g) x = termShapeOf F x := by
  unfold termShapeOf termOf
  rw [getBlock_modify_ne F bid g hg hx]

theorem succsOf_eq_termOf (H : Func) (x : Nat) :
    succsOf H x = ((termOf H x).map Term.successors).getD [] := by
  unfold succsOf termOf blockSuccs
  cases getBlock H x with
  | none => rfl
  | some b => cases h2 : blockTerm b <;> simp [h2]

theorem succsOf_eq_of_termShapeOf_eq {F G : Func} {x : Nat}
    (h : termShapeOf F x = termShapeOf G x) : succsOf F x = succsOf G x := by
  rw [succsOf_eq_termOf F x, succsOf_eq_termOf G x]
  have hshape : ∀ (o : Option Term),
      o.map Term.successors = (o.map Term.shape).map Term.successors := by
    intro o; cases o <;> simp
  rw [hshape (termOf F x), hshape (termOf G x)]
  unfold termShapeOf at h
  rw [h]

/-! ### Instruction-wise rewrites: the `InstHom` family -/

theorem termShapeB_eq_getLast (b : BasicBlock) :
    termShapeB b = b.insts.getLast?.bind (fun i => kindTermShape i.kind) := by
  unfold termShapeB blockTerm
  cases b.insts.getLast? with
  | none => rfl
  | some i => cases i with | mk iid k => cases k <;> rfl

theorem termShapeOf_eq (F : Func) (x : Nat) :
    termShapeOf F x = (getBlock F x).bind (fun b => termShapeB b) := by
  unfold termShapeOf termOf termShapeB
  cases getBlock F x <;> rfl

theorem instHom_mapOps (f : Nat → Nat) :
    InstHom (fun i => ⟨i.id, i.kind.mapOps f⟩) := by
  refine ⟨fun i => rfl, ?_, ?_, ?_, ?_, ?_⟩ <;>
    (intro i; cases i with
     | mk iid k => cases k <;> simp [InstKind.mapOps, kindTermShape, isPhi, isDbg, isTermInst])

theorem instHom_subst (o n : Nat) : InstHom (Inst.subst o n) :=
  instHom_mapOps (substV o n)

theorem instHom_ite (c : Inst → Bool) {h : Inst → Inst} (H : InstHom h) :
    InstHom (fun i => if c i then h i else i) := by
  refine ⟨?_, ?_, ?_, ?_, ?_, ?_⟩ <;>
    (intro i; by_cases hc : c i <;>
      simp [hc, H.id_eq, H.phi_eq, H.dbg_eq, H.term_eq, H.shape_eq, H.alloca_eq])

theorem instHom_phiRetargetI (o n : Nat) : InstHom (phiRetargetI o n) := by
  refine ⟨?_, ?_, ?_, ?_, ?_, ?_⟩ <;>
    (intro i; cases i with
     | mk iid k => cases k <;> simp [phiRetargetI, kindTermShape, isPhi, isDbg, isTermInst])

theorem addIncomingI_cases (pid v bid : Nat) (i : Inst) :
    addIncomingI pid v bid i = i ∨
      ∃ inc, i.kind = InstKind.phi inc ∧
        addIncomingI pid v bid i = ⟨i.id, InstKind.phi (inc ++ [(v, bid)])⟩ := by
  cases i with
  | mk iid k =>
    unfold addIncomingI
    by_cases h : iid = pid
    · cases k with
      | phi inc =>
        by_cases ha : inc.any (fun vb => vb.2 == bid)
        · simp [h, ha]
        · simp only [h, if_true, ha, Bool.false_eq_true, if_neg, not_false_iff]
          exact Or.inr ⟨inc, rfl, rfl⟩
      | dbg => simp [h]
      | simple ops => simp [h]
      | alloca => simp [h]
      | load s => simp [h]
      | store v2 s => simp [h]
      | term t => simp [h]
    · simp [h]

theorem instHom_addIncomingI (pid v bid : Nat) : InstHom (addIncomingI pid v bid) := by
  refine ⟨?_, ?_, ?_, ?_, ?_, ?_⟩ <;>
    (intro i
     rcases addIncomingI_cases pid v bid i with h | ⟨inc, hk, he⟩
     · rw [h]
     · rw [he]
       try simp [isPhi, isDbg, isTermInst, kindTermShape, hk])

/-! ### `mapInsts` preservation -/

theorem instIdsB_map {h : Inst → Inst} (H : InstHom h) (b : BasicBlock) :
    instIdsB { b with insts := b.insts.map h } = instIdsB b := by
  unfold instIdsB
  simp only [List.map_map]
  exact List.map_congr_left (fun i _ => H.id_eq i)

theorem allInstIds_mapInsts {h : Inst → Inst} (H : InstHom h) (F : Func) :
    allInstIds (mapInsts h F) = allInstIds F := by
  unfold allInstIds mapInsts
  simp only
  induction F.blocks with
  | nil => rfl
  | cons b l ih =>
    simp only [List.map_cons, List.flatMap_cons, ih]
    congr 1
    simp only [List.map_map]
    exact List.map_congr_left (fun i _ => H.id_eq i)

theorem blockIds_mapInsts (h : Inst → Inst) (F : Func) :
    blockIds (mapInsts h F) = blockIds F := by
  unfold blockIds mapInsts
  simp [List.map_map]

theorem numBlocks_mapInsts (h : Inst → Inst) (F : Func) :
    numBlocks (mapInsts h F) = numBlocks F := by
  simp [numBlocks, mapInsts]

theorem termShapeB_map {h : Inst → Inst} (H : InstHom h) (b : BasicBlock) :
    termShapeB { b with insts := b.insts.map h } = termShapeB b := by
  rw [termShapeB_eq_getLast, termShapeB_eq_getLast]
  simp only [List.getLast?_map]
  cases b.insts.getLast? with
  | none => rfl
  | some i => simp [H.shape_eq i]

theorem termShapeOf_mapInsts {h : Inst → Inst} (H : InstHom h) (F : Func) (x : Nat) :
    termShapeOf (mapInsts h F) x = termShapeOf F x := by
  rw [termShapeOf_eq, termShapeOf_eq]
  have : getBlock (mapInsts h F) x =
      (getBlock F x).map (fun b => { b with insts := b.insts.map h }) := by
    cases F with
    | mk nm d t L =>
      exact getBlock_map (fun b => { b with insts := b.insts.map h })
        (fun b => rfl) L x nm d t
  rw [this]
  cases getBlock F x with
  | none => rfl
  | some b => simp [termShapeB_map H]

theorem countPhis_mapInsts {h : Inst → Inst} (H : InstHom h) (F : Func) :
    countPhis (mapInsts h F) = countPhis F := by
  unfold countPhis mapInsts
  simp only [List.map_map]
  congr 1
  refine List.map_congr_left (fun b _ => ?_)
  simp only [Function.comp]
  rw [List.filter_map, List.length_map]
  exact congrArg List.length (List.filter_congr (fun i _ => H.phi_eq i))

theorem countAllocas_mapInsts {h : Inst → Inst} (H : InstHom h) (F : Func) :
    countAllocas (mapInsts h F) = countAllocas F := by
  unfold countAllocas mapInsts
  simp only [List.map_map]
  congr 1
  refine List.map_congr_left (fun b _ => ?_)
  simp only [Function.comp]
  rw [List.filter_map, List.length_map]
  exact congrArg List.length (List.filter_congr (fun i _ => H.alloca_eq i))

theorem phiFree_mapInsts {h : Inst → Inst} (H : InstHom h) {F : Func}
    (hf : phiFree F) : phiFree (mapInsts h F) := by
  intro b hb i hi
  simp only [mapInsts, List.mem_map] at hb
  obtain ⟨b0, hb0, rfl⟩ := hb
  simp only [List.mem_map] at hi
  obtain ⟨i0, hi0, rfl⟩ := hi
  rw [H.phi_eq i0]
  exact hf b0 hb0 i0 hi0

theorem endsInTerm_map {h : Inst → Inst} (H : InstHom h) {b : BasicBlock}
    (hb : endsInTerm b) : endsInTerm { b with insts := b.insts.map h } := by
  obtain ⟨L, hL, hLt⟩ := hb
  refine ⟨h L, ?_, ?_⟩
  · simp [List.getLast?_map, hL]
  · rw [H.term_eq L]; exact hLt

theorem goodF_mapInsts {h : Inst → Inst} (H : InstHom h) {F : Func} {n : Nat}
    (hg : GoodF F n) : GoodF (mapInsts h F) n := by
  obtain ⟨h1, h2, h3, h4, h5⟩ := hg
  refine ⟨?_, ?_, ?_, ?_, ?_⟩
  · rw [allInstIds_mapInsts H]; exact h1
  · rw [blockIds_mapInsts]; exact h2
  · rw [allInstIds_mapInsts H]; exact h3
  · rw [blockIds_mapInsts]; exact h4
  · intro b hb
    simp only [mapInsts, List.mem_map] at hb
    obtain ⟨b0, hb0, rfl⟩ := hb
    exact endsInTerm_map H (h5 b0 hb0)

/-! ### Insertion effects -/

theorem goodF_mono {F : Func} {n m : Nat} (h : GoodF F n) (hnm : n ≤ m) : GoodF F m := by
  obtain ⟨h1, h2, h3, h4, h5⟩ := h
  exact ⟨h1, h2, fun i hi => lt_of_lt_of_le (h3 i hi) hnm,
    fun b hb => lt_of_lt_of_le (h4 b hb) hnm, h5⟩

theorem modifyBlock_not_found {F : Func} {bid : Nat} {g : BasicBlock → BasicBlock}
    (h : getBlock F bid = none) : modifyBlock F bid g = F := by
  unfold modifyBlock
  cases F with
  | mk nm d t L =>
    simp only [Func.mk.injEq, true_and]
    unfold getBlock at h
    rw [List.find?_eq_none] at h
    have : ∀ b ∈ L, (if b.id = bid then g b else b) = b := by
      intro b hb
      have := h b hb
      simp only [beq_iff_eq] at this
      rw [if_neg this]
    exact (List.map_congr_left this).trans (List.map_id' L)

theorem insertsOne_insertBeforeTerm (i : Inst) (hi : kindTermShape i.kind = none) :
    InsertsOne (insertBeforeTerm i) i := by
  intro b
  cases h : b.insts.getLast? with
  | none =>
    have hg : insertBeforeTerm i b = { b with insts := [i] } := by
      unfold insertBeforeTerm
      rw [h]
    rw [List.getLast?_eq_none_iff] at h
    refine ⟨by rw [hg], by rw [hg, h], fun he => ?_⟩
    obtain ⟨L, hL, _⟩ := he
    rw [h] at hL
    simp at hL
  | some t =>
    have hg : insertBeforeTerm i b = { b with insts := b.insts.dropLast ++ [i, t] } := by
      unfold insertBeforeTerm
      rw [h]
    rw [hg]
    refine ⟨rfl, ?_, fun he => ?_⟩
    · have hb : b.insts.dropLast ++ [t] = b.insts := dropLast_append_last h
      have h1 : (b.insts.dropLast ++ i :: [t]).Perm (i :: (b.insts.dropLast ++ [t])) :=
        List.perm_middle
      rw [hb] at h1
      exact h1
    · obtain ⟨L, hL, hLt⟩ := he
      rw [h, Option.some_inj] at hL
      subst hL
      have hlast : (b.insts.dropLast ++ [i, t]).getLast? = some t := by
        rw [show b.insts.dropLast ++ [i, t] = (b.insts.dropLast ++ [i]) ++ [t] by simp]
        exact List.getLast?_concat _
      constructor
      · exact ⟨t, hlast, hLt⟩
      · rw [termShapeB_eq_getLast, termShapeB_eq_getLast]
        simp only [hlast, h]

theorem insertsOne_insertSplit (p : Inst → Bool) (i : Inst)
    (hi : kindTermShape i.kind = none)
    (hp : ∀ j, p j = true → isTermInst j = false) :
    InsertsOne (fun b => { b with insts := b.insts.takeWhile p ++ i :: b.insts.dropWhile p }) i := by
  intro b
  refine ⟨rfl, ?_, fun he => ?_⟩
  · have h1 : (b.insts.takeWhile p ++ i :: b.insts.dropWhile p).Perm
        (i :: (b.insts.takeWhile p ++ b.insts.dropWhile p)) := List.perm_middle
    rw [List.takeWhile_append_dropWhile] at h1
    exact h1
  · obtain ⟨L, hL, hLt⟩ := he
    have hdw : b.insts.dropWhile p ≠ [] := by
      intro hnil
      have hall : ∀ x ∈ b.insts, p x := List.dropWhile_eq_nil_iff.mp hnil
      have hLm : L ∈ b.insts := List.mem_of_mem_getLast? hL
      have := hp L (hall L hLm)
      rw [hLt] at this
      simp at this
    have hlast : (b.insts.takeWhile p ++ i :: b.insts.dropWhile p).getLast? = some L := by
      rw [List.getLast?_append_of_ne_nil _ (by simp)]
      rw [getLast?_cons_ne i hdw]
      rw [getLast?_of_dropWhile_ne_nil hdw]
      exact hL
    constructor
    · exact ⟨L, hlast, hLt⟩
    · rw [termShapeB_eq_getLast, termShapeB_eq_getLast]
      simp only [hlast, hL]

theorem find?_id_decomp {l : List BasicBlock} {bid : Nat} {b : BasicBlock}
    (hnd : (l.map (·.id)).Nodup) (h : l.find? (fun x => x.id == bid) = some b) :
    ∃ l1 l2, l = l1 ++ b :: l2 ∧ b.id = bid ∧
      (∀ x ∈ l1, x.id ≠ bid) ∧ (∀ x ∈ l2, x.id ≠ bid) := by
  induction l with
  | nil => simp at h
  | cons a l ih =>
    rw [List.find?_cons] at h
    by_cases ha : (a.id == bid) = true
    · simp only [ha] at h
      rw [Option.some_inj] at h
      subst h
      rw [beq_iff_eq] at ha
      refine ⟨[], l, by simp, ha, by simp, ?_⟩
      intro x hx
      rw [List.map_cons, List.nodup_cons] at hnd
      intro hxid
      refine hnd.1 ?_
      have : x.id ∈ List.map (fun y => y.id) l := List.mem_map_of_mem _ hx
      rwa [hxid, ← ha] at this
    · rw [Bool.not_eq_true] at ha
      simp only [ha] at h
      rw [beq_eq_false_iff_ne] at ha
      rw [List.map_cons, List.nodup_cons] at hnd
      obtain ⟨l1, l2, hl, hb, h1, h2⟩ := ih hnd.2 h
      refine ⟨a :: l1, l2, by rw [hl]; rfl, hb, ?_, h2⟩
      intro x hx
      rcases List.mem_cons.mp hx with rfl | hx2
      · exact ha
      · exact h1 x hx2

theorem getBlock_decomp {F : Func} {bid : Nat} {b : BasicBlock}
    (hnd : (blockIds F).Nodup) (h : getBlock F bid = some b) :
    ∃ l1 l2, F.blocks = l1 ++ b :: l2 ∧ b.id = bid ∧
      (∀ x ∈ l1, x.id ≠ bid) ∧ (∀ x ∈ l2, x.id ≠ bid) :=
  find?_id_decomp hnd h

theorem modifyBlock_blocks_decomp {F : Func} {bid : Nat} {g : BasicBlock → BasicBlock}
    {l1 l2 : List BasicBlock} {b : BasicBlock}
    (hF : F.blocks = l1 ++ b :: l2) (hb : b.id = bid)
    (h1 : ∀ x ∈ l1, x.id ≠ bid) (h2 : ∀ x ∈ l2, x.id ≠ bid) :
    (modifyBlock F bid g).blocks = l1 ++ g b :: l2 := by
  unfold modifyBlock
  simp only [hF, List.map_append, List.map_cons]
  rw [if_pos hb]
  congr 1
  · exact (List.map_congr_left (fun x hx => if_neg (h1 x hx))).trans (List.map_id' l1)
  · congr 1
    exact (List.map_congr_left (fun x hx => if_neg (h2 x hx))).trans (List.map_id' l2)

theorem allInstIds_blocks_eq (F : Func) :
    allInstIds F = F.blocks.flatMap instIdsB := rfl

theorem allInstIds_of_blocks {F : Func} {l1 l2 : List BasicBlock} {b : BasicBlock}
    (hF : F.blocks = l1 ++ b :: l2) :
    allInstIds F = l1.flatMap instIdsB ++ (instIdsB b ++ l2.flatMap instIdsB) := by
  rw [allInstIds_blocks_eq, hF]
  simp [List.flatMap_append]

theorem perm_insert_middle {A B C : List Nat} {a : Nat} :
    (A ++ ((a :: B) ++ C)).Perm (a :: (A ++ (B ++ C))) := by
  have h1 : (A ++ a :: (B ++ C)).Perm (a :: (A ++ (B ++ C))) := List.perm_middle
  simpa [List.append_assoc] using h1

theorem modify_insert_effects {F : Func} {n bid : Nat} {g : BasicBlock → BasicBlock}
    {i : Inst} (hg : InsertsOne g i) (hG : GoodF F n) (hle : n ≤ i.id) :
    GoodF (modifyBlock F bid g) (i.id + 1) ∧
    (∀ x ∈ allInstIds F, x ∈ allInstIds (modifyBlock F bid g)) ∧
    (∀ x ∈ allInstIds (modifyBlock F bid g), x ∈ allInstIds F ∨ x = i.id) ∧
    (∀ y, termShapeOf (modifyBlock F bid g) y = termShapeOf F y) ∧
    blockIds (modifyBlock F bid g) = blockIds F ∧
    numBlocks (modifyBlock F bid g) = numBlocks F := by
  obtain ⟨hnd, hbnd, hilt, hblt, hterm⟩ := hG
  have hgid : ∀ b, (g b).id = b.id := fun b => (hg b).1
  have hbids : blockIds (modifyBlock F bid g) = blockIds F := blockIds_modify F bid g hgid
  have hnum : numBlocks (modifyBlock F bid g) = numBlocks F := numBlocks_modify F bid g
  have hshape : ∀ y, termShapeOf (modifyBlock F bid g) y = termShapeOf F y := by
    intro y
    by_cases hy : y = bid
    · rw [hy]
      rw [termShapeOf_eq, termShapeOf_eq, getBlock_modify_self F bid g hgid]
      cases hfb : getBlock F bid with
      | none => rfl
      | some b =>
        show ((some (g b)).bind fun b => termShapeB b) = ((some b).bind fun b => termShapeB b)
        show termShapeB (g b) = termShapeB b
        exact ((hg b).2.2 (hterm b (getBlock_mem F bid hfb))).2
    · rw [termShapeOf_eq, termShapeOf_eq, getBlock_modify_ne F bid g hgid hy]
  cases hfb : getBlock F bid with
  | none =>
    rw [modifyBlock_not_found hfb]
    rw [modifyBlock_not_found hfb] at hshape hbids hnum
    exact ⟨goodF_mono ⟨hnd, hbnd, hilt, hblt, hterm⟩ (le_trans hle (Nat.le_succ _)),
      fun x hx => hx, fun x hx => Or.inl hx, hshape, hbids, hnum⟩
  | some b =>
    obtain ⟨l1, l2, hFb, hbid, h1, h2⟩ := getBlock_decomp hbnd hfb
    have hblocks : (modifyBlock F bid g).blocks = l1 ++ g b :: l2 :=
      modifyBlock_blocks_decomp hFb hbid h1 h2
    have hidsB : (instIdsB (g b)).Perm (i.id :: instIdsB b) := by
      have := ((hg b).2.1).map (fun j : Inst => j.id)
      simpa [instIdsB] using this
    have hperm : (allInstIds (modifyBlock F bid g)).Perm (i.id :: allInstIds F) := by
      rw [allInstIds_of_blocks hblocks, allInstIds_of_blocks hFb]
      have hA : (l1.flatMap instIdsB ++ (instIdsB (g b) ++ l2.flatMap instIdsB)).Perm
          (l1.flatMap instIdsB ++ ((i.id :: instIdsB b) ++ l2.flatMap instIdsB)) :=
        List.Perm.append_left _ (List.Perm.append_right _ hidsB)
      exact hA.trans perm_insert_middle
    have hnew : i.id ∉ allInstIds F := fun hmem =>
      absurd (hilt _ hmem) (not_lt.mpr hle)
    refine ⟨⟨?_, ?_, ?_, ?_, ?_⟩, ?_, ?_, hshape, hbids, hnum⟩
    · exact (hperm.nodup_iff).mpr (List.nodup_cons.mpr ⟨hnew, hnd⟩)
    · rw [hbids]; exact hbnd
    · intro x hx
      rcases List.mem_cons.mp (hperm.mem_iff.mp hx) with rfl | hx2
      · exact Nat.lt_succ_self _
      · exact lt_of_lt_of_le (hilt x hx2) (le_trans hle (Nat.le_succ _))
    · rw [hbids]
      intro x hx
      exact lt_of_lt_of_le (hblt x hx) (le_trans hle (Nat.le_succ _))
    · intro b0 hb0
      rw [hblocks] at hb0
      rcases List.mem_append.mp hb0 with hmem | hmem
      · exact hterm b0 (by rw [hFb]; exact List.mem_append.mpr (Or.inl hmem))
      · rcases List.mem_cons.mp hmem with rfl | hmem2
        · exact ((hg b).2.2 (hterm b (by rw [hFb]; simp))).1
        · exact hterm b0 (by rw [hFb]; simp [hmem2])
    · intro x hx
      exact hperm.mem_iff.mpr (List.mem_cons.mpr (Or.inr hx))
    · intro x hx
      rcases List.mem_cons.mp (hperm.mem_iff.mp hx) with rfl | hx2
      · exact Or.inr rfl
      · exact Or.inl hx2

/-! ### PHI-id bookkeeping and removal effects -/

theorem mem_allPhiIds {F : Func} {q : Nat} :
    q ∈ allPhiIds F ↔ ∃ b ∈ F.blocks, ∃ j ∈ b.insts, isPhi j = true ∧ j.id = q := by
  unfold allPhiIds
  simp only [List.mem_flatMap, List.mem_map, List.mem_filter]
  constructor
  · rintro ⟨b, hb, j, ⟨hj, hjphi⟩, hjq⟩
    exact ⟨b, hb, j, hj, hjphi, hjq⟩
  · rintro ⟨b, hb, j, hj, hjphi, hjq⟩
    exact ⟨b, hb, j, ⟨hj, hjphi⟩, hjq⟩

theorem phiFree_iff_allPhiIds {F : Func} : phiFree F ↔ allPhiIds F = [] := by
  rw [List.eq_nil_iff_forall_not_mem]
  constructor
  · intro hf q hq
    obtain ⟨b, hb, j, hj, hjphi, _⟩ := mem_allPhiIds.mp hq
    rw [hf b hb j hj] at hjphi
    simp at hjphi
  · intro h b hb j hj
    by_contra hc
    rw [Bool.not_eq_false] at hc
    exact h j.id (mem_allPhiIds.mpr ⟨b, hb, j, hj, hc, rfl⟩)

theorem allPhiIds_insert {F : Func} {bid : Nat} {g : BasicBlock → BasicBlock} {i : Inst}
    (hg : InsertsOne g i) {q : Nat} (hq : q ∈ allPhiIds (modifyBlock F bid g)) :
    q ∈ allPhiIds F ∨ (isPhi i = true ∧ q = i.id) := by
  obtain ⟨b', hb', j, hj, hjphi, hjq⟩ := mem_allPhiIds.mp hq
  simp only [modifyBlock, List.mem_map] at hb'
  obtain ⟨b0, hb0, rfl⟩ := hb'
  by_cases h : b0.id = bid
  · rw [if_pos h] at hj
    rcases List.mem_cons.mp ((hg b0).2.1.mem_iff.mp hj) with rfl | hmem
    · exact Or.inr ⟨hjphi, hjq.symm ▸ rfl⟩
    · exact Or.inl (mem_allPhiIds.mpr ⟨b0, hb0, j, hmem, hjphi, hjq⟩)
  · rw [if_neg h] at hj
    exact Or.inl (mem_allPhiIds.mpr ⟨b0, hb0, j, hj, hjphi, hjq⟩)

theorem allPhiIds_mapInsts {h : Inst → Inst} (H : InstHom h) (F : Func) {q : Nat} :
    q ∈ allPhiIds (mapInsts h F) ↔ q ∈ allPhiIds F := by
  rw [mem_allPhiIds, mem_allPhiIds]
  constructor
  · rintro ⟨b', hb', j, hj, hjphi, hjq⟩
    simp only [mapInsts, List.mem_map] at hb'
    obtain ⟨b0, hb0, rfl⟩ := hb'
    simp only [List.mem_map] at hj
    obtain ⟨j0, hj0, rfl⟩ := hj
    exact ⟨b0, hb0, j0, hj0, by rw [← H.phi_eq j0]; exact hjphi,
      by rw [← H.id_eq j0]; exact hjq⟩
  · rintro ⟨b0, hb0, j0, hj0, hjphi, hjq⟩
    refine ⟨{ b0 with insts := b0.insts.map h }, ?_, h j0, List.mem_map_of_mem h hj0,
      by rw [H.phi_eq j0]; exact hjphi, by rw [H.id_eq j0]; exact hjq⟩
    simp only [mapInsts, List.mem_map]
    exact ⟨b0, hb0, rfl⟩

theorem instIdsB_removeInstFrom (iid : Nat) (b : BasicBlock) :
    instIdsB (removeInstFrom iid b) =
      (instIdsB b).filter (fun x => decide (x ≠ iid)) := by
  unfold instIdsB removeInstFrom
  simp only [ne_eq]
  induction b.insts with
  | nil => rfl
  | cons i l ih =>
    simp only [decide_not] at ih
    by_cases h : i.id = iid
    · simp [List.filter_cons, h, ih]
    · simp [List.filter_cons, h, ih]

theorem find?_of_mem_nodup {l : List BasicBlock} (hnd : (l.map (·.id)).Nodup)
    {b : BasicBlock} (hb : b ∈ l) :
    l.find? (fun x => x.id == b.id) = some b := by
  induction l with
  | nil => simp at hb
  | cons a l ih =>
    rw [List.map_cons, List.nodup_cons] at hnd
    rcases List.mem_cons.mp hb with rfl | hmem
    · simp [List.find?_cons]
    · rw [List.find?_cons]
      have hne : (a.id == b.id) = false := by
        rw [beq_eq_false_iff_ne]
        intro he
        exact hnd.1 (he ▸ List.mem_map_of_mem _ hmem)
      simp only [hne]
      exact ih hnd.2 hmem

theorem getBlock_of_mem {F : Func} (hnd : (blockIds F).Nodup) {b : BasicBlock}
    (hb : b ∈ F.blocks) : getBlock F b.id = some b :=
  find?_of_mem_nodup hnd hb

theorem findInstBlock_some {F : Func} {pid bId : Nat} {i : Inst}
    (h : findInstBlock F pid = some (bId, i)) :
    ∃ b ∈ F.blocks, b.id = bId ∧ i ∈ b.insts ∧ i.id = pid := by
  unfold findInstBlock at h
  have hmem : (bId, i) ∈ F.blocks.flatMap (fun b =>
      (b.insts.filter (fun j => j.id == pid)).map (fun j => (b.id, j))) := by
    apply List.mem_of_mem_head?
    rw [h]
    simp
  simp only [List.mem_flatMap, List.mem_map, List.mem_filter] at hmem
  obtain ⟨b, hb, j, ⟨hj, hjid⟩, hpair⟩ := hmem
  rw [Prod.mk.injEq] at hpair
  rw [beq_iff_eq] at hjid
  exact ⟨b, hb, hpair.1, hpair.2 ▸ hj, hpair.2 ▸ hjid⟩

theorem findInstBlock_none {F : Func} {pid : Nat}
    (h : findInstBlock F pid = none) : pid ∉ allInstIds F := by
  intro hmem
  unfold allInstIds at hmem
  simp only [List.mem_flatMap, List.mem_map] at hmem
  obtain ⟨b, hb, i, hi, hid⟩ := hmem
  unfold findInstBlock at h
  rw [List.head?_eq_none_iff, List.flatMap_eq_nil_iff] at h
  have hempty := h _ hb
  rw [List.map_eq_nil_iff, List.filter_eq_nil_iff] at hempty
  exact hempty i hi (by rw [beq_iff_eq]; exact hid)

theorem nodup_instIdsB_of_flat {l : List BasicBlock}
    (hnd : (l.flatMap instIdsB).Nodup) {b : BasicBlock} (hb : b ∈ l) :
    (instIdsB b).Nodup := by
  induction l with
  | nil => simp at hb
  | cons a l ih =>
    rw [List.flatMap_cons, List.nodup_append] at hnd
    rcases List.mem_cons.mp hb with rfl | hmem
    · exact hnd.1
    · exact ih hnd.2.1 hmem

theorem nodup_instIdsB_of_allInstIds {F : Func} (hnd : (allInstIds F).Nodup)
    {b : BasicBlock} (hb : b ∈ F.blocks) : (instIdsB b).Nodup :=
  nodup_instIdsB_of_flat hnd hb

theorem last_ne_of_phi {F : Func} {n : Nat} (hG : GoodF F n) {b : BasicBlock}
    (hb : b ∈ F.blocks) {ip : Inst} (hip : ip ∈ b.insts)
    (hterm_ne : isTermInst ip = false) {L : Inst}
    (hL : b.insts.getLast? = some L) (hLt : isTermInst L = true) : L.id ≠ ip.id := by
  intro he
  have hndb : (instIdsB b).Nodup := nodup_instIdsB_of_allInstIds hG.1 hb
  have hLm : L ∈ b.insts := List.mem_of_mem_getLast? hL
  have : L = ip := List.inj_on_of_nodup_map hndb hLm hip he
  rw [this, hterm_ne] at hLt
  simp at hLt

theorem modify_remove_effects {F : Func} {n bid pid : Nat} (hG : GoodF F n)
    {b : BasicBlock} (hfb : getBlock F bid = some b)
    {ip : Inst} (hip : ip ∈ b.insts) (hipid : ip.id = pid)
    (hterm_ne : isTermInst ip = false) :
    GoodF (modifyBlock F bid (removeInstFrom pid)) n ∧
    (∀ x ∈ allInstIds F, x ≠ pid → x ∈ allInstIds (modifyBlock F bid (removeInstFrom pid))) ∧
    (∀ x ∈ allInstIds (modifyBlock F bid (removeInstFrom pid)), x ∈ allInstIds F) ∧
    pid ∉ allInstIds (modifyBlock F bid (removeInstFrom pid)) ∧
    (∀ y, termShapeOf (modifyBlock F bid (removeInstFrom pid)) y = termShapeOf F y) ∧
    blockIds (modifyBlock F bid (removeInstFrom pid)) = blockIds F ∧
    numBlocks (modifyBlock F bid (removeInstFrom pid)) = numBlocks F ∧
    (∀ q ∈ allPhiIds (modifyBlock F bid (removeInstFrom pid)), q ∈ allPhiIds F) := by
  obtain ⟨hnd, hbnd, hilt, hblt, hterm⟩ := hG
  have hgid : ∀ b0, (removeInstFrom pid b0).id = b0.id := fun b0 => rfl
  have hbmem : b ∈ F.blocks := getBlock_mem F bid hfb
  obtain ⟨L, hL, hLt⟩ := hterm b hbmem
  have hLne : L.id ≠ pid := by
    rw [← hipid]
    exact last_ne_of_phi ⟨hnd, hbnd, hilt, hblt, hterm⟩ hbmem hip hterm_ne hL hLt
  have hlastkeep : (removeInstFrom pid b).insts.getLast? = some L := by
    unfold removeInstFrom
    exact getLast?_filter_of_last hL (by simp [hLne])
  have hshapeB : termShapeB (removeInstFrom pid b) = termShapeB b := by
    rw [termShapeB_eq_getLast, termShapeB_eq_getLast, hlastkeep, hL]
  have hendsB : endsInTerm (removeInstFrom pid b) := ⟨L, hlastkeep, hLt⟩
  obtain ⟨l1, l2, hFb, hbid, h1, h2⟩ := getBlock_decomp hbnd hfb
  have hblocks : (modifyBlock F bid (removeInstFrom pid)).blocks =
      l1 ++ removeInstFrom pid b :: l2 := modifyBlock_blocks_decomp hFb hbid h1 h2
  have holdids := allInstIds_of_blocks hFb
  have hnewids := allInstIds_of_blocks hblocks
  rw [instIdsB_removeInstFrom] at hnewids
  have hsub : List.Sublist (allInstIds (modifyBlock F bid (removeInstFrom pid)))
      (allInstIds F) := by
    rw [holdids, hnewids]
    exact ((List.filter_sublist _).append_right _).append_left _
  have hnd2 : (allInstIds (modifyBlock F bid (removeInstFrom pid))).Nodup :=
    List.Nodup.sublist hsub hnd
  have hpidB : pid ∈ instIdsB b := by
    rw [← hipid]
    exact List.mem_map_of_mem _ hip
  have hdisj : pid ∉ l1.flatMap instIdsB ∧ pid ∉ l2.flatMap instIdsB := by
    rw [holdids] at hnd
    rw [List.nodup_append] at hnd
    obtain ⟨hA, hBC, hdAB⟩ := hnd
    rw [List.nodup_append] at hBC
    obtain ⟨hB, hC, hdBC⟩ := hBC
    exact ⟨fun hmem => hdAB hmem (List.mem_append.mpr (Or.inl hpidB)),
      fun hmem => hdBC hpidB hmem⟩
  have hpidout : pid ∉ allInstIds (modifyBlock F bid (removeInstFrom pid)) := by
    rw [hnewids]
    intro hmem
    rcases List.mem_append.mp hmem with hA | hmem2
    · exact hdisj.1 hA
    rcases List.mem_append.mp hmem2 with hB | hC
    · rw [List.mem_filter] at hB
      simp at hB
    · exact hdisj.2 hC
  have hshape : ∀ y, termShapeOf (modifyBlock F bid (removeInstFrom pid)) y =
      termShapeOf F y := by
    intro y
    by_cases hy : y = bid
    · rw [hy, termShapeOf_eq, termShapeOf_eq, getBlock_modify_self F bid _ hgid, hfb]
      exact hshapeB
    · rw [termShapeOf_eq, termShapeOf_eq, getBlock_modify_ne F bid _ hgid hy]
  have hbids := blockIds_modify F bid (removeInstFrom pid) hgid
  refine ⟨⟨hnd2, by rw [hbids]; exact hbnd,
      fun x hx => hilt x (hsub.subset hx), by rw [hbids]; exact hblt, ?_⟩,
    ?_, fun x hx => hsub.subset hx, hpidout, hshape, hbids,
    numBlocks_modify F bid _, ?_⟩
  · intro b0 hb0
    rw [hblocks] at hb0
    rcases List.mem_append.mp hb0 with hmem | hmem
    · exact hterm b0 (by rw [hFb]; exact List.mem_append.mpr (Or.inl hmem))
    · rcases List.mem_cons.mp hmem with rfl | hmem2
      · exact hendsB
      · exact hterm b0 (by rw [hFb]; simp [hmem2])
  · intro x hx hxpid
    rw [holdids] at hx
    rw [hnewids]
    rcases List.mem_append.mp hx with hA | hmem2
    · exact List.mem_append.mpr (Or.inl hA)
    rcases List.mem_append.mp hmem2 with hB | hC
    · refine List.mem_append.mpr (Or.inr (List.mem_append.mpr (Or.inl ?_)))
      rw [List.mem_filter]
      exact ⟨hB, by simp [hxpid]⟩
    · exact List.mem_append.mpr (Or.inr (List.mem_append.mpr (Or.inr hC)))
  · intro q hq
    obtain ⟨b', hb', j, hj, hjphi, hjq⟩ := mem_allPhiIds.mp hq
    rw [hblocks] at hb'
    rcases List.mem_append.mp hb' with hmem | hmem
    · exact mem_allPhiIds.mpr ⟨b', by rw [hFb]; exact List.mem_append.mpr (Or.inl hmem),
        j, hj, hjphi, hjq⟩
    · rcases List.mem_cons.mp hmem with rfl | hmem2
      · have hj2 : j ∈ b.insts := by
          unfold removeInstFrom at hj
          exact List.mem_of_mem_filter hj
        exact mem_allPhiIds.mpr ⟨b, hbmem, j, hj2, hjphi, hjq⟩
      · exact mem_allPhiIds.mpr ⟨b', by rw [hFb]; simp [hmem2], j, hj, hjphi, hjq⟩

theorem phi_not_term {i : Inst} (h : isPhi i = true) : isTermInst i = false := by
  cases i with
  | mk iid k => cases k <;> simp [isPhi, isTermInst] at h ⊢

theorem allInstIds_eq_map (F : Func) : allInstIds F = (allInsts F).map (·.id) := by
  unfold allInstIds allInsts
  induction F.blocks with
  | nil => rfl
  | cons b l ih => simp [List.flatMap_cons, ih]

theorem mem_allInsts {F : Func} {i : Inst} :
    i ∈ allInsts F ↔ ∃ b ∈ F.blocks, i ∈ b.insts := by
  unfold allInsts
  simp [List.mem_flatMap]

theorem inst_id_inj {F : Func} (hnd : (allInstIds F).Nodup) {i j : Inst}
    (hi : i ∈ allInsts F) (hj : j ∈ allInsts F) (hij : i.id = j.id) : i = j := by
  rw [allInstIds_eq_map] at hnd
  exact List.inj_on_of_nodup_map hnd hi hj hij

theorem modifyBlock_comp (F : Func) (bid : Nat) (g1 g2 : BasicBlock → BasicBlock)
    (hg2 : ∀ b, (g2 b).id = b.id) :
    modifyBlock F bid (fun b => g1 (g2 b)) = modifyBlock (modifyBlock F bid g2) bid g1 := by
  unfold modifyBlock
  simp only [List.map_map]
  congr 1
  refine List.map_congr_left (fun b _ => ?_)
  by_cases h : b.id = bid
  · simp [Function.comp, h, hg2]
  · simp [Function.comp, h]

theorem prepend_effects {F : Func} {n : Nat} (i : Inst) (hG : GoodF F n)
    (hle : n ≤ i.id) (hishape : kindTermShape i.kind = none) :
    GoodF (prependToEntry i F) (i.id + 1) ∧
    (∀ x ∈ allInstIds F, x ∈ allInstIds (prependToEntry i F)) ∧
    (∀ x ∈ allInstIds (prependToEntry i F), x ∈ allInstIds F ∨ x = i.id) ∧
    (∀ y, termShapeOf (prependToEntry i F) y = termShapeOf F y) ∧
    blockIds (prependToEntry i F) = blockIds F ∧
    numBlocks (prependToEntry i F) = numBlocks F ∧
    (∀ q ∈ allPhiIds (prependToEntry i F), q ∈ allPhiIds F ∨ (isPhi i = true ∧ q = i.id)) := by
  obtain ⟨hnd, hbnd, hilt, hblt, hterm⟩ := hG
  cases hFb : F.blocks with
  | nil =>
    have hid : prependToEntry i F = F := by
      unfold prependToEntry
      rw [hFb]
    rw [hid]
    exact ⟨goodF_mono ⟨hnd, hbnd, hilt, hblt, hterm⟩ (le_trans hle (Nat.le_succ _)),
      fun x hx => hx, fun x hx => Or.inl hx, fun y => rfl, rfl, rfl,
      fun q hq => Or.inl hq⟩
  | cons e rest =>
    have hblocks : (prependToEntry i F).blocks = { e with insts := i :: e.insts } :: rest := by
      unfold prependToEntry
      rw [hFb]
    have hids : allInstIds (prependToEntry i F) = i.id :: allInstIds F := by
      rw [allInstIds_blocks_eq, allInstIds_blocks_eq, hblocks, hFb]
      simp [List.flatMap_cons, instIdsB]
    have hnew : i.id ∉ allInstIds F := fun hmem => absurd (hilt _ hmem) (not_lt.mpr hle)
    have hbids : blockIds (prependToEntry i F) = blockIds F := by
      unfold blockIds
      rw [hblocks, hFb]
      rfl
    have heterm : endsInTerm e := hterm e (by rw [hFb]; simp)
    have hene : e.insts ≠ [] := by
      obtain ⟨L, hL, _⟩ := heterm
      intro hnil
      rw [hnil] at hL
      simp at hL
    have hlast : (i :: e.insts).getLast? = e.insts.getLast? := getLast?_cons_ne i hene
    have hshapee : termShapeB { e with insts := i :: e.insts } = termShapeB e := by
      rw [termShapeB_eq_getLast, termShapeB_eq_getLast]
      simp only [hlast]
    have hshape : ∀ y, termShapeOf (prependToEntry i F) y = termShapeOf F y := by
      intro y
      rw [termShapeOf_eq, termShapeOf_eq]
      unfold getBlock
      rw [hblocks, hFb, List.find?_cons, List.find?_cons]
      by_cases hy : (e.id == y) = true
      · simp only [hy]
        exact hshapee
      · rw [Bool.not_eq_true] at hy
        simp only [hy]
    refine ⟨⟨?_, ?_, ?_, ?_, ?_⟩, ?_, ?_, hshape, hbids, ?_, ?_⟩
    · rw [hids]
      exact List.nodup_cons.mpr ⟨hnew, hnd⟩
    · rw [hbids]; exact hbnd
    · rw [hids]
      intro x hx
      rcases List.mem_cons.mp hx with rfl | hx2
      · exact Nat.lt_succ_self _
      · exact lt_of_lt_of_le (hilt x hx2) (le_trans hle (Nat.le_succ _))
    · rw [hbids]
      intro x hx
      exact lt_of_lt_of_le (hblt x hx) (le_trans hle (Nat.le_succ _))
    · intro b0 hb0
      rw [hblocks] at hb0
      rcases List.mem_cons.mp hb0 with rfl | hmem
      · obtain ⟨L, hL, hLt⟩ := heterm
        exact ⟨L, by rw [hlast]; exact hL, hLt⟩
      · exact hterm b0 (by rw [hFb]; simp [hmem])
    · intro x hx
      rw [hids]
      exact List.mem_cons.mpr (Or.inr hx)
    · intro x hx
      rw [hids] at hx
      rcases List.mem_cons.mp hx with rfl | hx2
      · exact Or.inr rfl
      · exact Or.inl hx2
    · unfold numBlocks
      rw [hblocks, hFb]
      rfl
    · intro q hq
      obtain ⟨b', hb', j, hj, hjphi, hjq⟩ := mem_allPhiIds.mp hq
      rw [hblocks] at hb'
      rcases List.mem_cons.mp hb' with rfl | hmem
      · rcases List.mem_cons.mp hj with rfl | hj2
        · exact Or.inr ⟨hjphi, hjq.symm ▸ rfl⟩
        · exact Or.inl (mem_allPhiIds.mpr ⟨e, by rw [hFb]; simp, j, hj2, hjphi, hjq⟩)
      · exact Or.inl (mem_allPhiIds.mpr ⟨b', by rw [hFb]; simp [hmem], j, hj, hjphi, hjq⟩)

theorem addStores_effects (slot : Nat) :
    ∀ (inc : List (Nat × Nat)) (sid : Nat) (F : Func) (n : Nat),
    GoodF F n → n ≤ sid →
    GoodF (addStores slot inc sid F) (sid + inc.length) ∧
    (∀ x ∈ allInstIds F, x ∈ allInstIds (addStores slot inc sid F)) ∧
    (∀ x ∈ allInstIds (addStores slot inc sid F), x ∈ allInstIds F ∨ sid ≤ x) ∧
    (∀ y, termShapeOf (addStores slot inc sid F) y = termShapeOf F y) ∧
    blockIds (addStores slot inc sid F) = blockIds F ∧
    numBlocks (addStores slot inc sid F) = numBlocks F ∧
    (∀ q ∈ allPhiIds (addStores slot inc sid F), q ∈ allPhiIds F) := by
  intro inc
  induction inc with
  | nil =>
    intro sid F n hG hle
    exact ⟨goodF_mono hG (by omega), fun x hx => hx, fun x hx => Or.inl hx,
      fun y => rfl, rfl, rfl, fun q hq => hq⟩
  | cons vb rest ih =>
    intro sid F n hG hle
    have hins : InsertsOne (insertBeforeTerm ⟨sid, InstKind.store vb.1 slot⟩)
        ⟨sid, InstKind.store vb.1 slot⟩ :=
      insertsOne_insertBeforeTerm _ rfl
    obtain ⟨hG1, hup1, hdown1, hshape1, hbids1, hnum1⟩ :=
      modify_insert_effects hins hG hle
    have hphi1 : ∀ q ∈ allPhiIds
        (modifyBlock F vb.2 (insertBeforeTerm ⟨sid, InstKind.store vb.1 slot⟩)),
        q ∈ allPhiIds F := by
      intro q hq
      rcases allPhiIds_insert hins hq with h | ⟨hphi, _⟩
      · exact h
      · simp [isPhi] at hphi
    obtain ⟨hG2, hup2, hdown2, hshape2, hbids2, hnum2, hphi2⟩ :=
      ih (sid + 1) _ (sid + 1) hG1 (le_refl _)
    have harith : sid + 1 + rest.length = sid + (rest.length + 1) := by omega
    rw [harith] at hG2
    refine ⟨?_, ?_, ?_, ?_, ?_, ?_, ?_⟩
    · show GoodF (addStores slot (vb :: rest) sid F) (sid + (vb :: rest).length)
      unfold addStores
      simpa using hG2
    · intro x hx
      exact hup2 x (hup1 x hx)
    · intro x hx
      rcases hdown2 x hx with h2 | h2
      · rcases hdown1 x h2 with h3 | h3
        · exact Or.inl h3
        · exact Or.inr (le_of_eq h3.symm)
      · exact Or.inr (by omega)
    · intro y
      unfold addStores
      rw [hshape2 y, hshape1 y]
    · unfold addStores
      rw [hbids2, hbids1]
    · unfold addStores
      rw [hnum2, hnum1]
    · intro q hq
      exact hphi1 q (hphi2 q hq)

theorem phiInBlock_insert {F : Func} {bid tgt pid : Nat}
    {g : BasicBlock → BasicBlock} {i : Inst} (hg : InsertsOne g i)
    (h : phiInBlock F bid pid) : phiInBlock (modifyBlock F tgt g) bid pid := by
  obtain ⟨b, hb, ip, hip, hipid, hipphi⟩ := h
  have hgid : ∀ b0, (g b0).id = b0.id := fun b0 => (hg b0).1
  by_cases ht : bid = tgt
  · rw [← ht]
    refine ⟨g b, ?_, ip, ?_, hipid, hipphi⟩
    · rw [getBlock_modify_self F bid g hgid, hb]
      rfl
    · exact (hg b).2.1.mem_iff.mpr (List.mem_cons.mpr (Or.inr hip))
  · exact ⟨b, by rw [getBlock_modify_ne F tgt g hgid ht]; exact hb, ip, hip, hipid, hipphi⟩

theorem phiInBlock_prepend {F : Func} {bid pid : Nat} {i : Inst}
    (h : phiInBlock F bid pid) : phiInBlock (prependToEntry i F) bid pid := by
  obtain ⟨b, hb, ip, hip, hipid, hipphi⟩ := h
  cases hFb : F.blocks with
  | nil =>
    have : prependToEntry i F = F := by unfold prependToEntry; rw [hFb]
    rw [this]
    exact ⟨b, hb, ip, hip, hipid, hipphi⟩
  | cons e rest =>
    have hblocks : (prependToEntry i F).blocks = { e with insts := i :: e.insts } :: rest := by
      unfold prependToEntry; rw [hFb]
    unfold phiInBlock
    unfold getBlock at hb ⊢
    rw [hblocks]
    rw [hFb, List.find?_cons] at hb
    rw [List.find?_cons]
    by_cases he : (e.id == bid) = true
    · simp only [he] at hb ⊢
      rw [Option.some_inj] at hb
      subst hb
      exact ⟨_, rfl, ip, List.mem_cons.mpr (Or.inr hip), hipid, hipphi⟩
    · rw [Bool.not_eq_true] at he
      simp only [he] at hb ⊢
      exact ⟨b, hb, ip, hip, hipid, hipphi⟩

theorem phiInBlock_addStores {slot : Nat} :
    ∀ (inc : List (Nat × Nat)) (sid : Nat) (F : Func) {bid pid : Nat},
    phiInBlock F bid pid → phiInBlock (addStores slot inc sid F) bid pid := by
  intro inc
  induction inc with
  | nil => intro sid F bid pid h; exact h
  | cons vb rest ih =>
    intro sid F bid pid h
    unfold addStores
    exact ih (sid + 1) _ (phiInBlock_insert (insertsOne_insertBeforeTerm _ rfl) h)

theorem mem_allInstIds_of_mem_allPhiIds {F : Func} {q : Nat}
    (h : q ∈ allPhiIds F) : q ∈ allInstIds F := by
  obtain ⟨b, hb, j, hj, _, hjq⟩ := mem_allPhiIds.mp h
  unfold allInstIds
  simp only [List.mem_flatMap, List.mem_map]
  exact ⟨b, hb, j, hj, hjq⟩

theorem isPhi_of_kind {i : Inst} {inc : List (Nat × Nat)}
    (h : i.kind = InstKind.phi inc) : isPhi i = true := by
  cases i with
  | mk iid k =>
    simp only at h
    rw [h]
    rfl

theorem insertsOne_insertAfterLeadingPhis (i : Inst) (hi : kindTermShape i.kind = none) :
    InsertsOne (insertAfterLeadingPhis i) i :=
  insertsOne_insertSplit isPhi i hi (fun j hj => phi_not_term hj)

theorem insertsOne_insertAfterLeadingPhiDbg (i : Inst) (hi : kindTermShape i.kind = none) :
    InsertsOne (insertAfterLeadingPhiDbg i) i := by
  refine insertsOne_insertSplit isPhiOrDbg i hi (fun j hj => ?_)
  unfold isPhiOrDbg at hj
  rcases Bool.or_eq_true_iff.mp hj with h | h
  · exact phi_not_term h
  · cases j with
    | mk jid k => cases k <;> simp [isDbg, isTermInst] at h ⊢

theorem pid_notPhi_of_found {F : Func} (hnd : (allInstIds F).Nodup) {pid bId : Nat}
    {i : Inst} (hfind : findInstBlock F pid = some (bId, i))
    (hiphi : isPhi i = false) : pid ∉ allPhiIds F := by
  intro hq
  obtain ⟨b', hb', j, hj, hjphi, hjq⟩ := mem_allPhiIds.mp hq
  obtain ⟨b, hb, _, hi, hiid⟩ := findInstBlock_some hfind
  have hji : j = i := inst_id_inj hnd (mem_allInsts.mpr ⟨b', hb', hj⟩)
    (mem_allInsts.mpr ⟨b, hb, hi⟩) (by rw [hjq, hiid])
  rw [hji, hiphi] at hjphi
  simp at hjphi

theorem demote_effects {F : Func} {n pid : Nat} (hG : GoodF F n) :
    GoodF (demotePHIToStack F pid n).1 (demotePHIToStack F pid n).2 ∧
    n ≤ (demotePHIToStack F pid n).2 ∧
    (∀ x ∈ allInstIds F, x ≠ pid → x ∈ allInstIds (demotePHIToStack F pid n).1) ∧
    (∀ x ∈ allInstIds (demotePHIToStack F pid n).1, x ∈ allInstIds F ∨ n ≤ x) ∧
    (∀ y, termShapeOf (demotePHIToStack F pid n).1 y = termShapeOf F y) ∧
    blockIds (demotePHIToStack F pid n).1 = blockIds F ∧
    numBlocks (demotePHIToStack F pid n).1 = numBlocks F ∧
    (∀ q ∈ allPhiIds (demotePHIToStack F pid n).1, q ∈ allPhiIds F ∧ q ≠ pid) := by
  cases hfind : findInstBlock F pid with
  | none =>
    have hid : demotePHIToStack F pid n = (F, n) := by
      unfold demotePHIToStack
      rw [hfind]
    rw [hid]
    have hout := findInstBlock_none hfind
    exact ⟨hG, le_refl n, fun x hx _ => hx, fun x hx => Or.inl hx, fun y => rfl, rfl, rfl,
      fun q hq => ⟨hq, fun he => hout (he ▸ mem_allInstIds_of_mem_allPhiIds hq)⟩⟩
  | some bi =>
    obtain ⟨bId, i⟩ := bi
    cases hk : i.kind with
    | phi inc =>
      obtain ⟨b, hbmem, hbid, hi, hiid⟩ := findInstBlock_some hfind
      have hfb : getBlock F bId = some b := by
        rw [← hbid]
        exact getBlock_of_mem hG.2.1 hbmem
      have hiphi : isPhi i = true := isPhi_of_kind hk
      have hpidlt : pid < n := hG.2.2.1 pid (by
        rw [allInstIds_eq_map]
        exact hiid ▸ List.mem_map_of_mem _ (mem_allInsts.mpr ⟨b, hbmem, hi⟩))
      by_cases hu : (usersOf F pid).isEmpty = true
      · have hid : demotePHIToStack F pid n = (modifyBlock F bId (removeInstFrom pid), n) := by
          unfold demotePHIToStack
          rw [hfind]
          simp only [hk, hu, if_true]
        rw [hid]
        obtain ⟨hG', hup, hdown, hpout, hshape, hbids, hnum, hphis⟩ :=
          modify_remove_effects hG hfb hi hiid (phi_not_term hiphi)
        refine ⟨hG', le_refl n, hup, fun x hx => Or.inl (hdown x hx), hshape, hbids, hnum, ?_⟩
        intro q hq
        refine ⟨hphis q hq, fun he => hpout ?_⟩
        subst he
        exact mem_allInstIds_of_mem_allPhiIds hq
      · have hid : demotePHIToStack F pid n =
            (replaceUsesEverywhere
              (modifyBlock (addStores n inc (n + 1) (prependToEntry ⟨n, InstKind.alloca⟩ F)) bId
                (fun b0 => insertAfterLeadingPhis ⟨n + 1 + inc.length, InstKind.load n⟩
                  (removeInstFrom pid b0)))
              pid (n + 1 + inc.length), n + 2 + inc.length) := by
          unfold demotePHIToStack
          rw [hfind]
          simp only [hk, hu, if_false, Bool.false_eq_true]
        rw [hid]
        unfold replaceUsesEverywhere
        -- Step 1: the alloca at the entry block.
        obtain ⟨hG1, hup1, hdown1, hshape1, hbids1, hnum1, hphi1⟩ :=
          prepend_effects ⟨n, InstKind.alloca⟩ hG (le_refl n) rfl
        -- Step 2: the stores before each incoming predecessor's terminator.
        obtain ⟨hG2, hup2, hdown2, hshape2, hbids2, hnum2, hphi2⟩ :=
          addStores_effects n inc (n + 1) _ (n + 1) hG1 (le_refl _)
        -- The PHI is still in place after steps 1 and 2.
        have hpib : phiInBlock (addStores n inc (n + 1) (prependToEntry ⟨n, InstKind.alloca⟩ F))
            bId pid :=
          phiInBlock_addStores inc (n + 1) _ (phiInBlock_prepend ⟨b, hfb, i, hi, hiid, hiphi⟩)
        obtain ⟨b2, hb2, ip2, hip2, hipid2, hipphi2⟩ := hpib
        -- Step 3a: remove the PHI.
        obtain ⟨hG3a, hup3a, hdown3a, hpout3a, hshape3a, hbids3a, hnum3a, hphi3a⟩ :=
          modify_remove_effects hG2 hb2 hip2 hipid2 (phi_not_term hipphi2)
        -- Step 3b: insert the load after the leading PHIs.
        have hload : InsertsOne
            (insertAfterLeadingPhis ⟨n + 1 + inc.length, InstKind.load n⟩)
            ⟨n + 1 + inc.length, InstKind.load n⟩ :=
          insertsOne_insertAfterLeadingPhis _ rfl
        obtain ⟨hG3, hup3, hdown3, hshape3, hbids3, hnum3⟩ :=
          modify_insert_effects hload hG3a (le_refl _)
        have hcomp := modifyBlock_comp
          (addStores n inc (n + 1) (prependToEntry ⟨n, InstKind.alloca⟩ F)) bId
          (insertAfterLeadingPhis ⟨n + 1 + inc.length, InstKind.load n⟩)
          (removeInstFrom pid) (fun b0 => rfl)
        rw [hcomp]
        -- Step 4: redirect all uses of the PHI to the load.
        have hsubstHom := instHom_subst pid (n + 1 + inc.length)
        have harith : n + 1 + inc.length + 1 = n + 2 + inc.length := by omega
        refine ⟨?_, by omega, ?_, ?_, ?_, ?_, ?_, ?_⟩
        · rw [show n + 2 + inc.length = n + 1 + inc.length + 1 by omega]
          exact goodF_mapInsts hsubstHom hG3
        · intro x hx hxpid
          rw [allInstIds_mapInsts hsubstHom]
          exact hup3 _ (hup3a _ (hup2 _ (hup1 _ hx)) hxpid)
        · intro x hx
          rw [allInstIds_mapInsts hsubstHom] at hx
          rcases hdown3 x hx with h3 | h3
          · have h3a := hdown3a x h3
            rcases hdown2 x h3a with h2 | h2
            · rcases hdown1 x h2 with h1 | h1
              · exact Or.inl h1
              · refine Or.inr ?_
                rw [h1]
            · exact Or.inr (by omega)
          · refine Or.inr ?_
            rw [h3]
            show n ≤ n + 1 + inc.length
            omega
        · intro y
          rw [termShapeOf_mapInsts hsubstHom, hshape3 y, hshape3a y, hshape2 y, hshape1 y]
        · rw [blockIds_mapInsts, hbids3, hbids3a, hbids2, hbids1]
        · rw [numBlocks_mapInsts, hnum3, hnum3a, hnum2, hnum1]
        · intro q hq
          rw [allPhiIds_mapInsts hsubstHom] at hq
          have hq3 : q ∈ allPhiIds (modifyBlock (addStores n inc (n + 1)
              (prependToEntry ⟨n, InstKind.alloca⟩ F)) bId (removeInstFrom pid)) := by
            rcases allPhiIds_insert hload hq with h | ⟨hphi, _⟩
            · exact h
            · simp [isPhi] at hphi
          have hqF : q ∈ allPhiIds F := by
            have h2 := hphi2 q (hphi3a q hq3)
            rcases hphi1 q h2 with h | ⟨hphi, _⟩
            · exact h
            · simp [isPhi] at hphi
          refine ⟨hqF, fun he => ?_⟩
          have : q ∈ allInstIds (modifyBlock (addStores n inc (n + 1)
              (prependToEntry ⟨n, InstKind.alloca⟩ F)) bId (removeInstFrom pid)) :=
            mem_allInstIds_of_mem_allPhiIds hq3
          exact hpout3a (he ▸ this)
    | dbg =>
      have hid : demotePHIToStack F pid n = (F, n) := by
        unfold demotePHIToStack
        rw [hfind]
        simp only [hk]
      rw [hid]
      have hnophi := pid_notPhi_of_found hG.1 hfind (by cases i; simp_all [isPhi])
      exact ⟨hG, le_refl n, fun x hx _ => hx, fun x hx => Or.inl hx, fun y => rfl, rfl, rfl,
        fun q hq => ⟨hq, fun he => hnophi (he ▸ hq)⟩⟩
    | simple ops =>
      have hid : demotePHIToStack F pid n = (F, n) := by
        unfold demotePHIToStack
        rw [hfind]
        simp only [hk]
      rw [hid]
      have hnophi := pid_notPhi_of_found hG.1 hfind (by cases i; simp_all [isPhi])
      exact ⟨hG, le_refl n, fun x hx _ => hx, fun x hx => Or.inl hx, fun y => rfl, rfl, rfl,
        fun q hq => ⟨hq, fun he => hnophi (he ▸ hq)⟩⟩
    | alloca =>
      have hid : demotePHIToStack F pid n = (F, n) := by
        unfold demotePHIToStack
        rw [hfind]
        simp only [hk]
      rw [hid]
      have hnophi := pid_notPhi_of_found hG.1 hfind (by cases i; simp_all [isPhi])
      exact ⟨hG, le_refl n, fun x hx _ => hx, fun x hx => Or.inl hx, fun y => rfl, rfl, rfl,
        fun q hq => ⟨hq, fun he => hnophi (he ▸ hq)⟩⟩
    | load s =>
      have hid : demotePHIToStack F pid n = (F, n) := by
        unfold demotePHIToStack
        rw [hfind]
        simp only [hk]
      rw [hid]
      have hnophi := pid_notPhi_of_found hG.1 hfind (by cases i; simp_all [isPhi])
      exact ⟨hG, le_refl n, fun x hx _ => hx, fun x hx => Or.inl hx, fun y => rfl, rfl, rfl,
        fun q hq => ⟨hq, fun he => hnophi (he ▸ hq)⟩⟩
    | store v s =>
      have hid : demotePHIToStack F pid n = (F, n) := by
        unfold demotePHIToStack
        rw [hfind]
        simp only [hk]
      rw [hid]
      have hnophi := pid_notPhi_of_found hG.1 hfind (by cases i; simp_all [isPhi])
      exact ⟨hG, le_refl n, fun x hx _ => hx, fun x hx => Or.inl hx, fun y => rfl, rfl, rfl,
        fun q hq => ⟨hq, fun he => hnophi (he ▸ hq)⟩⟩
    | term t =>
      have hid : demotePHIToStack F pid n = (F, n) := by
        unfold demotePHIToStack
        rw [hfind]
        simp only [hk]
      rw [hid]
      have hnophi := pid_notPhi_of_found hG.1 hfind (by cases i; simp_all [isPhi])
      exact ⟨hG, le_refl n, fun x hx _ => hx, fun x hx => Or.inl hx, fun y => rfl, rfl, rfl,
        fun q hq => ⟨hq, fun he => hnophi (he ▸ hq)⟩⟩

theorem normalizePhis_cons (F : Func) (p : Nat) (ps : List Nat) (n : Nat) :
    normalizePhis F (p :: ps) n =
      normalizePhis (demotePHIToStack F p n).1 ps (demotePHIToStack F p n).2 := by
  unfold normalizePhis
  rw [List.foldl_cons]

theorem normalize_effects :
    ∀ (ps : List Nat) (F : Func) (n : Nat), GoodF F n →
    GoodF (normalizePhis F ps n).1 (normalizePhis F ps n).2 ∧
    n ≤ (normalizePhis F ps n).2 ∧
    (∀ x ∈ allInstIds F, x ∉ ps → x ∈ allInstIds (normalizePhis F ps n).1) ∧
    (∀ y, termShapeOf (normalizePhis F ps n).1 y = termShapeOf F y) ∧
    blockIds (normalizePhis F ps n).1 = blockIds F ∧
    numBlocks (normalizePhis F ps n).1 = numBlocks F ∧
    (∀ q ∈ allPhiIds (normalizePhis F ps n).1, q ∈ allPhiIds F ∧ q ∉ ps) := by
  intro ps
  induction ps with
  | nil =>
    intro F n hG
    exact ⟨hG, le_refl n, fun x hx _ => hx, fun y => rfl, rfl, rfl,
      fun q hq => ⟨hq, by simp⟩⟩
  | cons p ps ih =>
    intro F n hG
    obtain ⟨hG1, hle1, hup1, hdown1, hshape1, hbids1, hnum1, hphi1⟩ :=
      (fun h => ⟨h.1, h.2.1, h.2.2.1, h.2.2.2.1, h.2.2.2.2.1, h.2.2.2.2.2.1,
        h.2.2.2.2.2.2.1, h.2.2.2.2.2.2.2⟩ :
        _ → GoodF (demotePHIToStack F p n).1 (demotePHIToStack F p n).2 ∧
          n ≤ (demotePHIToStack F p n).2 ∧
          (∀ x ∈ allInstIds F, x ≠ p → x ∈ allInstIds (demotePHIToStack F p n).1) ∧
          (∀ x ∈ allInstIds (demotePHIToStack F p n).1, x ∈ allInstIds F ∨ n ≤ x) ∧
          (∀ y, termShapeOf (demotePHIToStack F p n).1 y = termShapeOf F y) ∧
          blockIds (demotePHIToStack F p n).1 = blockIds F ∧
          numBlocks (demotePHIToStack F p n).1 = numBlocks F ∧
          (∀ q ∈ allPhiIds (demotePHIToStack F p n).1, q ∈ allPhiIds F ∧ q ≠ p))
      (demote_effects hG)
    obtain ⟨hG2, hle2, hup2, hshape2, hbids2, hnum2, hphi2⟩ := ih _ _ hG1
    rw [normalizePhis_cons]
    refine ⟨hG2, le_trans hle1 hle2, ?_, ?_, ?_, ?_, ?_⟩
    · intro x hx hnx
      have hx1 : x ∉ ps := fun hc => hnx (List.mem_cons.mpr (Or.inr hc))
      have hxp : x ≠ p := fun hc => hnx (List.mem_cons.mpr (Or.inl hc))
      exact hup2 x (hup1 x hx hxp) hx1
    · intro y
      rw [hshape2 y, hshape1 y]
    · rw [hbids2, hbids1]
    · rw [hnum2, hnum1]
    · intro q hq
      obtain ⟨hq2, hqps⟩ := hphi2 q hq
      obtain ⟨hqF, hqp⟩ := hphi1 q hq2
      refine ⟨hqF, fun hc => ?_⟩
      rcases List.mem_cons.mp hc with rfl | hc2
      · exact hqp rfl
      · exact hqps hc2

theorem normalize_phiFree {F : Func} {n : Nat} (hG : GoodF F n) :
    phiFree (normalizePhis F (allPhiIds F) n).1 := by
  obtain ⟨_, _, _, _, _, _, hphi⟩ := normalize_effects (allPhiIds F) F n hG
  rw [phiFree_iff_allPhiIds, List.eq_nil_iff_forall_not_mem]
  intro q hq
  obtain ⟨hqF, hqps⟩ := hphi q hq
  exact hqps hqF

/-! ### Candidate collection lemmas -/

theorem collectGo_veto {entryId : Nat} {l : List BasicBlock}
    (h : l.any (vetoBlock entryId) = true) : collectGo entryId l = none := by
  induction l with
  | nil => simp at h
  | cons b rest ih =>
    rw [List.any_cons] at h
    unfold collectGo
    by_cases hs : skipBlock entryId b = true
    · rw [if_pos hs]
      apply ih
      rcases Bool.or_eq_true_iff.mp h with hv | hrest
      · unfold vetoBlock at hv
        rw [hs] at hv
        simp at hv
      · exact hrest
    · rw [Bool.not_eq_true] at hs
      rw [if_neg (by rw [hs]; simp)]
      by_cases hi : isInvokeTermB b = true
      · rw [if_pos hi]
      · rw [if_neg (by rw [Bool.not_eq_true] at hi; rw [hi]; simp)]
        rcases Bool.or_eq_true_iff.mp h with hv | hrest
        · unfold vetoBlock at hv
          rw [Bool.not_eq_true] at hi
          rw [hi] at hv
          simp at hv
        · rw [ih hrest]
          rfl

theorem eligGo_veto {entryId : Nat} {l : List BasicBlock}
    (h : l.any (vetoBlock entryId) = true) : eligGo entryId l = none := by
  induction l with
  | nil => simp at h
  | cons b rest ih =>
    rw [List.any_cons] at h
    unfold eligGo
    by_cases hs : skipBlock entryId b = true
    · rw [if_pos hs]
      apply ih
      rcases Bool.or_eq_true_iff.mp h with hv | hrest
      · unfold vetoBlock at hv
        rw [hs] at hv
        simp at hv
      · exact hrest
    · rw [Bool.not_eq_true] at hs
      rw [if_neg (by rw [hs]; simp)]
      by_cases hi : isInvokeTermB b = true
      · rw [if_pos hi]
      · rw [if_neg (by rw [Bool.not_eq_true] at hi; rw [hi]; simp)]
        rcases Bool.or_eq_true_iff.mp h with hv | hrest
        · unfold vetoBlock at hv
          rw [Bool.not_eq_true] at hi
          rw [hi] at hv
          simp at hv
        · rw [ih hrest]
          rfl

theorem collectGo_mem {entryId : Nat} :
    ∀ {l : List BasicBlock} {cands : List Nat},
    collectGo entryId l = some cands → ∀ x ∈ cands,
    ∃ b ∈ l, b.id = x ∧ skipBlock entryId b = false ∧ isInvokeTermB b = false := by
  intro l
  induction l with
  | nil =>
    intro cands h x hx
    unfold collectGo at h
    rw [Option.some_inj] at h
    rw [← h] at hx
    simp at hx
  | cons b rest ih =>
    intro cands h x hx
    unfold collectGo at h
    by_cases hs : skipBlock entryId b = true
    · rw [if_pos hs] at h
      obtain ⟨b', hb', hrest⟩ := ih h x hx
      exact ⟨b', List.mem_cons.mpr (Or.inr hb'), hrest⟩
    · rw [Bool.not_eq_true] at hs
      rw [if_neg (by rw [hs]; simp)] at h
      by_cases hi : isInvokeTermB b = true
      · rw [if_pos hi] at h
        simp at h
      · rw [Bool.not_eq_true] at hi
        rw [if_neg (by rw [hi]; simp)] at h
        cases hrec : collectGo entryId rest with
        | none => rw [hrec] at h; simp at h
        | some cs =>
          rw [hrec] at h
          simp only [Option.map_some', Option.some_inj] at h
          rw [← h] at hx
          rcases List.mem_cons.mp hx with rfl | hx2
          · exact ⟨b, List.mem_cons.mpr (Or.inl rfl), rfl, hs, hi⟩
          · obtain ⟨b', hb', hrest2⟩ := ih hrec x hx2
            exact ⟨b', List.mem_cons.mpr (Or.inr hb'), hrest2⟩

theorem collectGo_nodup {entryId : Nat} :
    ∀ {l : List BasicBlock} {cands : List Nat},
    (l.map (·.id)).Nodup → collectGo entryId l = some cands → cands.Nodup := by
  intro l
  induction l with
  | nil =>
    intro cands _ h
    unfold collectGo at h
    rw [Option.some_inj] at h
    rw [← h]
    exact List.nodup_nil
  | cons b rest ih =>
    intro cands hnd h
    rw [List.map_cons, List.nodup_cons] at hnd
    unfold collectGo at h
    by_cases hs : skipBlock entryId b = true
    · rw [if_pos hs] at h
      exact ih hnd.2 h
    · rw [Bool.not_eq_true] at hs
      rw [if_neg (by rw [hs]; simp)] at h
      by_cases hi : isInvokeTermB b = true
      · rw [if_pos hi] at h
        simp at h
      · rw [Bool.not_eq_true] at hi
        rw [if_neg (by rw [hi]; simp)] at h
        cases hrec : collectGo entryId rest with
        | none => rw [hrec] at h; simp at h
        | some cs =>
          rw [hrec] at h
          simp only [Option.map_some', Option.some_inj] at h
          rw [← h]
          refine List.nodup_cons.mpr ⟨?_, ih hnd.2 hrec⟩
          intro hmem
          obtain ⟨b', hb', hbid', _, _⟩ := collectGo_mem hrec b.id hmem
          exact hnd.1 (hbid' ▸ List.mem_map_of_mem _ hb')

theorem phiFree_insert {F : Func} {bid : Nat} {g : BasicBlock → BasicBlock} {i : Inst}
    (hg : InsertsOne g i) (hiphi : isPhi i = false) (hf : phiFree F) :
    phiFree (modifyBlock F bid g) := by
  intro b hb j hj
  simp only [modifyBlock, List.mem_map] at hb
  obtain ⟨b0, hb0, rfl⟩ := hb
  by_cases h : b0.id = bid
  · rw [if_pos h] at hj
    have hperm := (hg b0).2.1
    have := hperm.mem_iff.mp hj
    rcases List.mem_cons.mp this with rfl | hmem
    · exact hiphi
    · exact hf b0 hb0 j hmem
  · rw [if_neg h] at hj
    exact hf b0 hb0 j hj

theorem exHalf_eq : exHalf = 1 / 2 := by
  have h := Rat.num_div_den exHalf
  rw [← h]
  norm_num [exHalf]

theorem exThreeQuarters_eq : exThreeQuarters = 3 / 4 := by
  have h := Rat.num_div_den exThreeQuarters
  rw [← h]
  norm_num [exThreeQuarters]

/-! ### The engine loop at probability zero -/

theorem engineStep_p0 (st : EngineSt) (bid : Nat) (h : 0 ≤ st.rs.stream st.rs.pos) :
    engineStep 0 st bid =
      ⟨st.fn, st.modified, st.count, ⟨st.rs.stream, st.rs.pos + 1⟩, st.fresh, st.trace⟩ := by
  unfold engineStep bernoulliDraw
  rw [decide_eq_false (not_lt.mpr h)]
  rfl

theorem engineFold_p0 (order : List Nat) :
    ∀ (st : EngineSt), (∀ k, 0 ≤ st.rs.stream k) →
    order.foldl (engineStep 0) st =
      ⟨st.fn, st.modified, st.count, ⟨st.rs.stream, st.rs.pos + order.length⟩,
       st.fresh, st.trace⟩ := by
  induction order with
  | nil =>
    intro st h
    cases st with
    | mk fn m c rs f tr =>
      cases rs with
      | mk s p => simp
  | cons bid rest ih =>
    intro st h
    rw [List.foldl_cons, engineStep_p0 st bid (h st.rs.pos)]
    have hrec := ih ⟨st.fn, st.modified, st.count, ⟨st.rs.stream, st.rs.pos + 1⟩,
      st.fresh, st.trace⟩ (fun k => h k)
    rw [hrec]
    simp only [EngineSt.mk.injEq, RandState.mk.injEq, List.length_cons, and_true, true_and]
    omega

/-! ### Claim theorems -/

/-- Claim C9: if the configured probability lies outside [0,1], the range
error is reported through the host diagnostic channel and the transform
does not run — the whole module run aborts with the error message and no
function is processed. -/
theorem C9_probability_range_error (cfg : Config) (sh : List Nat → List Nat)
    (fns : List Func) (rs : RandState) (n : Nat)
    (h : cfg.bcfProbability < 0 ∨ cfg.bcfProbability > 1) :
    runModule cfg sh fns rs n =
      Except.error "BogusCF: Probability must be between 0 and 1" := by
  unfold runModule doInitialization
  rw [if_pos h]

theorem C9_probability_range_error_witness :
    runModule exCfgBad id [exFunA] exStream0 100 =
      Except.error "BogusCF: Probability must be between 0 and 1" :=
  C9_probability_range_error exCfgBad id [exFunA] exStream0 100 (Or.inr (by norm_num [exCfgBad]))

/-- Claim C10: for a function that is a declaration (no body in this
translation unit), `runOnFunction` returns "not modified" without mutating
anything — the function, the engine state and the fresh-identity supply
come back unchanged and no block is transformed — and `isEligible` returns
`false`. -/
theorem C10_declaration_untouched (cfg : Config) (sh : List Nat → List Nat)
    (F : Func) (rs : RandState) (n : Nat) (h : F.isDeclaration = true) :
    runOnFunction cfg sh F rs n = ⟨false, F, 0, rs, n, []⟩ ∧ isEligible F = false := by
  constructor
  · unfold runOnFunction
    by_cases hd : cfg.disableBcf = true
    · rw [if_pos hd]
    · rw [if_neg hd, if_pos h]
  · unfold isEligible
    rw [if_pos h]

theorem C10_declaration_untouched_witness :
    runOnFunction exCfgP1 id exDecl exStream0 100 = ⟨false, exDecl, 0, exStream0, 100, []⟩ ∧
      isEligible exDecl = false :=
  C10_declaration_untouched exCfgP1 id exDecl exStream0 100 rfl

/-- Claim C4 (code-bug evidence): the Bernoulli engine state is shared
across function runs — `trial.reset()` does not reseed the member engine —
so the transformation of `exFunA` from a fresh engine (first draw 0 < 1/2:
its candidate block is transformed, 2 blocks become 4) differs from the
transformation of the same function run after `exFunG` consumed the first
draw (the draw it sees is 3/4 ≥ 1/2: nothing is transformed), contradicting
the claim that the two runs coincide for every other function `G`. -/
theorem C4_engine_state_shared :
    exRunFAlone.count = 1 ∧ numBlocks exRunFAlone.fn = 4 ∧
    exRunG.count = 1 ∧
    exRunFAfterG.count = 0 ∧ numBlocks exRunFAfterG.fn = 2 ∧
    exRunFAlone.count ≠ exRunFAfterG.count ∧
    numBlocks exRunFAlone.fn ≠ numBlocks exRunFAfterG.fn := by decide

/-- Claim C1 (counterexample): a second `runOnFunction` on the function
produced (and tagged) by a first run is not short-circuited by the tag.
At probability 1 the first run transforms the one candidate block of
`exFunA` (2 blocks become 4) and sets the tag; the second run, with
`must_obfuscate` never set by the caller, re-enters, transforms 3 more
blocks and grows the function to 11 blocks — the claim predicted zero
additional transformations and a stable block count. -/
theorem C1_counterexample :
    exRunA1.modified = true ∧ exRunA1.fn.tagged = true ∧
    numBlocks exFunA = 2 ∧ numBlocks exRunA1.fn = 4 ∧
    exRunA2.count = 3 ∧ exRunA2.count ≠ 0 ∧
    numBlocks exRunA2.fn = 11 ∧ numBlocks exRunA2.fn ≠ numBlocks exRunA1.fn := by decide

/-- Claim C2 (counterexample): `exFunB` carries an exceptional-transfer
terminator (`invoke`) in its entry block, yet the transform does not veto
the function — the entry skip fires before the invoke check — so at
probability 1 it modifies the function, transforms one block, and
`isEligible` returns `true`; the claim predicted "not modified", zero
blocks transformed and `isEligible = false` for an exceptional terminator
in any position. -/
theorem C2_counterexample :
    exFunB.blocks.any isInvokeTermB = true ∧
    (runOnFunction exCfgP1 id exFunB exStream0 100).modified = true ∧
    (runOnFunction exCfgP1 id exFunB exStream0 100).count = 1 ∧
    isEligible exFunB = true := by decide

/-- Claim C5 (counterexample): `exFunC` holds one PHI node but its candidate
block list is empty (its only non-entry block is terminator-only), so
`runOnFunction` returns before the PHI-demotion loop: the function comes
back unchanged and the PHI survives, where the claim predicted zero
MergeNodes for every function including those with an empty candidate
list. -/
theorem C5_counterexample :
    countPhis exFunC = 1 ∧
    (runOnFunction exCfgP1 id exFunC exStream0 100).fn = exFunC ∧
    countPhis (runOnFunction exCfgP1 id exFunC exStream0 100).fn = 1 := by decide

/-- Claim C6 (counterexample): the pre-existing PHI node (identity 11) of
`exFunD` is destroyed by the run — `DemotePHIToStack` erases it — although
the claim says nothing pre-existing other than the head block's terminator
(in particular no MergeNode/PHI) is destroyed. -/
theorem C6_counterexample :
    hasInst exFunD 11 ∧ 11 ∈ allPhiIds exFunD ∧
    (runOnFunction exCfgP1 id exFunD exStream0 100).modified = true ∧
    ¬ hasInst (runOnFunction exCfgP1 id exFunD exStream0 100).fn 11 := by decide

/-- Claim C8: when the `must_obfuscate` override (the function's tag) is
set, the transform is not short-circuited by the name-list filter or the
probability-zero gate, and every candidate block still undergoes its own
Bernoulli trial at the configured probability: with the override set and
probability 0 the engine position advances by exactly one draw per
(shuffled) candidate block, every trial fails, zero blocks are transformed,
and the function is reported unmodified. -/
theorem C8_override_trials_still_run (cfg : Config) (sh : List Nat → List Nat)
    (F : Func) (rs : RandState) (n : Nat)
    (htag : F.tagged = true) (hp : cfg.bcfProbability = 0)
    (hdis : cfg.disableBcf = false) (hdecl : F.isDeclaration = false)
    {cands : List Nat} (hcoll : collectPass F = some cands) (hne : cands ≠ [])
    (hstream : ∀ k, 0 ≤ rs.stream k) :
    (runOnFunction cfg sh F rs n).modified = false ∧
    (runOnFunction cfg sh F rs n).count = 0 ∧
    (runOnFunction cfg sh F rs n).rs.pos = rs.pos + (sh cands).length := by
  have hrun : runOnFunction cfg sh F rs n =
      ⟨false, (normalizePhis F (allPhiIds F) n).1, 0,
       ⟨rs.stream, rs.pos + (sh cands).length⟩, (normalizePhis F (allPhiIds F) n).2, []⟩ := by
    unfold runOnFunction
    rw [if_neg (by rw [hdis]; simp)]
    rw [if_neg (by rw [hdecl]; simp)]
    rw [if_neg (by rw [htag]; simp)]
    rw [if_neg (by rw [htag]; simp)]
    rw [hcoll]
    have hemp : cands.isEmpty = false := by
      rw [List.isEmpty_eq_false]
      exact hne
    simp only [hemp, Bool.false_eq_true, if_false, hp]
    rw [engineFold_p0 (sh cands) _ (fun k => hstream k)]
    rfl
  rw [hrun]
  exact ⟨rfl, rfl, rfl⟩

theorem C8_override_trials_still_run_witness :
    (runOnFunction exCfgP0 id exFunT exStream0 100).modified = false ∧
    (runOnFunction exCfgP0 id exFunT exStream0 100).count = 0 ∧
    (runOnFunction exCfgP0 id exFunT exStream0 100).rs.pos =
      exStream0.pos + (id [1] : List Nat).length :=
  C8_override_trials_still_run exCfgP0 id exFunT exStream0 100 rfl rfl rfl rfl rfl
    (by decide) (fun k => le_refl 0)

/-- Claim C2 (amended): the whole-function veto fires exactly when an
exceptional-transfer terminator sits in a block that survives the per-block
skips (a block that is not terminator-only, not a landing block and not the
entry block).  When such a block exists anywhere in the function, the
transform returns not-modified with zero blocks transformed and every piece
of state untouched, and `isEligible` returns false. -/
theorem C2_invoke_veto_amended (cfg : Config) (sh : List Nat → List Nat)
    (F : Func) (rs : RandState) (n : Nat) (e : BasicBlock)
    (he : F.blocks.head? = some e)
    (hv : F.blocks.any (vetoBlock e.id) = true) :
    runOnFunction cfg sh F rs n = ⟨false, F, 0, rs, n, []⟩ ∧ isEligible F = false := by
  obtain ⟨tl, htl⟩ : ∃ tl, F.blocks = e :: tl := by
    cases hb : F.blocks with
    | nil => rw [hb] at he; simp at he
    | cons b tl =>
      rw [hb] at he
      simp only [List.head?_cons, Option.some_inj] at he
      exact ⟨tl, by rw [he]⟩
  have hcoll : collectPass F = none := by
    unfold collectPass
    rw [htl]
    exact collectGo_veto (htl ▸ hv)
  have helig2 : eligGo e.id F.blocks = none := eligGo_veto hv
  have helig : isEligible F = false := by
    unfold isEligible
    by_cases hd : F.isDeclaration
    · rw [if_pos hd]
    · rw [if_neg hd]
      rw [htl]
      show (match eligGo e.id (e :: tl) with | none => false | some m => m != 0) = false
      rw [← htl, helig2]
  refine ⟨?_, helig⟩
  unfold runOnFunction
  rw [hcoll]
  split_ifs <;> rfl

theorem C2_invoke_veto_amended_witness :
    runOnFunction exCfgP1 id exFunB2 exStream0 100 =
      ⟨false, exFunB2, 0, exStream0, 100, []⟩ ∧ isEligible exFunB2 = false :=
  C2_invoke_veto_amended exCfgP1 id exFunB2 exStream0 100
    ⟨0, false, [⟨10, .term (.br 1)⟩]⟩ rfl (by decide)

theorem countPhis_eq_zero_of_phiFree {F : Func} (h : phiFree F) : countPhis F = 0 := by
  unfold countPhis
  rw [List.sum_eq_zero]
  intro x hx
  simp only [List.mem_map] at hx
  obtain ⟨b, hb, rfl⟩ := hx
  rw [List.length_eq_zero, List.filter_eq_nil_iff]
  intro i hi
  simp [h b hb i hi]

/-- Claim C5 (amended): once the transform reaches the Merge-Node
Normalizer (past the veto and the empty-candidate early return), zero merge
nodes (PHI nodes) exist anywhere in the function immediately after the
demotion loop, before the Engine runs. -/
theorem C5_normalizer_amended {F : Func} {n : Nat} (hG : GoodF F n) :
    countPhis (normalizePhis F (allPhiIds F) n).1 = 0 :=
  countPhis_eq_zero_of_phiFree (normalize_phiFree hG)

theorem C5_normalizer_amended_witness :
    countPhis (normalizePhis exFunD (allPhiIds exFunD) 100).1 = 0 :=
  C5_normalizer_amended (by decide)

/-! ### Terminator-slot identity tracking -/

theorem term_not_phi {i : Inst} (h : isTermInst i = true) : isPhi i = false := by
  cases i with
  | mk iid k => cases k <;> simp_all [isTermInst, isPhi]

theorem term_not_phiOrDbg {i : Inst} (h : isTermInst i = true) : isPhiOrDbg i = false := by
  cases i with
  | mk iid k => cases k <;> simp_all [isTermInst, isPhiOrDbg, isPhi, isDbg]

theorem lastId_modify {F : Func} {bid : Nat} {g : BasicBlock → BasicBlock}
    (hgid : ∀ b, (g b).id = b.id)
    (hk : ∀ b, getBlock F bid = some b →
      (g b).insts.getLast?.map (fun i => i.id) = b.insts.getLast?.map (fun i => i.id)) :
    ∀ y, lastIdOf (modifyBlock F bid g) y = lastIdOf F y := by
  intro y
  unfold lastIdOf
  by_cases hy : y = bid
  · subst hy
    rw [getBlock_modify_self F y g hgid]
    cases hfb : getBlock F y with
    | none => rfl
    | some b =>
      show (g b).insts.getLast?.map (fun i => i.id) = b.insts.getLast?.map (fun i => i.id)
      exact hk b hfb
  · rw [getBlock_modify_ne F bid g hgid hy]

theorem lastKeep_insertBeforeTerm (i : Inst) {b : BasicBlock} (hb : endsInTerm b) :
    (insertBeforeTerm i b).insts.getLast? = b.insts.getLast? := by
  obtain ⟨L, hL, _⟩ := hb
  unfold insertBeforeTerm
  simp only [hL]
  show (b.insts.dropLast ++ [i, L]).getLast? = some L
  rw [List.getLast?_append_of_ne_nil _ (by simp)]
  rfl

theorem lastKeep_insertAfterLeadingPhis (i : Inst) {b : BasicBlock} (hb : endsInTerm b) :
    (insertAfterLeadingPhis i b).insts.getLast? = b.insts.getLast? := by
  obtain ⟨L, hL, hLt⟩ := hb
  have hdw : b.insts.dropWhile isPhi ≠ [] := by
    intro he
    have hall := List.dropWhile_eq_nil_iff.mp he
    have hmem : L ∈ b.insts := List.mem_of_mem_getLast? (by rw [hL]; rfl)
    have := hall L hmem
    rw [term_not_phi hLt] at this
    simp at this
  show (b.insts.takeWhile isPhi ++ i :: b.insts.dropWhile isPhi).getLast? = b.insts.getLast?
  rw [List.getLast?_append_of_ne_nil _ (by simp), getLast?_cons_ne i hdw,
    getLast?_of_dropWhile_ne_nil hdw]

theorem lastKeep_insertAfterLeadingPhiDbg (i : Inst) {b : BasicBlock} (hb : endsInTerm b) :
    (insertAfterLeadingPhiDbg i b).insts.getLast? = b.insts.getLast? := by
  obtain ⟨L, hL, hLt⟩ := hb
  have hdw : b.insts.dropWhile isPhiOrDbg ≠ [] := by
    intro he
    have hall := List.dropWhile_eq_nil_iff.mp he
    have hmem : L ∈ b.insts := List.mem_of_mem_getLast? (by rw [hL]; rfl)
    have := hall L hmem
    rw [term_not_phiOrDbg hLt] at this
    simp at this
  show (b.insts.takeWhile isPhiOrDbg ++ i :: b.insts.dropWhile isPhiOrDbg).getLast? =
    b.insts.getLast?
  rw [List.getLast?_append_of_ne_nil _ (by simp), getLast?_cons_ne i hdw,
    getLast?_of_dropWhile_ne_nil hdw]

theorem lastKeep_removeInstFrom {pid : Nat} {b : BasicBlock} {L : Inst}
    (hL : b.insts.getLast? = some L) (hne : L.id ≠ pid) :
    (removeInstFrom pid b).insts.getLast? = b.insts.getLast? := by
  show (b.insts.filter (fun i => i.id ≠ pid)).getLast? = b.insts.getLast?
  rw [hL]
  exact getLast?_filter_of_last hL (by simp [hne])

theorem lastId_mapInsts {h : Inst → Inst} (H : InstHom h) (F : Func) :
    ∀ y, lastIdOf (mapInsts h F) y = lastIdOf F y := by
  intro y
  unfold lastIdOf
  cases F with
  | mk nm d t L =>
    show ((getBlock ⟨nm, d, t, L.map (fun b => { b with insts := b.insts.map h })⟩ y).bind _) = _
    rw [getBlock_map (fun b => { b with insts := b.insts.map h }) (fun b => rfl) L y nm d t]
    cases hfb : getBlock ⟨nm, d, t, L⟩ y with
    | none => rfl
    | some b =>
      show (b.insts.map h).getLast?.map (fun i => i.id) =
        b.insts.getLast?.map (fun i => i.id)
      rw [List.getLast?_map]
      cases b.insts.getLast? with
      | none => rfl
      | some L2 => simp [H.id_eq]

theorem lastId_prepend {F : Func} {n : Nat} (i : Inst) (hG : GoodF F n) :
    ∀ y, lastIdOf (prependToEntry i F) y = lastIdOf F y := by
  intro y
  cases hFb : F.blocks with
  | nil =>
    have hid : prependToEntry i F = F := by unfold prependToEntry; rw [hFb]
    rw [hid]
  | cons e rest =>
    have hblocks : (prependToEntry i F).blocks = { e with insts := i :: e.insts } :: rest := by
      unfold prependToEntry; rw [hFb]
    have hemem : e ∈ F.blocks := by rw [hFb]; exact List.mem_cons_self e rest
    obtain ⟨L, hL, hLt⟩ := hG.2.2.2.2 e hemem
    have hne : e.insts ≠ [] := by intro he; rw [he] at hL; simp at hL
    unfold lastIdOf getBlock
    rw [hblocks, hFb]
    cases hpy : (e.id == y) with
    | true =>
      rw [List.find?_cons, List.find?_cons]
      have h1 : (({ e with insts := i :: e.insts } : BasicBlock).id == y) = true := hpy
      simp only [h1, hpy]
      show ((i :: e.insts).getLast?.map fun j => j.id) = (e.insts.getLast?.map fun j => j.id)
      rw [getLast?_cons_ne i hne]
    | false =>
      rw [List.find?_cons, List.find?_cons]
      have h1 : (({ e with insts := i :: e.insts } : BasicBlock).id == y) = false := hpy
      simp only [h1, hpy]

theorem insertBeforeTerm_id (i : Inst) (b : BasicBlock) : (insertBeforeTerm i b).id = b.id := by
  unfold insertBeforeTerm
  cases b.insts.getLast? <;> rfl

theorem lastId_addStores (slot : Nat) :
    ∀ (inc : List (Nat × Nat)) (sid : Nat) (F : Func) (n : Nat), GoodF F n → n ≤ sid →
    ∀ y, lastIdOf (addStores slot inc sid F) y = lastIdOf F y := by
  intro inc
  induction inc with
  | nil => intro sid F n hG hle y; rfl
  | cons vb rest ih =>
    intro sid F n hG hle y
    have hins : InsertsOne (insertBeforeTerm ⟨sid, InstKind.store vb.1 slot⟩)
        ⟨sid, InstKind.store vb.1 slot⟩ := insertsOne_insertBeforeTerm _ rfl
    obtain ⟨hG1, _, _, _, _, _⟩ := modify_insert_effects hins hG hle
    show lastIdOf (addStores slot rest (sid + 1)
      (modifyBlock F vb.2 (insertBeforeTerm ⟨sid, InstKind.store vb.1 slot⟩))) y = _
    rw [ih (sid + 1) _ (sid + 1) hG1 (le_refl _) y]
    refine @lastId_modify F vb.2 (insertBeforeTerm ⟨sid, InstKind.store vb.1 slot⟩)
      (fun b => insertBeforeTerm_id _ b) ?_ y
    intro b hfb
    rw [lastKeep_insertBeforeTerm _ (hG.2.2.2.2 b (getBlock_mem F vb.2 hfb))]

theorem lastId_demote {F : Func} {n pid : Nat} (hG : GoodF F n) :
    ∀ y, lastIdOf (demotePHIToStack F pid n).1 y = lastIdOf F y := by
  cases hfind : findInstBlock F pid with
  | none =>
    have hid : demotePHIToStack F pid n = (F, n) := by
      unfold demotePHIToStack; rw [hfind]
    rw [hid]
    intro y; rfl
  | some bi =>
    obtain ⟨bId, i⟩ := bi
    cases hk : i.kind with
    | phi inc =>
      obtain ⟨b, hbmem, hbid, hi, hiid⟩ := findInstBlock_some hfind
      have hfb : getBlock F bId = some b := by
        rw [← hbid]
        exact getBlock_of_mem hG.2.1 hbmem
      have hiphi : isPhi i = true := isPhi_of_kind hk
      by_cases hu : (usersOf F pid).isEmpty = true
      · have hid : demotePHIToStack F pid n = (modifyBlock F bId (removeInstFrom pid), n) := by
          unfold demotePHIToStack
          rw [hfind]
          simp only [hk, hu, if_true]
        rw [hid]
        intro y
        refine @lastId_modify F bId (removeInstFrom pid) (fun b0 => rfl) ?_ y
        intro b0 hfb0
        rw [hfb0, Option.some_inj] at hfb
        subst hfb
        obtain ⟨L, hL, hLt⟩ := hG.2.2.2.2 b0 hbmem
        have hLne : L.id ≠ pid := by
          rw [← hiid]
          exact last_ne_of_phi hG hbmem hi (phi_not_term hiphi) hL hLt
        rw [lastKeep_removeInstFrom hL hLne]
      · have hid : demotePHIToStack F pid n =
            (replaceUsesEverywhere
              (modifyBlock (addStores n inc (n + 1) (prependToEntry ⟨n, InstKind.alloca⟩ F)) bId
                (fun b0 => insertAfterLeadingPhis ⟨n + 1 + inc.length, InstKind.load n⟩
                  (removeInstFrom pid b0)))
              pid (n + 1 + inc.length), n + 2 + inc.length) := by
          unfold demotePHIToStack
          rw [hfind]
          simp only [hk, hu, if_false, Bool.false_eq_true]
        rw [hid]
        unfold replaceUsesEverywhere
        obtain ⟨hG1, hup1, hdown1, hshape1, hbids1, hnum1, hphi1⟩ :=
          prepend_effects ⟨n, InstKind.alloca⟩ hG (le_refl n) rfl
        obtain ⟨hG2, hup2, hdown2, hshape2, hbids2, hnum2, hphi2⟩ :=
          addStores_effects n inc (n + 1) _ (n + 1) hG1 (le_refl _)
        have hpib : phiInBlock (addStores n inc (n + 1) (prependToEntry ⟨n, InstKind.alloca⟩ F))
            bId pid :=
          phiInBlock_addStores inc (n + 1) _ (phiInBlock_prepend ⟨b, hfb, i, hi, hiid, hiphi⟩)
        obtain ⟨b2, hb2, ip2, hip2, hipid2, hipphi2⟩ := hpib
        intro y
        rw [lastId_mapInsts (instHom_subst pid (n + 1 + inc.length)) _ y]
        have hmod : ∀ z, lastIdOf (modifyBlock
            (addStores n inc (n + 1) (prependToEntry ⟨n, InstKind.alloca⟩ F)) bId
            (fun b0 => insertAfterLeadingPhis ⟨n + 1 + inc.length, InstKind.load n⟩
              (removeInstFrom pid b0))) z =
            lastIdOf (addStores n inc (n + 1) (prependToEntry ⟨n, InstKind.alloca⟩ F)) z := by
          refine @lastId_modify _ bId
            (fun b0 => insertAfterLeadingPhis ⟨n + 1 + inc.length, InstKind.load n⟩
              (removeInstFrom pid b0)) (fun b0 => rfl) ?_
          intro b0 hfb0
          rw [hfb0, Option.some_inj] at hb2
          subst hb2
          obtain ⟨L, hL, hLt⟩ := hG2.2.2.2.2 b0 (getBlock_mem _ bId hfb0)
          have hLne : L.id ≠ pid := by
            rw [← hipid2]
            exact last_ne_of_phi hG2 (getBlock_mem _ bId hfb0) hip2
              (phi_not_term hipphi2) hL hLt
          have hrfilter : (removeInstFrom pid b0).insts.getLast? = some L := by
            rw [lastKeep_removeInstFrom hL hLne, hL]
          have hrterm : endsInTerm (removeInstFrom pid b0) := ⟨L, hrfilter, hLt⟩
          rw [lastKeep_insertAfterLeadingPhis _ hrterm, lastKeep_removeInstFrom hL hLne]
        rw [hmod y, lastId_addStores n inc (n + 1) _ (n + 1) hG1 (le_refl _) y,
          lastId_prepend _ hG y]
    | dbg =>
      have hid : demotePHIToStack F pid n = (F, n) := by
        unfold demotePHIToStack; rw [hfind]; simp only [hk]
      rw [hid]; intro y; rfl
    | simple ops =>
      have hid : demotePHIToStack F pid n = (F, n) := by
        unfold demotePHIToStack; rw [hfind]; simp only [hk]
      rw [hid]; intro y; rfl
    | alloca =>
      have hid : demotePHIToStack F pid n = (F, n) := by
        unfold demotePHIToStack; rw [hfind]; simp only [hk]
      rw [hid]; intro y; rfl
    | load s =>
      have hid : demotePHIToStack F pid n = (F, n) := by
        unfold demotePHIToStack; rw [hfind]; simp only [hk]
      rw [hid]; intro y; rfl
    | store v s =>
      have hid : demotePHIToStack F pid n = (F, n) := by
        unfold demotePHIToStack; rw [hfind]; simp only [hk]
      rw [hid]; intro y; rfl
    | term t =>
      have hid : demotePHIToStack F pid n = (F, n) := by
        unfold demotePHIToStack; rw [hfind]; simp only [hk]
      rw [hid]; intro y; rfl

/-! ### Preservation of a non-terminator effective first instruction -/

theorem find?_filter_of_imp {α} {p q : α → Bool} :
    ∀ {l : List α}, (∀ x ∈ l, p x = true → q x = true) →
    (l.filter q).find? p = l.find? p := by
  intro l
  induction l with
  | nil => intro _; rfl
  | cons a rest ih =>
    intro h
    have hrest : (rest.filter q).find? p = rest.find? p :=
      ih (fun x hx => h x (List.mem_cons_of_mem a hx))
    cases hq : q a with
    | true =>
      rw [List.filter_cons_of_pos hq, List.find?_cons, List.find?_cons]
      cases hp : p a with
      | true => simp only [hp]
      | false => simp only [hp]; exact hrest
    | false =>
      have hp : p a = false := by
        cases hpa : p a with
        | false => rfl
        | true => rw [h a (List.mem_cons_self a rest) hpa] at hq; exact absurd hq (by simp)
      rw [List.filter_cons_of_neg (by simp [hq]), List.find?_cons]
      simp only [hp]
      exact hrest

theorem find?_eff_takeWhile_phi (l : List Inst) :
    (l.takeWhile isPhi).find? (fun j => !isPhiOrDbg j) = none := by
  rw [List.find?_eq_none]
  intro x hx
  have hp : isPhi x = true := List.mem_takeWhile_imp hx
  simp [isPhiOrDbg, hp]

theorem find?_eff_takeWhile_phiDbg (l : List Inst) :
    (l.takeWhile isPhiOrDbg).find? (fun j => !isPhiOrDbg j) = none := by
  rw [List.find?_eq_none]
  intro x hx
  have hp : isPhiOrDbg x = true := List.mem_takeWhile_imp hx
  simp [hp]

theorem effFirst_insertAfterLeadingPhis {i : Inst} (hiP : isPhiOrDbg i = false)
    (hiT : isTermInst i = false) (b : BasicBlock) :
    hasEffFirst (insertAfterLeadingPhis i b) := by
  refine ⟨i, ?_, hiT⟩
  show (b.insts.takeWhile isPhi ++ i :: b.insts.dropWhile isPhi).find?
    (fun j => !isPhiOrDbg j) = some i
  rw [List.find?_append, find?_eff_takeWhile_phi, Option.none_or, List.find?_cons]
  simp [hiP]

theorem getFirst_insertAfterLeadingPhiDbg_skip {i : Inst} (hiP : isPhiOrDbg i = true)
    (b : BasicBlock) :
    getFirstNonPHIOrDbgOrLifetime (insertAfterLeadingPhiDbg i b) =
      getFirstNonPHIOrDbgOrLifetime b := by
  have hsplit : b.insts = b.insts.takeWhile isPhiOrDbg ++ b.insts.dropWhile isPhiOrDbg :=
    (List.takeWhile_append_dropWhile isPhiOrDbg b.insts).symm
  show (b.insts.takeWhile isPhiOrDbg ++ i :: b.insts.dropWhile isPhiOrDbg).find?
    (fun j => !isPhiOrDbg j) = b.insts.find? (fun j => !isPhiOrDbg j)
  rw [List.find?_append, find?_eff_takeWhile_phiDbg, Option.none_or, List.find?_cons]
  simp only [hiP, Bool.not_true]
  conv_rhs => rw [hsplit]
  rw [List.find?_append, find?_eff_takeWhile_phiDbg, Option.none_or]

theorem effFirst_insertBeforeTerm {i : Inst} (hiP : isPhiOrDbg i = false)
    (hiT : isTermInst i = false) {b : BasicBlock} (hb : hasEffFirst b) :
    hasEffFirst (insertBeforeTerm i b) := by
  obtain ⟨i1, h1, h1t⟩ := hb
  unfold insertBeforeTerm
  cases hgl : b.insts.getLast? with
  | none =>
    have hnil : b.insts = [] := List.getLast?_eq_none_iff.mp hgl
    exact absurd h1 (by unfold getFirstNonPHIOrDbgOrLifetime; rw [hnil]; simp)
  | some t =>
    have hw := dropLast_append_last hgl
    have h1a : (b.insts.dropLast ++ [t]).find? (fun j => !isPhiOrDbg j) = some i1 := by
      rw [hw]; exact h1
    rw [List.find?_append] at h1a
    cases hd : b.insts.dropLast.find? (fun j => !isPhiOrDbg j) with
    | some j0 =>
      rw [hd] at h1a
      have hj0 : j0 = i1 := Option.some_inj.mp h1a
      refine ⟨j0, ?_, by rw [hj0]; exact h1t⟩
      show (b.insts.dropLast ++ [i, t]).find? (fun j => !isPhiOrDbg j) = some j0
      rw [List.find?_append, hd]
      rfl
    | none =>
      refine ⟨i, ?_, hiT⟩
      show (b.insts.dropLast ++ [i, t]).find? (fun j => !isPhiOrDbg j) = some i
      rw [List.find?_append, hd, Option.none_or, List.find?_cons]
      simp [hiP]

theorem getFirst_removeInstFrom {pid : Nat} {b : BasicBlock}
    (h : ∀ x ∈ b.insts, isPhiOrDbg x = false → x.id ≠ pid) :
    getFirstNonPHIOrDbgOrLifetime (removeInstFrom pid b) =
      getFirstNonPHIOrDbgOrLifetime b := by
  show (b.insts.filter (fun i => i.id ≠ pid)).find? (fun j => !isPhiOrDbg j) =
    b.insts.find? (fun j => !isPhiOrDbg j)
  refine find?_filter_of_imp ?_
  intro x hx hpx
  have hfalse : isPhiOrDbg x = false := by
    cases hpd : isPhiOrDbg x with
    | false => rfl
    | true => rw [hpd] at hpx; exact absurd hpx (by simp)
  simp only [decide_eq_true_eq]
  exact h x hx hfalse

theorem effOK_refl (F : Func) : EffOK F F := by
  intro y b b' hb hb' hP
  rw [hb] at hb'
  rw [← Option.some_inj.mp hb']
  exact hP

theorem effOK_trans {F1 F2 F3 : Func} (hnd2 : (blockIds F2).Nodup)
    (hbi : blockIds F2 = blockIds F1)
    (h12 : EffOK F1 F2) (h23 : EffOK F2 F3) : EffOK F1 F3 := by
  intro y b b3 hb hb3 hP
  have hy1 : y ∈ blockIds F1 := by
    have hmem : b ∈ F1.blocks := getBlock_mem F1 y hb
    have hmm : b.id ∈ blockIds F1 := List.mem_map.mpr ⟨b, hmem, rfl⟩
    rwa [getBlock_id F1 y hb] at hmm
  have hy2 : y ∈ blockIds F2 := by rw [hbi]; exact hy1
  obtain ⟨b2, hb2mem, hb2id⟩ := List.mem_map.mp hy2
  have hb2id' : b2.id = y := hb2id
  have hgb2 : getBlock F2 y = some b2 := by
    rw [← hb2id']
    exact getBlock_of_mem hnd2 hb2mem
  exact h23 y b2 b3 hgb2 hb3 (h12 y b b2 hb hgb2 hP)

theorem getFirst_mapInsts {h : Inst → Inst} (H : InstHom h) (b : BasicBlock) :
    getFirstNonPHIOrDbgOrLifetime { b with insts := b.insts.map h } =
      (getFirstNonPHIOrDbgOrLifetime b).map h := by
  show (b.insts.map h).find? (fun j => !isPhiOrDbg j) =
    (b.insts.find? (fun j => !isPhiOrDbg j)).map h
  have hpred : ((fun j => !isPhiOrDbg j) ∘ h) = (fun j : Inst => !isPhiOrDbg j) := by
    funext j
    show (!isPhiOrDbg (h j)) = !isPhiOrDbg j
    unfold isPhiOrDbg
    rw [H.phi_eq, H.dbg_eq]
  rw [List.find?_map, hpred]

theorem effOK_mapInsts {h : Inst → Inst} (H : InstHom h) (F : Func) :
    EffOK F (mapInsts h F) := by
  intro y b b' hb hb' hP
  obtain ⟨i1, h1, h1t⟩ := hP
  cases F with
  | mk nm d t L =>
    rw [show mapInsts h ⟨nm, d, t, L⟩ =
      ⟨nm, d, t, L.map (fun b0 => { b0 with insts := b0.insts.map h })⟩ from rfl,
      getBlock_map (fun b0 => { b0 with insts := b0.insts.map h }) (fun b0 => rfl) L y nm d t,
      hb] at hb'
    have hb'eq : ({ b with insts := b.insts.map h } : BasicBlock) = b' :=
      Option.some_inj.mp hb'
    refine ⟨h i1, ?_, by rw [H.term_eq]; exact h1t⟩
    rw [← hb'eq, getFirst_mapInsts H, h1]
    rfl

theorem effOK_modify {F : Func} {bid : Nat} {g : BasicBlock → BasicBlock}
    (hgid : ∀ b, (g b).id = b.id)
    (hg : ∀ b, getBlock F bid = some b → hasEffFirst b → hasEffFirst (g b)) :
    EffOK F (modifyBlock F bid g) := by
  intro y b b' hb hb' hP
  by_cases hy : y = bid
  · subst hy
    rw [getBlock_modify_self F y g hgid, hb] at hb'
    have hgb : g b = b' := Option.some_inj.mp hb'
    rw [← hgb]
    exact hg b hb hP
  · rw [getBlock_modify_ne F bid g hgid hy, hb] at hb'
    rw [← Option.some_inj.mp hb']
    exact hP

theorem effOK_prepend {i : Inst} (hiP : isPhiOrDbg i = false) (hiT : isTermInst i = false)
    (F : Func) : EffOK F (prependToEntry i F) := by
  intro y b b' hb hb' hP
  cases hFb : F.blocks with
  | nil =>
    have hid : prependToEntry i F = F := by unfold prependToEntry; rw [hFb]
    rw [hid, hb] at hb'
    rw [← Option.some_inj.mp hb']
    exact hP
  | cons e rest =>
    have hblocks : (prependToEntry i F).blocks = { e with insts := i :: e.insts } :: rest := by
      unfold prependToEntry; rw [hFb]
    unfold getBlock at hb hb'
    rw [hblocks] at hb'
    rw [hFb] at hb
    rw [List.find?_cons] at hb hb'
    cases hpy : (e.id == y) with
    | true =>
      have h1 : (({ e with insts := i :: e.insts } : BasicBlock).id == y) = true := hpy
      simp only [h1] at hb'
      rw [← Option.some_inj.mp hb']
      refine ⟨i, ?_, hiT⟩
      show (i :: e.insts).find? (fun j => !isPhiOrDbg j) = some i
      rw [List.find?_cons]
      simp [hiP]
    | false =>
      have h1 : (({ e with insts := i :: e.insts } : BasicBlock).id == y) = false := hpy
      simp only [h1] at hb'
      simp only [hpy] at hb
      rw [hb] at hb'
      rw [← Option.some_inj.mp hb']
      exact hP

theorem effOK_addStores (slot : Nat) :
    ∀ (inc : List (Nat × Nat)) (sid : Nat) (F : Func) (n : Nat), GoodF F n → n ≤ sid →
    EffOK F (addStores slot inc sid F) := by
  intro inc
  induction inc with
  | nil => intro sid F n hG hle; exact effOK_refl F
  | cons vb rest ih =>
    intro sid F n hG hle
    have hins : InsertsOne (insertBeforeTerm ⟨sid, InstKind.store vb.1 slot⟩)
        ⟨sid, InstKind.store vb.1 slot⟩ := insertsOne_insertBeforeTerm _ rfl
    obtain ⟨hG1, _, _, _, hbids1, _⟩ := modify_insert_effects hins hG hle
    show EffOK F (addStores slot rest (sid + 1)
      (modifyBlock F vb.2 (insertBeforeTerm ⟨sid, InstKind.store vb.1 slot⟩)))
    refine effOK_trans hG1.2.1 hbids1 ?_ (ih (sid + 1) _ (sid + 1) hG1 (le_refl _))
    exact effOK_modify (fun b => insertBeforeTerm_id _ b)
      (fun b _ hP =>
        @effFirst_insertBeforeTerm ⟨sid, InstKind.store vb.1 slot⟩ rfl rfl b hP)

theorem effOK_demote {F : Func} {n pid : Nat} (hG : GoodF F n) :
    EffOK F (demotePHIToStack F pid n).1 := by
  cases hfind : findInstBlock F pid with
  | none =>
    have hid : demotePHIToStack F pid n = (F, n) := by
      unfold demotePHIToStack; rw [hfind]
    rw [hid]
    exact effOK_refl F
  | some bi =>
    obtain ⟨bId, i⟩ := bi
    cases hk : i.kind with
    | phi inc =>
      obtain ⟨b, hbmem, hbid, hi, hiid⟩ := findInstBlock_some hfind
      have hiphi : isPhi i = true := isPhi_of_kind hk
      have hremove : ∀ b0 : BasicBlock, b0 ∈ F.blocks →
          hasEffFirst b0 → hasEffFirst (removeInstFrom pid b0) := by
        intro b0 hb0mem hP
        obtain ⟨i1, h1, h1t⟩ := hP
        have hfree : ∀ x ∈ b0.insts, isPhiOrDbg x = false → x.id ≠ pid := by
          intro x hxmem hxnp hxid
          have hxa : x ∈ allInsts F := mem_allInsts.mpr ⟨b0, hb0mem, hxmem⟩
          have hia : i ∈ allInsts F := mem_allInsts.mpr ⟨b, hbmem, hi⟩
          have hxi : x = i := inst_id_inj hG.1 hxa hia (by rw [hxid, hiid])
          rw [hxi] at hxnp
          unfold isPhiOrDbg at hxnp
          rw [hiphi] at hxnp
          exact absurd hxnp (by simp)
        exact ⟨i1, by rw [getFirst_removeInstFrom hfree]; exact h1, h1t⟩
      by_cases hu : (usersOf F pid).isEmpty = true
      · have hid : demotePHIToStack F pid n = (modifyBlock F bId (removeInstFrom pid), n) := by
          unfold demotePHIToStack; rw [hfind]; simp only [hk, hu, if_true]
        rw [hid]
        show EffOK F (modifyBlock F bId (removeInstFrom pid))
        exact effOK_modify (fun b0 => rfl)
          (fun b0 hfb0 hP => hremove b0 (getBlock_mem F bId hfb0) hP)
      · have hid : demotePHIToStack F pid n =
            (replaceUsesEverywhere
              (modifyBlock (addStores n inc (n + 1) (prependToEntry ⟨n, InstKind.alloca⟩ F)) bId
                (fun b0 => insertAfterLeadingPhis ⟨n + 1 + inc.length, InstKind.load n⟩
                  (removeInstFrom pid b0)))
              pid (n + 1 + inc.length), n + 2 + inc.length) := by
          unfold demotePHIToStack
          rw [hfind]
          simp only [hk, hu, if_false, Bool.false_eq_true]
        rw [hid]
        obtain ⟨hG1, hup1, hdown1, hshape1, hbids1, hnum1, hphi1⟩ :=
          prepend_effects ⟨n, InstKind.alloca⟩ hG (le_refl n) rfl
        obtain ⟨hG2, hup2, hdown2, hshape2, hbids2, hnum2, hphi2⟩ :=
          addStores_effects n inc (n + 1) _ (n + 1) hG1 (le_refl _)
        show EffOK F (replaceUsesEverywhere
          (modifyBlock (addStores n inc (n + 1) (prependToEntry ⟨n, InstKind.alloca⟩ F)) bId
            (fun b0 => insertAfterLeadingPhis ⟨n + 1 + inc.length, InstKind.load n⟩
              (removeInstFrom pid b0)))
          pid (n + 1 + inc.length))
        unfold replaceUsesEverywhere
        refine effOK_trans hG1.2.1 hbids1
          (@effOK_prepend ⟨n, InstKind.alloca⟩ rfl rfl F) ?_
        refine effOK_trans hG2.2.1 hbids2
          (effOK_addStores n inc (n + 1) _ (n + 1) hG1 (le_refl _)) ?_
        have hmbi : blockIds (modifyBlock
            (addStores n inc (n + 1) (prependToEntry ⟨n, InstKind.alloca⟩ F)) bId
            (fun b0 => insertAfterLeadingPhis ⟨n + 1 + inc.length, InstKind.load n⟩
              (removeInstFrom pid b0))) =
            blockIds (addStores n inc (n + 1) (prependToEntry ⟨n, InstKind.alloca⟩ F)) :=
          blockIds_modify _ bId _ (fun b0 => rfl)
        exact effOK_trans (by rw [hmbi]; exact hG2.2.1) hmbi
          (effOK_modify (fun b0 => rfl)
            (fun b0 _ _ => @effFirst_insertAfterLeadingPhis
              ⟨n + 1 + inc.length, InstKind.load n⟩ rfl rfl (removeInstFrom pid b0)))
          (effOK_mapInsts (instHom_subst pid (n + 1 + inc.length)) _)
    | dbg =>
      have hid : demotePHIToStack F pid n = (F, n) := by
        unfold demotePHIToStack; rw [hfind]; simp only [hk]
      rw [hid]; exact effOK_refl F
    | simple ops =>
      have hid : demotePHIToStack F pid n = (F, n) := by
        unfold demotePHIToStack; rw [hfind]; simp only [hk]
      rw [hid]; exact effOK_refl F
    | alloca =>
      have hid : demotePHIToStack F pid n = (F, n) := by
        unfold demotePHIToStack; rw [hfind]; simp only [hk]
      rw [hid]; exact effOK_refl F
    | load s =>
      have hid : demotePHIToStack F pid n = (F, n) := by
        unfold demotePHIToStack; rw [hfind]; simp only [hk]
      rw [hid]; exact effOK_refl F
    | store v s =>
      have hid : demotePHIToStack F pid n = (F, n) := by
        unfold demotePHIToStack; rw [hfind]; simp only [hk]
      rw [hid]; exact effOK_refl F
    | term t =>
      have hid : demotePHIToStack F pid n = (F, n) := by
        unfold demotePHIToStack; rw [hfind]; simp only [hk]
      rw [hid]; exact effOK_refl F

/-! ### The edit envelope and its closure properties -/

theorem editOK_refl {m : Nat} {F : Func} {fresh : Nat} (hG : GoodF F fresh) :
    EditOK m F fresh F fresh :=
  ⟨hG, le_refl _, fun _ => rfl, fun _ => rfl, rfl, rfl, fun x hx _ => hx, fun x hx => Or.inl hx,
   effOK_refl F⟩

theorem editOK_trans {m : Nat} {F1 F2 F3 : Func} {f1 f2 f3 : Nat}
    (h12 : EditOK m F1 f1 F2 f2) (h23 : EditOK m F2 f2 F3 f3) :
    EditOK m F1 f1 F3 f3 := by
  obtain ⟨hG2, hle2, hsh2, hla2, hbi2, hnu2, hup2, hdn2, hef2⟩ := h12
  obtain ⟨hG3, hle3, hsh3, hla3, hbi3, hnu3, hup3, hdn3, hef3⟩ := h23
  refine ⟨hG3, le_trans hle2 hle3, fun y => (hsh3 y).trans (hsh2 y),
    fun y => (hla3 y).trans (hla2 y), hbi3.trans hbi2, hnu3.trans hnu2,
    fun x hx hxm => hup3 x (hup2 x hx hxm) hxm, ?_, effOK_trans hG2.2.1 hbi2 hef2 hef3⟩
  intro x hx
  rcases hdn3 x hx with h | h
  · rcases hdn2 x h with h2 | h2
    · exact Or.inl h2
    · exact Or.inr h2
  · exact Or.inr (le_trans hle2 h)

theorem editOK_mapInsts {h : Inst → Inst} (H : InstHom h) {m : Nat} {F : Func} {fresh : Nat}
    (hG : GoodF F fresh) : EditOK m F fresh (mapInsts h F) fresh :=
  ⟨goodF_mapInsts H hG, le_refl _, fun y => termShapeOf_mapInsts H F y,
   lastId_mapInsts H F, blockIds_mapInsts h F, numBlocks_mapInsts h F,
   fun x hx _ => by rw [allInstIds_mapInsts H]; exact hx,
   fun x hx => Or.inl (by rw [allInstIds_mapInsts H] at hx; exact hx),
   effOK_mapInsts H F⟩

theorem editOK_modify_insert {F : Func} {fresh bid : Nat} {g : BasicBlock → BasicBlock}
    {i : Inst} (hg : InsertsOne g i) (hG : GoodF F fresh) (hle : fresh ≤ i.id)
    (hlast : ∀ b ∈ F.blocks, (g b).insts.getLast? = b.insts.getLast?)
    (hPg : ∀ b, getBlock F bid = some b → hasEffFirst b → hasEffFirst (g b)) {m : Nat} :
    EditOK m F fresh (modifyBlock F bid g) (i.id + 1) := by
  obtain ⟨hG', hup, hdn, hsh, hbi, hnu⟩ := modify_insert_effects hg hG hle
  refine ⟨hG', by omega, hsh, ?_, hbi, hnu, fun x hx _ => hup x hx, ?_,
    effOK_modify (fun b => (hg b).1) hPg⟩
  · refine lastId_modify (fun b => (hg b).1) ?_
    intro b hfb
    rw [hlast b (getBlock_mem F bid hfb)]
  · intro x hx
    rcases hdn x hx with h | h
    · exact Or.inl h
    · exact Or.inr (by omega)

theorem editOK_demote {F : Func} {fresh pid m : Nat} (hG : GoodF F fresh) (hpid : m ≤ pid) :
    EditOK m F fresh (demotePHIToStack F pid fresh).1 (demotePHIToStack F pid fresh).2 := by
  obtain ⟨hG', hle, hup, hdn, hsh, hbi, hnu, _⟩ := demote_effects hG
  exact ⟨hG', hle, hsh, lastId_demote hG, hbi, hnu,
    fun x hx hxm => hup x hx (by omega), hdn, effOK_demote hG⟩

/-! ### The per-PHI-user reconciliation step -/

theorem phiFixStep_editOK {F : Func} {fresh m pid : Nat} (hG : GoodF F fresh)
    (hpid : m ≤ pid) (origId copyId v cloneV : Nat) (others : List Nat) :
    EditOK m F fresh (phiFixStep origId copyId v cloneV others (F, fresh) pid).1
      (phiFixStep origId copyId v cloneV others (F, fresh) pid).2 ∧
    (∀ q ∈ allPhiIds (phiFixStep origId copyId v cloneV others (F, fresh) pid).1,
      q ∈ allPhiIds F ∧ q ≠ pid) := by
  unfold phiFixStep addIncomingIfMissing replaceUsesInUsers
  have hom1 := instHom_addIncomingI pid v origId
  have hom2 := instHom_addIncomingI pid cloneV copyId
  have hom3 := instHom_ite (fun i => others.contains i.id) (instHom_subst v pid)
  have hG1 : GoodF (mapInsts (addIncomingI pid v origId) F) fresh := goodF_mapInsts hom1 hG
  have hG2 : GoodF (mapInsts (addIncomingI pid cloneV copyId)
      (mapInsts (addIncomingI pid v origId) F)) fresh := goodF_mapInsts hom2 hG1
  have hG3 : GoodF (mapInsts (fun i => if others.contains i.id then Inst.subst v pid i else i)
      (mapInsts (addIncomingI pid cloneV copyId)
        (mapInsts (addIncomingI pid v origId) F))) fresh := goodF_mapInsts hom3 hG2
  obtain ⟨hGd, hled, hupd, hdnd, hshd, hbid, hnud, hphid⟩ := demote_effects hG3
  constructor
  · refine editOK_trans (editOK_mapInsts hom1 hG)
      (editOK_trans (editOK_mapInsts hom2 hG1)
        (editOK_trans (editOK_mapInsts hom3 hG2) (editOK_demote hG3 hpid)))
  · intro q hq
    obtain ⟨hq3, hqpid⟩ := hphid q hq
    rw [allPhiIds_mapInsts hom3, allPhiIds_mapInsts hom2, allPhiIds_mapInsts hom1] at hq3
    exact ⟨hq3, hqpid⟩

theorem mem_usersOf {F : Func} {v : Nat} {bi : Nat × Inst} :
    bi ∈ usersOf F v ↔ ∃ b ∈ F.blocks, bi.1 = b.id ∧ bi.2 ∈ b.insts ∧
      bi.2.kind.valueOps.contains v = true := by
  unfold usersOf
  simp only [List.mem_flatMap, List.mem_map, List.mem_filter]
  constructor
  · rintro ⟨b, hb, i, ⟨hi, hiv⟩, rfl⟩
    exact ⟨b, hb, rfl, hi, hiv⟩
  · rintro ⟨b, hb, h1, h2, h3⟩
    exact ⟨b, hb, bi.2, ⟨h2, h3⟩, by rw [← h1]⟩

theorem usersOf_not_phi {F : Func} (hpf : allPhiIds F = []) {v : Nat} :
    ∀ bi ∈ usersOf F v, isPhi bi.2 = false := by
  intro bi hbi
  obtain ⟨b, hb, _, hi, _⟩ := mem_usersOf.mp hbi
  by_contra hc
  rw [Bool.not_eq_false] at hc
  have : bi.2.id ∈ allPhiIds F := mem_allPhiIds.mpr ⟨b, hb, bi.2, hi, hc, rfl⟩
  rw [hpf] at this
  simp at this

/-! ### Boundary reconciliation preserves the envelope on PHI-free input -/

theorem reconcileInst_editOK {F : Func} {fresh m : Nat} (hG : GoodF F fresh)
    (hpf : allPhiIds F = []) (hm : m ≤ fresh) (succId origId copyId : Nat)
    (vmap : List (Nat × Nat)) (v : Nat) :
    EditOK m F fresh (reconcileInst succId origId copyId vmap (F, fresh) v).1
      (reconcileInst succId origId copyId vmap (F, fresh) v).2 ∧
    allPhiIds (reconcileInst succId origId copyId vmap (F, fresh) v).1 = [] := by
  unfold reconcileInst
  by_cases hu : (usersOf F v).isEmpty = true
  · simp only [hu, if_true]
    exact ⟨editOK_refl hG, hpf⟩
  · rw [Bool.not_eq_true] at hu
    simp only [hu, Bool.false_eq_true, if_false]
    by_cases ho : ((usersOf F v).filter
        (fun bi => decide (bi.1 ≠ copyId ∧ bi.1 ≠ origId))).isEmpty = true
    · simp only [ho, if_true]
      exact ⟨editOK_refl hG, hpf⟩
    · rw [Bool.not_eq_true] at ho
      simp only [ho, Bool.false_eq_true, if_false]
      have hsucc : (((usersOf F v).filter
          (fun bi => decide (bi.1 ≠ copyId ∧ bi.1 ≠ origId))).filter
            (isSuccPhi succId)).map (fun bi => bi.2.id) = [] := by
        rw [List.map_eq_nil_iff, List.filter_eq_nil_iff]
        intro bi hbi
        have hnophi := usersOf_not_phi hpf bi (List.mem_of_mem_filter hbi)
        unfold isSuccPhi
        rw [hnophi]
        simp
      rw [hsucc]
      by_cases hot : ((((usersOf F v).filter
          (fun bi => decide (bi.1 ≠ copyId ∧ bi.1 ≠ origId))).filter
            (fun bi => !isSuccPhi succId bi)).map (fun bi => bi.2.id)).isEmpty = true
      · simp only [hot, if_true, List.foldl_nil]
        exact ⟨editOK_refl hG, hpf⟩
      · rw [Bool.not_eq_true] at hot
        simp only [hot, Bool.false_eq_true, if_false, List.nil_append, List.foldl_cons,
          List.foldl_nil]
        have hins : InsertsOne (insertAfterLeadingPhiDbg ⟨fresh, InstKind.phi []⟩)
            ⟨fresh, InstKind.phi []⟩ := insertsOne_insertAfterLeadingPhiDbg _ rfl
        have hed1 : EditOK m F fresh
            (modifyBlock F succId (insertAfterLeadingPhiDbg ⟨fresh, InstKind.phi []⟩))
            (fresh + 1) :=
          editOK_modify_insert hins hG (le_refl _)
            (fun b hb => lastKeep_insertAfterLeadingPhiDbg _ (hG.2.2.2.2 b hb))
            (fun b _ hP => by
              obtain ⟨i1, h1, h1t⟩ := hP
              refine ⟨i1, ?_, h1t⟩
              rw [@getFirst_insertAfterLeadingPhiDbg_skip ⟨fresh, InstKind.phi []⟩ rfl b]
              exact h1)
        have hG1 : GoodF
            (modifyBlock F succId (insertAfterLeadingPhiDbg ⟨fresh, InstKind.phi []⟩))
            (fresh + 1) := hed1.1
        obtain ⟨hed2, hphi2⟩ := phiFixStep_editOK hG1 hm
          origId copyId v (lookupVM vmap v)
          ((((usersOf F v).filter
            (fun bi => decide (bi.1 ≠ copyId ∧ bi.1 ≠ origId))).filter
              (fun bi => !isSuccPhi succId bi)).map (fun bi => bi.2.id))
        refine ⟨editOK_trans hed1 hed2, ?_⟩
        rw [List.eq_nil_iff_forall_not_mem]
        intro q hq
        obtain ⟨hq1, hqne⟩ := hphi2 q hq
        rcases allPhiIds_insert hins hq1 with h | ⟨_, hqf⟩
        · rw [hpf] at h
          simp at h
        · exact hqne hqf

theorem reconcileFold_editOK (succId origId copyId : Nat) (vmap : List (Nat × Nat)) {m : Nat} :
    ∀ (ids : List Nat) (F : Func) (fresh : Nat), GoodF F fresh → allPhiIds F = [] →
    m ≤ fresh →
    EditOK m F fresh (ids.foldl (reconcileInst succId origId copyId vmap) (F, fresh)).1
      (ids.foldl (reconcileInst succId origId copyId vmap) (F, fresh)).2 ∧
    allPhiIds (ids.foldl (reconcileInst succId origId copyId vmap) (F, fresh)).1 = [] := by
  intro ids
  induction ids with
  | nil =>
    intro F fresh hG hpf _
    exact ⟨editOK_refl hG, hpf⟩
  | cons v rest ih =>
    intro F fresh hG hpf hm
    rw [List.foldl_cons]
    obtain ⟨hed1, hpf1⟩ := reconcileInst_editOK hG hpf hm succId origId copyId vmap v
    obtain ⟨hed2, hpf2⟩ := ih (reconcileInst succId origId copyId vmap (F, fresh) v).1
      (reconcileInst succId origId copyId vmap (F, fresh) v).2 hed1.1 hpf1
      (le_trans hm hed1.2.1)
    exact ⟨editOK_trans hed1 hed2, hpf2⟩

theorem reconcileBlock_editOK {F : Func} {fresh m : Nat} (hG : GoodF F fresh)
    (hpf : allPhiIds F = []) (hm : m ≤ fresh) (succId origId copyId : Nat)
    (vmap : List (Nat × Nat)) :
    EditOK m F fresh (reconcileBlock F succId origId copyId vmap fresh).1
      (reconcileBlock F succId origId copyId vmap fresh).2 ∧
    allPhiIds (reconcileBlock F succId origId copyId vmap fresh).1 = [] := by
  unfold reconcileBlock
  cases hfb : getBlock F origId with
  | none => exact ⟨editOK_refl hG, hpf⟩
  | some ob => exact reconcileFold_editOK succId origId copyId vmap _ F fresh hG hpf hm

/-! ### PHI retargeting is the identity on PHI-free functions -/

theorem phiRetargetI_id {i : Inst} (h : isPhi i = false) (o n : Nat) :
    phiRetargetI o n i = i := by
  cases i with
  | mk iid k => cases k <;> simp_all [phiRetargetI, isPhi]

theorem phiRetarget_modify_id {H : Func} (hpf : allPhiIds H = []) (s o n : Nat) :
    modifyBlock H s (phiRetarget o n) = H := by
  have h1 : ∀ b ∈ H.blocks, (if b.id = s then phiRetarget o n b else b) = b := by
    intro b hb
    by_cases hbs : b.id = s
    · rw [if_pos hbs]
      show { b with insts := b.insts.map (phiRetargetI o n) } = b
      have h2 : ∀ i ∈ b.insts, phiRetargetI o n i = i := by
        intro i hi
        refine phiRetargetI_id ?_ o n
        by_contra hc
        rw [Bool.not_eq_false] at hc
        have hmem : i.id ∈ allPhiIds H := mem_allPhiIds.mpr ⟨b, hb, i, hi, hc, rfl⟩
        rw [hpf] at hmem
        simp at hmem
      rw [(List.map_congr_left h2).trans (List.map_id' b.insts)]
    · rw [if_neg hbs]
  show { H with blocks := H.blocks.map _ } = H
  rw [(List.map_congr_left h1).trans (List.map_id' H.blocks)]

theorem phiRetargetFold_id {H : Func} (hpf : allPhiIds H = []) (o n : Nat) :
    ∀ (ss : List Nat), ss.foldl (fun acc s => modifyBlock acc s (phiRetarget o n)) H = H := by
  intro ss
  induction ss with
  | nil => rfl
  | cons s rest ih => rw [List.foldl_cons, phiRetarget_modify_id hpf s o n, ih]

/-! ### Block splitting -/

theorem flatMap_keep {bid : Nat} {hs : List BasicBlock} :
    ∀ {l : List BasicBlock}, (∀ x ∈ l, x.id ≠ bid) →
    l.flatMap (fun x => if x.id = bid then hs else [x]) = l := by
  intro l
  induction l with
  | nil => intro _; rfl
  | cons a rest ih =>
    intro h
    rw [List.flatMap_cons, if_neg (h a (List.mem_cons_self a rest)),
      ih (fun x hx => h x (List.mem_cons.mpr (Or.inr hx)))]
    rfl

theorem takeWhile_dropWhile_last {p : Inst → Bool} :
    ∀ {l : List Inst} {t : Inst}, l.getLast? = some t → p t = false →
    (∀ x ∈ l.dropLast, p x = true) →
    l.takeWhile p = l.dropLast ∧ l.dropWhile p = [t] := by
  intro l
  induction l with
  | nil => intro t hl _ _; simp at hl
  | cons a rest ih =>
    intro t hl hpt hothers
    cases rest with
    | nil =>
      have ha : a = t := by simpa using hl
      subst ha
      refine ⟨List.takeWhile_cons_of_neg (by rw [hpt]; simp), ?_⟩
      rw [List.dropWhile_cons_of_neg (by rw [hpt]; simp)]
    | cons c rest2 =>
      have hdl : (a :: c :: rest2).dropLast = a :: (c :: rest2).dropLast := rfl
      have hpa : p a = true := by
        refine hothers a ?_
        rw [hdl]
        exact List.mem_cons_self _ _
      rw [List.getLast?_cons_cons] at hl
      have hoth2 : ∀ x ∈ (c :: rest2).dropLast, p x = true := by
        intro x hx
        refine hothers x ?_
        rw [hdl]
        exact List.mem_cons.mpr (Or.inr hx)
      obtain ⟨ht, hd⟩ := ih hl hpt hoth2
      constructor
      · rw [List.takeWhile_cons_of_pos hpa, ht, hdl]
      · rw [List.dropWhile_cons_of_pos hpa, hd]

theorem splitBasicBlock_eq_of_found {F : Func} {bid splitId fresh : Nat} {b : BasicBlock}
    (hfb : getBlock F bid = some b) :
    splitBasicBlock F bid splitId fresh =
      ((blockSuccs ⟨fresh, false, b.insts.dropWhile (fun i => i.id ≠ splitId)⟩).foldl
        (fun acc s => modifyBlock acc s (phiRetarget bid fresh))
        { F with blocks := F.blocks.flatMap (fun x => if x.id = bid then
            [⟨b.id, b.landing, b.insts.takeWhile (fun i => i.id ≠ splitId) ++
              [⟨fresh + 1, InstKind.term (Term.br fresh)⟩]⟩,
             ⟨fresh, false, b.insts.dropWhile (fun i => i.id ≠ splitId)⟩] else [x]) },
       fresh, fresh + 2) := by
  unfold splitBasicBlock
  rw [hfb]

theorem split_lemma {F : Func} {fresh bid splitId : Nat} (hG : GoodF F fresh)
    (hpf : allPhiIds F = [])
    {b : BasicBlock} (hfb : getBlock F bid = some b)
    (hpost : b.insts.dropWhile (fun i => i.id ≠ splitId) ≠ []) :
    ∃ F2 : Func,
      splitBasicBlock F bid splitId fresh = (F2, fresh, fresh + 2) ∧
      GoodF F2 (fresh + 2) ∧ allPhiIds F2 = [] ∧
      getBlock F2 bid = some ⟨bid, b.landing,
        b.insts.takeWhile (fun i => i.id ≠ splitId) ++
          [⟨fresh + 1, InstKind.term (Term.br fresh)⟩]⟩ ∧
      getBlock F2 fresh = some ⟨fresh, false,
        b.insts.dropWhile (fun i => i.id ≠ splitId)⟩ ∧
      (∀ y, y ≠ bid → y ≠ fresh → getBlock F2 y = getBlock F y) ∧
      (∀ y ∈ blockIds F, y ∈ blockIds F2) ∧ fresh ∈ blockIds F2 ∧
      (∀ y ∈ blockIds F2, y ∈ blockIds F ∨ y = fresh) ∧
      numBlocks F2 = numBlocks F + 1 ∧
      (∀ x ∈ allInstIds F, x ∈ allInstIds F2) ∧
      (∀ x ∈ allInstIds F2, x ∈ allInstIds F ∨ x = fresh + 1) := by
  obtain ⟨hnd, hbnd, hilt, hblt, hterm⟩ := hG
  obtain ⟨l1, l2, hFb, hbid, h1, h2⟩ := getBlock_decomp hbnd hfb
  have hbmem : b ∈ F.blocks := getBlock_mem F bid hfb
  obtain ⟨L, hL, hLt⟩ := hterm b hbmem
  have hblast : (b.insts.dropWhile (fun i => i.id ≠ splitId)).getLast? = some L := by
    rw [getLast?_of_dropWhile_ne_nil hpost, hL]
  have hbidlt : bid < fresh := hblt bid (by rw [← hbid]; exact List.mem_map_of_mem _ hbmem)
  have hfrne : (fresh : Nat) ≠ bid := by omega
  have hpreI : (b.insts.takeWhile (fun i => i.id ≠ splitId)).map (fun i => i.id) ++
      (b.insts.dropWhile (fun i => i.id ≠ splitId)).map (fun i => i.id) = instIdsB b := by
    unfold instIdsB
    rw [← List.map_append, List.takeWhile_append_dropWhile]
  -- The two new blocks.
  have hphiOfF : ∀ b0 ∈ F.blocks, ∀ j ∈ b0.insts, isPhi j = false := by
    intro b0 hb0 j hj
    by_contra hc
    rw [Bool.not_eq_false] at hc
    have hmem : j.id ∈ allPhiIds F := mem_allPhiIds.mpr ⟨b0, hb0, j, hj, hc, rfl⟩
    rw [hpf] at hmem
    simp at hmem
  have hcomp : splitBasicBlock F bid splitId fresh =
      ({ F with blocks := l1 ++
          (⟨bid, b.landing, b.insts.takeWhile (fun i => i.id ≠ splitId) ++
            [⟨fresh + 1, InstKind.term (Term.br fresh)⟩]⟩ : BasicBlock) ::
          (⟨fresh, false, b.insts.dropWhile (fun i => i.id ≠ splitId)⟩ : BasicBlock) :: l2 },
        fresh, fresh + 2) := by
    have hblocks1 : F.blocks.flatMap (fun x => if x.id = bid then
        [(⟨b.id, b.landing, b.insts.takeWhile (fun i => i.id ≠ splitId) ++
            [⟨fresh + 1, InstKind.term (Term.br fresh)⟩]⟩ : BasicBlock),
         (⟨fresh, false, b.insts.dropWhile (fun i => i.id ≠ splitId)⟩ : BasicBlock)]
        else [x]) = l1 ++
        (⟨bid, b.landing, b.insts.takeWhile (fun i => i.id ≠ splitId) ++
            [⟨fresh + 1, InstKind.term (Term.br fresh)⟩]⟩ : BasicBlock) ::
        (⟨fresh, false, b.insts.dropWhile (fun i => i.id ≠ splitId)⟩ : BasicBlock) :: l2 := by
      rw [hFb, List.flatMap_append, List.flatMap_cons, flatMap_keep h1, flatMap_keep h2,
        if_pos hbid, hbid]
      rfl
    have hpf1 : allPhiIds { F with blocks := l1 ++
        (⟨bid, b.landing, b.insts.takeWhile (fun i => i.id ≠ splitId) ++
            [⟨fresh + 1, InstKind.term (Term.br fresh)⟩]⟩ : BasicBlock) ::
        (⟨fresh, false, b.insts.dropWhile (fun i => i.id ≠ splitId)⟩ : BasicBlock) :: l2 } =
        [] := by
      rw [List.eq_nil_iff_forall_not_mem]
      intro q hq
      obtain ⟨b0, hb0, j, hj, hjphi, _⟩ := mem_allPhiIds.mp hq
      simp only [List.mem_append, List.mem_cons] at hb0
      rcases hb0 with hb0 | hb0 | hb0 | hb0
      · rw [hphiOfF b0 (by rw [hFb]; exact List.mem_append.mpr (Or.inl hb0)) j hj] at hjphi
        simp at hjphi
      · subst hb0
        simp only [List.mem_append, List.mem_cons] at hj
        rcases hj with hj | hj
        · have hjb : j ∈ b.insts := (List.takeWhile_sublist _).mem hj
          rw [hphiOfF b hbmem j hjb] at hjphi
          simp at hjphi
        · rcases hj with rfl | hj
          · simp [isPhi] at hjphi
          · simp at hj
      · subst hb0
        have hjb : j ∈ b.insts := (List.dropWhile_sublist _).mem hj
        rw [hphiOfF b hbmem j hjb] at hjphi
        simp at hjphi
      · rw [hphiOfF b0 (by rw [hFb]; simp [hb0]) j hj] at hjphi
        simp at hjphi
    rw [splitBasicBlock_eq_of_found hfb, hblocks1, phiRetargetFold_id hpf1 bid fresh]
  refine ⟨_, hcomp, ?_⟩
  -- Facts about the new function.
  have hblocks2 : ({ F with blocks := l1 ++
      (⟨bid, b.landing, b.insts.takeWhile (fun i => i.id ≠ splitId) ++
          [⟨fresh + 1, InstKind.term (Term.br fresh)⟩]⟩ : BasicBlock) ::
      (⟨fresh, false, b.insts.dropWhile (fun i => i.id ≠ splitId)⟩ : BasicBlock) :: l2 } :
      Func).blocks = l1 ++
      (⟨bid, b.landing, b.insts.takeWhile (fun i => i.id ≠ splitId) ++
          [⟨fresh + 1, InstKind.term (Term.br fresh)⟩]⟩ : BasicBlock) ::
      (⟨fresh, false, b.insts.dropWhile (fun i => i.id ≠ splitId)⟩ : BasicBlock) :: l2 := rfl
  have hidsperm : (allInstIds { F with blocks := l1 ++
      (⟨bid, b.landing, b.insts.takeWhile (fun i => i.id ≠ splitId) ++
          [⟨fresh + 1, InstKind.term (Term.br fresh)⟩]⟩ : BasicBlock) ::
      (⟨fresh, false, b.insts.dropWhile (fun i => i.id ≠ splitId)⟩ : BasicBlock) :: l2 }).Perm
      ((fresh + 1) :: allInstIds F) := by
    rw [allInstIds_blocks_eq, hblocks2, List.flatMap_append, List.flatMap_cons,
      List.flatMap_cons]
    have hhusk : instIdsB (⟨bid, b.landing, b.insts.takeWhile (fun i => i.id ≠ splitId) ++
        [⟨fresh + 1, InstKind.term (Term.br fresh)⟩]⟩ : BasicBlock) =
        (b.insts.takeWhile (fun i => i.id ≠ splitId)).map (fun i => i.id) ++ [fresh + 1] := by
      unfold instIdsB
      rw [List.map_append]
      rfl
    have hnewB : instIdsB (⟨fresh, false,
        b.insts.dropWhile (fun i => i.id ≠ splitId)⟩ : BasicBlock) =
        (b.insts.dropWhile (fun i => i.id ≠ splitId)).map (fun i => i.id) := rfl
    rw [hhusk, hnewB]
    have hstep1 : (l1.flatMap instIdsB ++
        (((b.insts.takeWhile (fun i => i.id ≠ splitId)).map (fun i => i.id) ++ [fresh + 1]) ++
          ((b.insts.dropWhile (fun i => i.id ≠ splitId)).map (fun i => i.id) ++
            l2.flatMap instIdsB))).Perm
        (l1.flatMap instIdsB ++ (((fresh + 1) ::
          (b.insts.takeWhile (fun i => i.id ≠ splitId)).map (fun i => i.id)) ++
          ((b.insts.dropWhile (fun i => i.id ≠ splitId)).map (fun i => i.id) ++
            l2.flatMap instIdsB))) :=
      List.Perm.append_left _ (List.Perm.append_right _ (List.perm_append_singleton _ _))
    refine List.Perm.trans hstep1 ?_
    show (l1.flatMap instIdsB ++ (((fresh + 1) ::
        (b.insts.takeWhile (fun i => i.id ≠ splitId)).map (fun i => i.id)) ++
        ((b.insts.dropWhile (fun i => i.id ≠ splitId)).map (fun i => i.id) ++
          l2.flatMap instIdsB))).Perm ((fresh + 1) :: allInstIds F)
    have hassoc : l1.flatMap instIdsB ++ (((fresh + 1) ::
        (b.insts.takeWhile (fun i => i.id ≠ splitId)).map (fun i => i.id)) ++
        ((b.insts.dropWhile (fun i => i.id ≠ splitId)).map (fun i => i.id) ++
          l2.flatMap instIdsB)) = l1.flatMap instIdsB ++ (fresh + 1) ::
        ((b.insts.takeWhile (fun i => i.id ≠ splitId)).map (fun i => i.id) ++
        ((b.insts.dropWhile (fun i => i.id ≠ splitId)).map (fun i => i.id) ++
          l2.flatMap instIdsB)) := by simp
    rw [hassoc]
    refine List.perm_middle.trans ?_
    have heq : allInstIds F = l1.flatMap instIdsB ++
        ((b.insts.takeWhile (fun i => i.id ≠ splitId)).map (fun i => i.id) ++
        ((b.insts.dropWhile (fun i => i.id ≠ splitId)).map (fun i => i.id) ++
          l2.flatMap instIdsB)) := by
      rw [allInstIds_of_blocks hFb, ← hpreI]
      simp
    rw [heq]
  have hnew1 : fresh + 1 ∉ allInstIds F := by
    intro hmem
    have := hilt _ hmem
    omega
  have hbidsperm : (blockIds { F with blocks := l1 ++
      (⟨bid, b.landing, b.insts.takeWhile (fun i => i.id ≠ splitId) ++
          [⟨fresh + 1, InstKind.term (Term.br fresh)⟩]⟩ : BasicBlock) ::
      (⟨fresh, false, b.insts.dropWhile (fun i => i.id ≠ splitId)⟩ : BasicBlock) :: l2 }).Perm
      (fresh :: blockIds F) := by
    unfold blockIds
    rw [hblocks2, List.map_append, List.map_cons, List.map_cons]
    show (l1.map (fun x => x.id) ++ bid :: fresh :: l2.map (fun x => x.id)).Perm _
    have hshape : l1.map (fun x => x.id) ++ bid :: fresh :: l2.map (fun x => x.id) =
        (l1.map (fun x => x.id) ++ [bid]) ++ fresh :: l2.map (fun x => x.id) := by simp
    rw [hshape]
    refine List.perm_middle.trans ?_
    have heq : F.blocks.map (fun x => x.id) =
        l1.map (fun x => x.id) ++ [bid] ++ l2.map (fun x => x.id) := by
      rw [hFb, List.map_append, List.map_cons, hbid]
      simp
    show (fresh :: (l1.map (fun x => x.id) ++ [bid] ++ l2.map (fun x => x.id))).Perm
      (fresh :: F.blocks.map (fun x => x.id))
    rw [heq]
  have hfreshnotin : fresh ∉ blockIds F := by
    intro hmem
    have := hblt _ hmem
    omega
  have hbnd2 : (blockIds { F with blocks := l1 ++
      (⟨bid, b.landing, b.insts.takeWhile (fun i => i.id ≠ splitId) ++
          [⟨fresh + 1, InstKind.term (Term.br fresh)⟩]⟩ : BasicBlock) ::
      (⟨fresh, false, b.insts.dropWhile (fun i => i.id ≠ splitId)⟩ : BasicBlock) :: l2 }).Nodup
      := hbidsperm.nodup_iff.mpr (List.nodup_cons.mpr ⟨hfreshnotin, hbnd⟩)
  have hG2 : GoodF { F with blocks := l1 ++
      (⟨bid, b.landing, b.insts.takeWhile (fun i => i.id ≠ splitId) ++
          [⟨fresh + 1, InstKind.term (Term.br fresh)⟩]⟩ : BasicBlock) ::
      (⟨fresh, false, b.insts.dropWhile (fun i => i.id ≠ splitId)⟩ : BasicBlock) :: l2 }
      (fresh + 2) := by
    refine ⟨hidsperm.nodup_iff.mpr (List.nodup_cons.mpr ⟨hnew1, hnd⟩), hbnd2, ?_, ?_, ?_⟩
    · intro x hx
      rcases List.mem_cons.mp (hidsperm.mem_iff.mp hx) with rfl | hx2
      · omega
      · have := hilt x hx2
        omega
    · intro y hy
      rcases List.mem_cons.mp (hbidsperm.mem_iff.mp hy) with rfl | hy2
      · omega
      · have := hblt y hy2
        omega
    · intro b0 hb0
      rw [hblocks2] at hb0
      simp only [List.mem_append, List.mem_cons] at hb0
      rcases hb0 with hb0 | hb0 | hb0 | hb0
      · exact hterm b0 (by rw [hFb]; exact List.mem_append.mpr (Or.inl hb0))
      · subst hb0
        exact ⟨⟨fresh + 1, InstKind.term (Term.br fresh)⟩,
          by rw [List.getLast?_append_of_ne_nil _ (by simp)]; rfl, rfl⟩
      · subst hb0
        exact ⟨L, hblast, hLt⟩
      · exact hterm b0 (by rw [hFb]; simp [hb0])
  refine ⟨hG2, ?_, ?_, ?_, ?_, ?_, ?_, ?_, ?_, ?_, ?_⟩
  · -- PHI-freeness of the split function.
    rw [List.eq_nil_iff_forall_not_mem]
    intro q hq
    obtain ⟨b0, hb0, j, hj, hjphi, _⟩ := mem_allPhiIds.mp hq
    rw [hblocks2] at hb0
    simp only [List.mem_append, List.mem_cons] at hb0
    rcases hb0 with hb0 | hb0 | hb0 | hb0
    · rw [hphiOfF b0 (by rw [hFb]; exact List.mem_append.mpr (Or.inl hb0)) j hj] at hjphi
      simp at hjphi
    · subst hb0
      simp only [List.mem_append, List.mem_cons] at hj
      rcases hj with hj | hj
      · rw [hphiOfF b hbmem j ((List.takeWhile_sublist _).mem hj)] at hjphi
        simp at hjphi
      · rcases hj with rfl | hj
        · simp [isPhi] at hjphi
        · simp at hj
    · subst hb0
      rw [hphiOfF b hbmem j ((List.dropWhile_sublist _).mem hj)] at hjphi
      simp at hjphi
    · rw [hphiOfF b0 (by rw [hFb]; simp [hb0]) j hj] at hjphi
      simp at hjphi
  · -- The husk keeps the block identity.
    have hmem : (⟨bid, b.landing, b.insts.takeWhile (fun i => i.id ≠ splitId) ++
        [⟨fresh + 1, InstKind.term (Term.br fresh)⟩]⟩ : BasicBlock) ∈
        ({ F with blocks := l1 ++
          (⟨bid, b.landing, b.insts.takeWhile (fun i => i.id ≠ splitId) ++
              [⟨fresh + 1, InstKind.term (Term.br fresh)⟩]⟩ : BasicBlock) ::
          (⟨fresh, false, b.insts.dropWhile (fun i => i.id ≠ splitId)⟩ : BasicBlock) :: l2 } :
          Func).blocks := by
      rw [hblocks2]
      exact List.mem_append.mpr (Or.inr (List.mem_cons_self _ _))
    exact find?_of_mem_nodup hbnd2 hmem
  · -- The new body block.
    have hmem : (⟨fresh, false, b.insts.dropWhile (fun i => i.id ≠ splitId)⟩ : BasicBlock) ∈
        ({ F with blocks := l1 ++
          (⟨bid, b.landing, b.insts.takeWhile (fun i => i.id ≠ splitId) ++
              [⟨fresh + 1, InstKind.term (Term.br fresh)⟩]⟩ : BasicBlock) ::
          (⟨fresh, false, b.insts.dropWhile (fun i => i.id ≠ splitId)⟩ : BasicBlock) :: l2 } :
          Func).blocks := by
      rw [hblocks2]
      exact List.mem_append.mpr (Or.inr (List.mem_cons.mpr
        (Or.inr (List.mem_cons_self _ _))))
    exact find?_of_mem_nodup hbnd2 hmem
  · -- Other blocks are untouched.
    intro y hybid hyfresh
    cases hy : getBlock F y with
    | none =>
      unfold getBlock at hy ⊢
      rw [List.find?_eq_none]
      intro x hx
      rw [hblocks2] at hx
      simp only [List.mem_append, List.mem_cons] at hx
      rcases hx with hx | hx | hx | hx
      · exact List.find?_eq_none.mp hy x (by rw [hFb]; exact List.mem_append.mpr (Or.inl hx))
      · subst hx
        simp [hybid.symm]
      · subst hx
        simp [hyfresh.symm]
      · exact List.find?_eq_none.mp hy x (by rw [hFb]; simp [hx])
    | some by0 =>
      have hbyid : by0.id = y := getBlock_id F y hy
      have hbymem : by0 ∈ F.blocks := getBlock_mem F y hy
      rw [hFb] at hbymem
      simp only [List.mem_append, List.mem_cons] at hbymem
      have hbymem2 : by0 ∈ l1 ++
          (⟨bid, b.landing, b.insts.takeWhile (fun i => i.id ≠ splitId) ++
              [⟨fresh + 1, InstKind.term (Term.br fresh)⟩]⟩ : BasicBlock) ::
          (⟨fresh, false, b.insts.dropWhile (fun i => i.id ≠ splitId)⟩ : BasicBlock) :: l2 := by
        rcases hbymem with h | h | h
        · exact List.mem_append.mpr (Or.inl h)
        · subst h
          exact absurd (hbyid.symm.trans hbid) hybid
        · simp [h]
      have := find?_of_mem_nodup hbnd2 (by rw [hblocks2]; exact hbymem2)
      rw [hbyid] at this
      exact this
  · -- Old block identities survive.
    intro y hy
    exact hbidsperm.mem_iff.mpr (List.mem_cons.mpr (Or.inr hy))
  · -- The new block identity is present.
    exact hbidsperm.mem_iff.mpr (List.mem_cons.mpr (Or.inl rfl))
  · -- No other block identities appear.
    intro y hy
    rcases List.mem_cons.mp (hbidsperm.mem_iff.mp hy) with rfl | hy2
    · exact Or.inr rfl
    · exact Or.inl hy2
  · -- One block was added.
    have := hbidsperm.length_eq
    unfold numBlocks blockIds at *
    simp only [List.length_map] at this ⊢
    rw [hFb, List.length_append, List.length_cons]
    simp
    omega
  · -- Old instructions survive.
    intro x hx
    exact hidsperm.mem_iff.mpr (List.mem_cons.mpr (Or.inr hx))
  · -- The only new instruction is the branch.
    intro x hx
    rcases List.mem_cons.mp (hidsperm.mem_iff.mp hx) with rfl | hx2
    · exact Or.inr rfl
    · exact Or.inl hx2

/-! ### Block cloning -/

theorem enumFrom_getLast {α : Type} :
    ∀ (l : List α) (k : Nat),
    (l.enumFrom k).getLast? = l.getLast?.map (fun x => (k + l.length - 1, x)) := by
  intro l
  induction l with
  | nil => intro k; rfl
  | cons a rest ih =>
    intro k
    cases rest with
    | nil => rfl
    | cons c rest2 =>
      rw [List.enumFrom_cons]
      rw [getLast?_cons_ne _ (by rw [List.enumFrom_cons]; simp)]
      rw [ih (k + 1), List.getLast?_cons_cons]
      have hidx : k + 1 + (c :: rest2).length - 1 = k + (a :: c :: rest2).length - 1 := by
        simp only [List.length_cons]
        omega
      simp only [hidx]

theorem enumFrom_remap_ids (vmap : List (Nat × Nat)) (s : Nat) :
    ∀ (l : List Inst) (k : Nat),
    ((l.enumFrom k).map (fun ki => Inst.remap vmap ⟨s + ki.1, ki.2.kind⟩)).map (fun i => i.id)
      = List.range' (s + k) l.length := by
  intro l
  induction l with
  | nil => intro k; rfl
  | cons a rest ih =>
    intro k
    rw [List.enumFrom_cons, List.map_cons, List.map_cons, ih (k + 1), List.length_cons,
      List.range'_succ]
    rfl

theorem snd_mem_enumFrom {α : Type} :
    ∀ {l : List α} {k : Nat} {ki : Nat × α}, ki ∈ l.enumFrom k → ki.2 ∈ l := by
  intro l
  induction l with
  | nil => intro k ki h; simp at h
  | cons a rest ih =>
    intro k ki h
    rw [List.enumFrom_cons, List.mem_cons] at h
    rcases h with rfl | h
    · exact List.mem_cons_self _ _
    · exact List.mem_cons.mpr (Or.inr (ih h))

theorem cloneBasicBlock_eq_of_found {F : Func} {srcId fresh : Nat} {ob : BasicBlock}
    (hfb : getBlock F srcId = some ob) :
    cloneBasicBlock F srcId fresh =
      ({ F with blocks := F.blocks ++ [⟨fresh, ob.landing,
          ob.insts.enum.map (fun ki => Inst.remap
            (ob.insts.enum.map (fun ki2 => (ki2.2.id, fresh + 1 + ki2.1)))
            ⟨fresh + 1 + ki.1, ki.2.kind⟩)⟩] },
       fresh, ob.insts.enum.map (fun ki2 => (ki2.2.id, fresh + 1 + ki2.1)),
       fresh + 1 + ob.insts.length) := by
  unfold cloneBasicBlock
  rw [hfb]

theorem clone_lemma {F : Func} {fresh srcId : Nat} (hG : GoodF F fresh)
    (hpf : allPhiIds F = [])
    {ob : BasicBlock} (hfb : getBlock F srcId = some ob) :
    ∃ F3 vmap,
      cloneBasicBlock F srcId fresh = (F3, fresh, vmap, fresh + 1 + ob.insts.length) ∧
      GoodF F3 (fresh + 1 + ob.insts.length) ∧ allPhiIds F3 = [] ∧
      (∀ y, y ≠ fresh → getBlock F3 y = getBlock F y) ∧
      termShapeOf F3 fresh = termShapeOf F srcId ∧
      (∀ y ∈ blockIds F, y ∈ blockIds F3) ∧ fresh ∈ blockIds F3 ∧
      (∀ y ∈ blockIds F3, y ∈ blockIds F ∨ y = fresh) ∧
      numBlocks F3 = numBlocks F + 1 ∧
      (∀ x ∈ allInstIds F, x ∈ allInstIds F3) ∧
      (∀ x ∈ allInstIds F3, x ∈ allInstIds F ∨ fresh + 1 ≤ x) := by
  obtain ⟨hnd, hbnd, hilt, hblt, hterm⟩ := hG
  have hobmem : ob ∈ F.blocks := getBlock_mem F srcId hfb
  obtain ⟨L, hL, hLt⟩ := hterm ob hobmem
  have hobne : ob.insts ≠ [] := by
    intro he; rw [he] at hL; simp at hL
  have hcopylast : (ob.insts.enum.map (fun ki => Inst.remap
      (ob.insts.enum.map (fun ki2 => (ki2.2.id, fresh + 1 + ki2.1)))
      ⟨fresh + 1 + ki.1, ki.2.kind⟩)).getLast? =
      some (Inst.remap (ob.insts.enum.map (fun ki2 => (ki2.2.id, fresh + 1 + ki2.1)))
        ⟨fresh + 1 + (0 + ob.insts.length - 1), L.kind⟩) := by
    rw [List.getLast?_map]
    show ((ob.insts.enumFrom 0).getLast?.map _) = _
    rw [enumFrom_getLast ob.insts 0, hL]
    rfl
  have hcopyids : ((ob.insts.enum.map (fun ki => Inst.remap
      (ob.insts.enum.map (fun ki2 => (ki2.2.id, fresh + 1 + ki2.1)))
      ⟨fresh + 1 + ki.1, ki.2.kind⟩)).map (fun i => i.id)) =
      List.range' (fresh + 1) ob.insts.length :=
    enumFrom_remap_ids (ob.insts.enum.map (fun ki2 => (ki2.2.id, fresh + 1 + ki2.1)))
      (fresh + 1) ob.insts 0
  have hids3 : allInstIds { F with blocks := F.blocks ++ [⟨fresh, ob.landing,
      ob.insts.enum.map (fun ki => Inst.remap
        (ob.insts.enum.map (fun ki2 => (ki2.2.id, fresh + 1 + ki2.1)))
        ⟨fresh + 1 + ki.1, ki.2.kind⟩)⟩] } =
      allInstIds F ++ List.range' (fresh + 1) ob.insts.length := by
    rw [allInstIds_blocks_eq, allInstIds_blocks_eq]
    show (F.blocks ++ [_]).flatMap instIdsB = _
    rw [List.flatMap_append]
    congr 1
    show instIdsB _ ++ [] = _
    rw [List.append_nil]
    exact hcopyids
  have hbids3 : blockIds { F with blocks := F.blocks ++ [⟨fresh, ob.landing,
      ob.insts.enum.map (fun ki => Inst.remap
        (ob.insts.enum.map (fun ki2 => (ki2.2.id, fresh + 1 + ki2.1)))
        ⟨fresh + 1 + ki.1, ki.2.kind⟩)⟩] } = blockIds F ++ [fresh] := by
    unfold blockIds
    rw [List.map_append]
    rfl
  refine ⟨_, _, cloneBasicBlock_eq_of_found hfb, ⟨?_, ?_, ?_, ?_, ?_⟩, ?_, ?_, ?_, ?_, ?_,
    ?_, ?_, ?_, ?_⟩
  · -- Nodup instruction identities.
    rw [hids3, List.nodup_append]
    refine ⟨hnd, List.nodup_range' _ _, ?_⟩
    intro x hx hx2
    have h1 := hilt x hx
    obtain ⟨i, hi, hxe⟩ := List.mem_range'.mp hx2
    omega
  · -- Nodup block identities.
    rw [hbids3, List.nodup_append]
    refine ⟨hbnd, List.nodup_singleton _, ?_⟩
    intro y hy hy2
    have h1 := hblt y hy
    simp only [List.mem_singleton] at hy2
    omega
  · -- Instruction identity bounds.
    rw [hids3]
    intro x hx
    rcases List.mem_append.mp hx with hx | hx
    · have := hilt x hx
      omega
    · obtain ⟨i, hi, hxe⟩ := List.mem_range'.mp hx
      omega
  · -- Block identity bounds.
    rw [hbids3]
    intro y hy
    rcases List.mem_append.mp hy with hy | hy
    · have := hblt y hy
      omega
    · simp only [List.mem_singleton] at hy
      omega
  · -- Every block ends in a terminator.
    intro b0 hb0
    rcases List.mem_append.mp hb0 with hb0 | hb0
    · exact hterm b0 hb0
    · simp only [List.mem_singleton] at hb0
      subst hb0
      refine ⟨_, hcopylast, ?_⟩
      show isTermInst ⟨_, L.kind.mapOps _⟩ = true
      rw [InstKind.mapOps_id_isTerm]
      exact hLt
  · -- No PHI nodes anywhere.
    rw [List.eq_nil_iff_forall_not_mem]
    intro q hq
    obtain ⟨b0, hb0, j, hj, hjphi, _⟩ := mem_allPhiIds.mp hq
    rcases List.mem_append.mp hb0 with hb0 | hb0
    · have hnophi : isPhi j = false := by
        by_contra hc
        rw [Bool.not_eq_false] at hc
        have hmem : j.id ∈ allPhiIds F := mem_allPhiIds.mpr ⟨b0, hb0, j, hj, hc, rfl⟩
        rw [hpf] at hmem
        simp at hmem
      rw [hnophi] at hjphi
      simp at hjphi
    · simp only [List.mem_singleton] at hb0
      subst hb0
      obtain ⟨ki, hki, rfl⟩ := List.mem_map.mp hj
      have hsrc : ki.2 ∈ ob.insts := snd_mem_enumFrom hki
      have hnophi : isPhi ki.2 = false := by
        by_contra hc
        rw [Bool.not_eq_false] at hc
        have hmem : ki.2.id ∈ allPhiIds F := mem_allPhiIds.mpr ⟨ob, hobmem, ki.2, hsrc, hc, rfl⟩
        rw [hpf] at hmem
        simp at hmem
      have : isPhi (Inst.remap (ob.insts.enum.map (fun ki2 => (ki2.2.id, fresh + 1 + ki2.1)))
          ⟨fresh + 1 + ki.1, ki.2.kind⟩) = isPhi ki.2 := by
        show isPhi ⟨_, ki.2.kind.mapOps _⟩ = _
        rw [InstKind.mapOps_id_isPhi]
        rfl
      rw [this, hnophi] at hjphi
      simp at hjphi
  · -- Other blocks untouched.
    intro y hy
    show List.find? _ (F.blocks ++ [_]) = _
    rw [List.find?_append]
    cases hgy : getBlock F y with
    | none =>
      have hgy2 : List.find? (fun x => x.id == y) F.blocks = none := hgy
      rw [hgy2]
      show Option.or none _ = _
      rw [Option.none_or]
      rw [List.find?_eq_none]
      intro x hx
      simp only [List.mem_singleton] at hx
      subst hx
      simp [hy.symm]
    | some by0 =>
      have hgy2 : List.find? (fun x => x.id == y) F.blocks = some by0 := hgy
      rw [hgy2]
      rfl
  · -- The clone carries the source terminator shape.
    have hfind : getBlock { F with blocks := F.blocks ++ [⟨fresh, ob.landing,
        ob.insts.enum.map (fun ki => Inst.remap
          (ob.insts.enum.map (fun ki2 => (ki2.2.id, fresh + 1 + ki2.1)))
          ⟨fresh + 1 + ki.1, ki.2.kind⟩)⟩] } fresh =
        some ⟨fresh, ob.landing, ob.insts.enum.map (fun ki => Inst.remap
          (ob.insts.enum.map (fun ki2 => (ki2.2.id, fresh + 1 + ki2.1)))
          ⟨fresh + 1 + ki.1, ki.2.kind⟩)⟩ := by
      show List.find? _ (F.blocks ++ [_]) = _
      rw [List.find?_append]
      have hnone : List.find? (fun x => x.id == fresh) F.blocks = none := by
        rw [List.find?_eq_none]
        intro x hx
        have := hblt x.id (List.mem_map_of_mem _ hx)
        simp only [beq_iff_eq]
        omega
      rw [hnone, Option.none_or]
      simp [List.find?_cons]
    rw [termShapeOf_eq, termShapeOf_eq, hfind, hfb]
    show termShapeB _ = termShapeB ob
    rw [termShapeB_eq_getLast, termShapeB_eq_getLast, hcopylast, hL]
    show kindTermShape (L.kind.mapOps _) = kindTermShape L.kind
    have := (instHom_mapOps (lookupVM (ob.insts.enum.map
      (fun ki2 => (ki2.2.id, fresh + 1 + ki2.1))))).shape_eq
      ⟨fresh + 1 + (0 + ob.insts.length - 1), L.kind⟩
    exact this
  · -- Old block identities survive.
    intro y hy
    rw [hbids3]
    exact List.mem_append.mpr (Or.inl hy)
  · -- The clone identity is present.
    rw [hbids3]
    exact List.mem_append.mpr (Or.inr (List.mem_singleton.mpr rfl))
  · -- No other block identities.
    intro y hy
    rw [hbids3] at hy
    rcases List.mem_append.mp hy with hy | hy
    · exact Or.inl hy
    · simp only [List.mem_singleton] at hy
      exact Or.inr hy
  · -- One block added.
    unfold numBlocks
    show (F.blocks ++ [_]).length = _
    rw [List.length_append]
    rfl
  · -- Old instructions survive.
    intro x hx
    rw [hids3]
    exact List.mem_append.mpr (Or.inl hx)
  · -- New instructions are fresh.
    intro x hx
    rw [hids3] at hx
    rcases List.mem_append.mp hx with hx | hx
    · exact Or.inl hx
    · obtain ⟨i, hi, hxe⟩ := List.mem_range'.mp hx
      omega

/-! ### Erasing the husk branch and installing the opaque-predicate stub -/

theorem perm_pull_mid {A B C D : List Nat} :
    (A ++ ((B ++ D) ++ C)).Perm (D ++ (A ++ (B ++ C))) := by
  refine (List.Perm.append_left A (List.Perm.append_right C List.perm_append_comm)).trans ?_
  have he : A ++ ((D ++ B) ++ C) = (A ++ D) ++ (B ++ C) := by simp [List.append_assoc]
  rw [he]
  refine (List.Perm.append_right (B ++ C) List.perm_append_comm).trans ?_
  have he2 : (D ++ A) ++ (B ++ C) = D ++ (A ++ (B ++ C)) := by simp [List.append_assoc]
  rw [he2]

theorem dropStub_effects {F : Func} {fresh m bid origId copyId : Nat} (hG : GoodF F fresh)
    (hpf : allPhiIds F = [])
    (hbidmem : bid ∈ blockIds F)
    {LId : Nat} (hlast : lastIdOf F bid = some LId) (hLfresh : m ≤ LId) :
    ∃ F6, createStub (modifyBlock F bid (fun hb => { hb with insts := hb.insts.dropLast }))
        bid origId copyId fresh = (F6, fresh + 2) ∧
      GoodF F6 (fresh + 2) ∧ allPhiIds F6 = [] ∧
      termOf F6 bid = some (Term.condbr fresh origId copyId) ∧
      (∀ y, y ≠ bid → termShapeOf F6 y = termShapeOf F y) ∧
      blockIds F6 = blockIds F ∧ numBlocks F6 = numBlocks F ∧
      (∀ x ∈ allInstIds F, x < m → x ∈ allInstIds F6) ∧
      (∀ y, y ≠ bid → getBlock F6 y = getBlock F y) := by
  obtain ⟨hnd, hbnd, hilt, hblt, hterm⟩ := hG
  obtain ⟨b4, hb4mem, hb4id⟩ := List.mem_map.mp hbidmem
  have hfb : getBlock F bid = some b4 := by
    rw [← hb4id]
    exact getBlock_of_mem hbnd hb4mem
  obtain ⟨L4, hL4, hL4t⟩ := hterm b4 hb4mem
  have hLid : L4.id = LId := by
    unfold lastIdOf at hlast
    rw [hfb] at hlast
    simp only [Option.some_bind, hL4, Option.map_some', Option.some_inj] at hlast
    exact hlast
  have hw : b4.insts.dropLast ++ [L4] = b4.insts := dropLast_append_last hL4
  have hdrop : (b4.insts.dropLast ++ [L4]).dropLast = b4.insts.dropLast := by
    rw [List.dropLast_concat]
  -- The combined edit of the head block.
  have hcomb : createStub (modifyBlock F bid (fun hb => { hb with insts := hb.insts.dropLast }))
      bid origId copyId fresh =
      (modifyBlock F bid (fun hb => { hb with insts := hb.insts.dropLast ++
        [⟨fresh, InstKind.simple []⟩,
         ⟨fresh + 1, InstKind.term (Term.condbr fresh origId copyId)⟩] }), fresh + 2) := by
    unfold createStub
    rw [← modifyBlock_comp F bid
      (fun hb => { hb with insts := hb.insts ++ [⟨fresh, InstKind.simple []⟩,
        ⟨fresh + 1, InstKind.term (Term.condbr fresh origId copyId)⟩] })
      (fun hb => { hb with insts := hb.insts.dropLast })
      (fun b => rfl)]
  rw [hcomb]
  obtain ⟨l1, l2, hFb, hbid, h1, h2⟩ := getBlock_decomp hbnd hfb
  have hblocks6 : (modifyBlock F bid (fun hb => { hb with insts := hb.insts.dropLast ++
      [⟨fresh, InstKind.simple []⟩,
       ⟨fresh + 1, InstKind.term (Term.condbr fresh origId copyId)⟩] })).blocks =
      l1 ++ ({ b4 with insts := b4.insts.dropLast ++
        [⟨fresh, InstKind.simple []⟩,
         ⟨fresh + 1, InstKind.term (Term.condbr fresh origId copyId)⟩] } : BasicBlock) :: l2 :=
    modifyBlock_blocks_decomp hFb hbid h1 h2
  have hbids6 : blockIds (modifyBlock F bid (fun hb => { hb with insts := hb.insts.dropLast ++
      [⟨fresh, InstKind.simple []⟩,
       ⟨fresh + 1, InstKind.term (Term.condbr fresh origId copyId)⟩] })) = blockIds F :=
    blockIds_modify F bid _ (fun b => rfl)
  have hnum6 : numBlocks (modifyBlock F bid (fun hb => { hb with insts := hb.insts.dropLast ++
      [⟨fresh, InstKind.simple []⟩,
       ⟨fresh + 1, InstKind.term (Term.condbr fresh origId copyId)⟩] })) = numBlocks F :=
    numBlocks_modify F bid _
  -- Instruction identity bookkeeping.
  have hidsF : allInstIds F = l1.flatMap instIdsB ++
      ((b4.insts.dropLast.map (fun i => i.id) ++ [LId]) ++ l2.flatMap instIdsB) := by
    rw [allInstIds_of_blocks hFb]
    have : instIdsB b4 = b4.insts.dropLast.map (fun i => i.id) ++ [LId] := by
      unfold instIdsB
      conv_lhs => rw [← hw]
      rw [List.map_append]
      show b4.insts.dropLast.map (fun i => i.id) ++ [L4.id] = _
      rw [hLid]
    rw [this]
  have hids6 : allInstIds (modifyBlock F bid (fun hb => { hb with insts := hb.insts.dropLast ++
      [⟨fresh, InstKind.simple []⟩,
       ⟨fresh + 1, InstKind.term (Term.condbr fresh origId copyId)⟩] })) =
      l1.flatMap instIdsB ++
      ((b4.insts.dropLast.map (fun i => i.id) ++ [fresh, fresh + 1]) ++
        l2.flatMap instIdsB) := by
    rw [allInstIds_of_blocks hblocks6]
    congr 1
    show instIdsB _ ++ l2.flatMap instIdsB = _
    congr 1
    unfold instIdsB
    show (b4.insts.dropLast ++ _).map (fun i => i.id) = _
    rw [List.map_append]
    rfl
  have hPF : (allInstIds F).Perm ([LId] ++ (l1.flatMap instIdsB ++
      (b4.insts.dropLast.map (fun i => i.id) ++ l2.flatMap instIdsB))) := by
    rw [hidsF]
    exact perm_pull_mid
  have hP6 : (allInstIds (modifyBlock F bid (fun hb => { hb with insts := hb.insts.dropLast ++
      [⟨fresh, InstKind.simple []⟩,
       ⟨fresh + 1, InstKind.term (Term.condbr fresh origId copyId)⟩] }))).Perm
      ([fresh, fresh + 1] ++ (l1.flatMap instIdsB ++
      (b4.insts.dropLast.map (fun i => i.id) ++ l2.flatMap instIdsB))) := by
    rw [hids6]
    exact perm_pull_mid
  have hRnd : (l1.flatMap instIdsB ++
      (b4.insts.dropLast.map (fun i => i.id) ++ l2.flatMap instIdsB)).Nodup := by
    have := hPF.nodup_iff.mp hnd
    rw [List.singleton_append, List.nodup_cons] at this
    exact this.2
  have hRlt : ∀ x ∈ l1.flatMap instIdsB ++
      (b4.insts.dropLast.map (fun i => i.id) ++ l2.flatMap instIdsB), x < fresh := by
    intro x hx
    refine hilt x ?_
    exact hPF.mem_iff.mpr (List.mem_append.mpr (Or.inr hx))
  refine ⟨_, rfl, ⟨?_, ?_, ?_, ?_, ?_⟩, ?_, ?_, ?_, hbids6, hnum6, ?_, ?_⟩
  · -- Nodup instruction identities.
    refine hP6.nodup_iff.mpr ?_
    rw [List.nodup_append]
    refine ⟨List.nodup_cons.mpr ⟨by intro h; rw [List.mem_singleton] at h; omega,
      List.nodup_singleton _⟩, hRnd, ?_⟩
    intro x hx hx2
    have := hRlt x hx2
    simp only [List.mem_cons, List.mem_singleton, List.not_mem_nil, or_false] at hx
    rcases hx with rfl | hx
    · omega
    · omega
  · -- Nodup block identities.
    rw [hbids6]
    exact hbnd
  · -- Instruction bounds.
    intro x hx
    rcases List.mem_append.mp (hP6.mem_iff.mp hx) with hx | hx
    · simp only [List.mem_cons, List.mem_singleton, List.not_mem_nil, or_false] at hx
      rcases hx with rfl | hx
      · omega
      · omega
    · have := hRlt x hx
      omega
  · -- Block bounds.
    rw [hbids6]
    intro y hy
    have := hblt y hy
    omega
  · -- Every block ends in a terminator.
    intro b0 hb0
    rw [hblocks6] at hb0
    rcases List.mem_append.mp hb0 with hb0 | hb0
    · exact hterm b0 (by rw [hFb]; exact List.mem_append.mpr (Or.inl hb0))
    · rcases List.mem_cons.mp hb0 with rfl | hb0
      · refine ⟨⟨fresh + 1, InstKind.term (Term.condbr fresh origId copyId)⟩, ?_, rfl⟩
        show (b4.insts.dropLast ++ _).getLast? = _
        rw [List.getLast?_append_of_ne_nil _ (by simp)]
        rfl
      · exact hterm b0 (by rw [hFb]; simp [hb0])
  · -- No PHI nodes.
    rw [List.eq_nil_iff_forall_not_mem]
    intro q hq
    obtain ⟨b0, hb0, j, hj, hjphi, _⟩ := mem_allPhiIds.mp hq
    rw [hblocks6] at hb0
    have hnophiF : ∀ b1 ∈ F.blocks, ∀ i ∈ b1.insts, isPhi i = false := by
      intro b1 hb1 i hi
      by_contra hc
      rw [Bool.not_eq_false] at hc
      have hmem : i.id ∈ allPhiIds F := mem_allPhiIds.mpr ⟨b1, hb1, i, hi, hc, rfl⟩
      rw [hpf] at hmem
      simp at hmem
    rcases List.mem_append.mp hb0 with hb0 | hb0
    · rw [hnophiF b0 (by rw [hFb]; exact List.mem_append.mpr (Or.inl hb0)) j hj] at hjphi
      simp at hjphi
    · rcases List.mem_cons.mp hb0 with rfl | hb0
      · simp only [List.mem_append, List.mem_cons, List.mem_singleton, List.not_mem_nil,
          or_false] at hj
        rcases hj with hj | hj | hj
        · have hjb : j ∈ b4.insts := by
            rw [← hw]
            exact List.mem_append.mpr (Or.inl hj)
          rw [hnophiF b4 hb4mem j hjb] at hjphi
          simp at hjphi
        · rw [hj] at hjphi
          simp [isPhi] at hjphi
        · rw [hj] at hjphi
          simp [isPhi] at hjphi
      · rw [hnophiF b0 (by rw [hFb]; simp [hb0]) j hj] at hjphi
        simp at hjphi
  · -- The head now ends in the bogus conditional branch.
    have hfb6 : getBlock (modifyBlock F bid (fun hb => { hb with insts := hb.insts.dropLast ++
        [⟨fresh, InstKind.simple []⟩,
         ⟨fresh + 1, InstKind.term (Term.condbr fresh origId copyId)⟩] })) bid =
        some ({ b4 with insts := b4.insts.dropLast ++
          [⟨fresh, InstKind.simple []⟩,
           ⟨fresh + 1, InstKind.term (Term.condbr fresh origId copyId)⟩] } : BasicBlock) := by
      rw [getBlock_modify_self F bid
        (fun hb => { hb with insts := hb.insts.dropLast ++ [⟨fresh, InstKind.simple []⟩,
          ⟨fresh + 1, InstKind.term (Term.condbr fresh origId copyId)⟩] })
        (fun b => rfl), hfb]
      rfl
    unfold termOf
    rw [hfb6]
    show blockTerm _ = _
    unfold blockTerm
    rw [show ((({ b4 with insts := b4.insts.dropLast ++
        [⟨fresh, InstKind.simple []⟩,
         ⟨fresh + 1, InstKind.term (Term.condbr fresh origId copyId)⟩] } : BasicBlock)).insts.getLast?) =
        some ⟨fresh + 1, InstKind.term (Term.condbr fresh origId copyId)⟩ from by
      show (b4.insts.dropLast ++ _).getLast? = _
      rw [List.getLast?_append_of_ne_nil _ (by simp)]
      rfl]
  · -- Other terminator shapes unchanged.
    intro y hy
    exact termShapeOf_modify_ne F bid
      (fun hb => { hb with insts := hb.insts.dropLast ++ [⟨fresh, InstKind.simple []⟩,
        ⟨fresh + 1, InstKind.term (Term.condbr fresh origId copyId)⟩] })
      (fun b => rfl) hy
  · -- Survival of pre-base instructions.
    intro x hx hxm
    have hxL : x ≠ LId := by omega
    have hxR : x ∈ l1.flatMap instIdsB ++
        (b4.insts.dropLast.map (fun i => i.id) ++ l2.flatMap instIdsB) := by
      have := hPF.mem_iff.mp hx
      rw [List.singleton_append, List.mem_cons] at this
      rcases this with rfl | h
      · exact absurd rfl hxL
      · exact h
    exact hP6.mem_iff.mpr (List.mem_append.mpr (Or.inr hxR))
  · -- Other blocks untouched.
    intro y hy
    exact getBlock_modify_ne F bid
      (fun hb => { hb with insts := hb.insts.dropLast ++ [⟨fresh, InstKind.simple []⟩,
        ⟨fresh + 1, InstKind.term (Term.condbr fresh origId copyId)⟩] })
      (fun b => rfl) hy

/-! ### The per-block transformation: tail after the optional join pre-split -/

theorem blockTerm_some {bb : BasicBlock} {tt : Term} (h : blockTerm bb = some tt) :
    ∃ LL, bb.insts.getLast? = some LL ∧ LL.kind = InstKind.term tt := by
  unfold blockTerm at h
  cases hgl : bb.insts.getLast? with
  | none => rw [hgl] at h; simp at h
  | some LL =>
    simp only [hgl] at h
    refine ⟨LL, rfl, ?_⟩
    cases hk : LL.kind with
    | term t0 =>
      simp only [hk, Option.some_inj] at h
      rw [h]
    | phi inc => simp only [hk] at h; simp at h
    | dbg => simp only [hk] at h; simp at h
    | simple ops => simp only [hk] at h; simp at h
    | alloca => simp only [hk] at h; simp at h
    | load s => simp only [hk] at h; simp at h
    | store v s => simp only [hk] at h; simp at h

theorem succsOf_of_termShapeOf {H : Func} {x : Nat} {sh : Term}
    (h : termShapeOf H x = some sh) : succsOf H x = sh.successors := by
  rw [succsOf_eq_termOf]
  unfold termShapeOf at h
  cases htx : termOf H x with
  | none => rw [htx] at h; simp at h
  | some t2 =>
    rw [htx] at h
    simp only [Option.map_some', Option.some_inj] at h
    rw [← h]
    simp

theorem step_tail {F1 : Func} {fresh freshA bid : Nat} {succOpt : Option Nat}
    (hG1 : GoodF F1 freshA) (hpf1 : allPhiIds F1 = [])
    {b1 : BasicBlock} (hfb1 : getBlock F1 bid = some b1)
    {t1 : Term} (ht1 : blockTerm b1 = some t1)
    (hsuccs : t1.successors = succOpt.toList)
    {inst1 : Inst} (hinst1 : inst1 ∈ b1.insts)
    (hfreshA : fresh ≤ freshA) (hbidlt : bid < fresh) :
    ∃ F6 fresh6,
      (let r2 := splitBasicBlock F1 bid inst1.id freshA
       let F2 := r2.1
       let origId := r2.2.1
       let r3 := cloneBasicBlock F2 origId r2.2.2
       let F3 := r3.1
       let copyId := r3.2.1
       let vmap := r3.2.2.1
       let r4 : Func × Nat := match succOpt with
         | some s => reconcileBlock F3 s origId copyId vmap r3.2.2.2
         | none => (F3, r3.2.2.2)
       let F5 := modifyBlock r4.1 bid (fun hb => { hb with insts := hb.insts.dropLast })
       let r6 := createStub F5 bid origId copyId r4.2
       (r6.1, r6.2, some (⟨bid, origId, copyId, succOpt⟩ : TraceEnt))) =
        (F6, fresh6, some (⟨bid, freshA, freshA + 2, succOpt⟩ : TraceEnt)) ∧
      GoodF F6 fresh6 ∧ allPhiIds F6 = [] ∧ freshA ≤ fresh6 ∧
      (∃ c, termOf F6 bid = some (Term.condbr c freshA (freshA + 2))) ∧
      succsOf F6 freshA = succOpt.toList ∧
      succsOf F6 (freshA + 2) = succOpt.toList ∧
      (∀ x ∈ allInstIds F1, x < fresh → x ∈ allInstIds F6) ∧
      (∀ y ∈ blockIds F1, y ∈ blockIds F6) ∧
      numBlocks F1 + 2 ≤ numBlocks F6 ∧
      (∀ y b b6, y ≠ bid → getBlock F1 y = some b → getBlock F6 y = some b6 →
        hasEffFirst b → hasEffFirst b6) := by
  obtain ⟨L1, hL1, hL1k⟩ := blockTerm_some ht1
  have hpost1 : b1.insts.dropWhile (fun i => i.id ≠ inst1.id) ≠ [] := by
    intro he
    have := List.dropWhile_eq_nil_iff.mp he inst1 hinst1
    simp at this
  obtain ⟨F2v, hsplit1, hG2, hpf2, hhusk2, horig2, hother2, hbsub2, hbmem2, hbcon2, hnum2,
    hup2, hdown2⟩ := split_lemma hG1 hpf1 hfb1 hpost1
  have hpostlast : (b1.insts.dropWhile (fun i => i.id ≠ inst1.id)).getLast? = some L1 := by
    rw [getLast?_of_dropWhile_ne_nil hpost1, hL1]
  have hshapeOrig : termShapeOf F2v freshA = some t1.shape := by
    rw [termShapeOf_eq, horig2]
    show termShapeB (⟨freshA, false, b1.insts.dropWhile (fun i => i.id ≠ inst1.id)⟩ :
      BasicBlock) = _
    rw [termShapeB_eq_getLast]
    show (b1.insts.dropWhile (fun i => i.id ≠ inst1.id)).getLast?.bind
      (fun i => kindTermShape i.kind) = _
    rw [hpostlast, Option.some_bind, hL1k]
    rfl
  obtain ⟨F3v, vmapv, hclone, hG3, hpf3, hgb3, hshape3, hbsub3, hbmem3, hbcon3, hnum3,
    hup3, hdown3⟩ := clone_lemma hG2 hpf2 horig2
  have hG3n : GoodF F3v (freshA + 2 + 1 +
      (b1.insts.dropWhile (fun i => i.id ≠ inst1.id)).length) := hG3
  -- Shared tail: from any envelope-respecting reconciliation result, erase the husk
  -- branch and install the stub.
  have main : ∀ (F4v : Func) (fresh4 : Nat),
      EditOK fresh F3v (freshA + 2 + 1 +
        (b1.insts.dropWhile (fun i => i.id ≠ inst1.id)).length) F4v fresh4 →
      allPhiIds F4v = [] →
      ∃ F6, createStub (modifyBlock F4v bid (fun hb => { hb with insts := hb.insts.dropLast }))
          bid freshA (freshA + 2) fresh4 = (F6, fresh4 + 2) ∧
        GoodF F6 (fresh4 + 2) ∧ allPhiIds F6 = [] ∧
        termOf F6 bid = some (Term.condbr fresh4 freshA (freshA + 2)) ∧
        succsOf F6 freshA = succOpt.toList ∧
        succsOf F6 (freshA + 2) = succOpt.toList ∧
        (∀ x ∈ allInstIds F1, x < fresh → x ∈ allInstIds F6) ∧
        (∀ y ∈ blockIds F1, y ∈ blockIds F6) ∧
        numBlocks F1 + 2 ≤ numBlocks F6 ∧ freshA ≤ fresh4 ∧
        (∀ y b b6, y ≠ bid → getBlock F1 y = some b → getBlock F6 y = some b6 →
          hasEffFirst b → hasEffFirst b6) := by
    intro F4v fresh4 hedit hpf4
    obtain ⟨hG4, hle4, hshape4, hlastId4, hbids4, hnum4, hupE, _, hEff4⟩ := hedit
    have hbidmem2 : bid ∈ blockIds F2v :=
      List.mem_map_of_mem (fun x => x.id) (getBlock_mem F2v bid hhusk2)
    have hbidmem4 : bid ∈ blockIds F4v := by
      rw [hbids4]
      exact hbsub3 bid hbidmem2
    have hlast2 : lastIdOf F2v bid = some (freshA + 1) := by
      unfold lastIdOf
      rw [hhusk2, Option.some_bind]
      show (((b1.insts.takeWhile (fun i => i.id ≠ inst1.id) ++
        [(⟨freshA + 1, InstKind.term (Term.br freshA)⟩ : Inst)]).getLast?).map
          (fun i : Inst => i.id)) = some (freshA + 1)
      rw [List.getLast?_append_of_ne_nil _ (by simp)]
      rfl
    have hlast3 : lastIdOf F3v bid = lastIdOf F2v bid := by
      unfold lastIdOf
      rw [hgb3 bid (by omega)]
    have hlast4 : lastIdOf F4v bid = some (freshA + 1) := by
      rw [hlastId4 bid, hlast3, hlast2]
    obtain ⟨F6, hstub, hG6, hpf6, hterm6, hshape6, hbids6, hnum6, hsurv6, hother6⟩ :=
      dropStub_effects hG4 hpf4 hbidmem4 hlast4 (show fresh ≤ freshA + 1 by omega)
    refine ⟨F6, hstub, hG6, hpf6, hterm6, ?_, ?_, ?_, ?_, ?_, by omega, ?_⟩
    · have hsh : termShapeOf F6 freshA = some t1.shape := by
        rw [hshape6 freshA (by omega), hshape4 freshA]
        have h32 : termShapeOf F3v freshA = termShapeOf F2v freshA := by
          rw [termShapeOf_eq, termShapeOf_eq, hgb3 freshA (by omega)]
        rw [h32]
        exact hshapeOrig
      rw [succsOf_of_termShapeOf hsh, Term.successors_shape, hsuccs]
    · have hsh : termShapeOf F6 (freshA + 2) = some t1.shape := by
        rw [hshape6 (freshA + 2) (by omega), hshape4 (freshA + 2), hshape3]
        exact hshapeOrig
      rw [succsOf_of_termShapeOf hsh, Term.successors_shape, hsuccs]
    · intro x hx hxlt
      refine hsurv6 x ?_ hxlt
      refine hupE x ?_ hxlt
      exact hup3 x (hup2 x hx)
    · intro y hy
      rw [hbids6, hbids4]
      exact hbsub3 y (hbsub2 y hy)
    · rw [hnum6, hnum4, hnum3, hnum2]
    · intro y b b6 hy hb hb6 hP
      have hymem : y ∈ blockIds F1 := by
        have hmem0 : b ∈ F1.blocks := getBlock_mem F1 y hb
        have hmm : b.id ∈ blockIds F1 := List.mem_map_of_mem (fun x => x.id) hmem0
        rwa [getBlock_id F1 y hb] at hmm
      have hylt : y < freshA := hG1.2.2.2.1 y hymem
      have hb3 : getBlock F3v y = some b := by
        rw [hgb3 y (by omega), hother2 y hy (by omega)]
        exact hb
      have hb4 : getBlock F4v y = some b6 := by
        rw [← hother6 y hy]
        exact hb6
      exact hEff4 y b b6 hb3 hb4 hP
  cases succOpt with
  | some s =>
    obtain ⟨hedit, hpf4⟩ := reconcileBlock_editOK hG3n hpf3
      (show fresh ≤ freshA + 2 + 1 +
        (b1.insts.dropWhile (fun i => i.id ≠ inst1.id)).length by omega)
      s freshA (freshA + 2) vmapv
    obtain ⟨F6, hstub, hG6, hpf6, hterm6, hso, hsc, hsv, hbs, hnb, hfr4, heff⟩ :=
      main _ _ hedit hpf4
    refine ⟨F6, (reconcileBlock F3v s freshA (freshA + 2) vmapv (freshA + 2 + 1 +
      (b1.insts.dropWhile (fun i => i.id ≠ inst1.id)).length)).2 + 2, ?_,
      hG6, hpf6, by omega, ⟨_, hterm6⟩, hso, hsc, hsv, hbs, hnb, heff⟩
    show (let r2 := splitBasicBlock F1 bid inst1.id freshA
      let F2 := r2.1
      let origId := r2.2.1
      let r3 := cloneBasicBlock F2 origId r2.2.2
      let F3 := r3.1
      let copyId := r3.2.1
      let vmap := r3.2.2.1
      let r4 : Func × Nat := reconcileBlock F3 s origId copyId vmap r3.2.2.2
      let F5 := modifyBlock r4.1 bid (fun hb => { hb with insts := hb.insts.dropLast })
      let r6 := createStub F5 bid origId copyId r4.2
      (r6.1, r6.2, some (⟨bid, origId, copyId, some s⟩ : TraceEnt))) = _
    simp only [hsplit1, hclone, hstub]
  | none =>
    obtain ⟨F6, hstub, hG6, hpf6, hterm6, hso, hsc, hsv, hbs, hnb, hfr4, heff⟩ :=
      main F3v (freshA + 2 + 1 + (b1.insts.dropWhile (fun i => i.id ≠ inst1.id)).length)
        (editOK_refl hG3n) hpf3
    refine ⟨F6, freshA + 2 + 1 +
      (b1.insts.dropWhile (fun i => i.id ≠ inst1.id)).length + 2, ?_,
      hG6, hpf6, by omega, ⟨_, hterm6⟩, hso, hsc, hsv, hbs, hnb, heff⟩
    show (let r2 := splitBasicBlock F1 bid inst1.id freshA
      let F2 := r2.1
      let origId := r2.2.1
      let r3 := cloneBasicBlock F2 origId r2.2.2
      let F3 := r3.1
      let copyId := r3.2.1
      let vmap := r3.2.2.1
      let r4 : Func × Nat := (F3, r3.2.2.2)
      let F5 := modifyBlock r4.1 bid (fun hb => { hb with insts := hb.insts.dropLast })
      let r6 := createStub F5 bid origId copyId r4.2
      (r6.1, r6.2, some (⟨bid, origId, copyId, none⟩ : TraceEnt))) = _
    simp only [hsplit1, hclone, hstub]

/-! ### The per-block transformation, end to end -/

theorem step_main {F : Func} {fresh bid : Nat} (hG : GoodF F fresh)
    (hpf : allPhiIds F = [])
    {b : BasicBlock} (hfb : getBlock F bid = some b)
    {t : Term} (ht : blockTerm b = some t)
    {inst1 : Inst} (hfirst : getFirstNonPHIOrDbgOrLifetime b = some inst1)
    (hfne : isTermInst inst1 = false) :
    ∃ F6 fresh6 origId copyId succOpt,
      transformSelectedBlock F bid fresh =
        (F6, fresh6, some (⟨bid, origId, copyId, succOpt⟩ : TraceEnt)) ∧
      GoodF F6 fresh6 ∧ allPhiIds F6 = [] ∧ fresh ≤ fresh6 ∧
      origId ≠ copyId ∧
      (∃ c, termOf F6 bid = some (Term.condbr c origId copyId)) ∧
      succsOf F6 origId = succOpt.toList ∧
      succsOf F6 copyId = succOpt.toList ∧
      (succOpt = none ↔ t.successors = []) ∧
      (∀ x ∈ allInstIds F, x ∈ allInstIds F6) ∧
      (∀ y ∈ blockIds F, y ∈ blockIds F6) ∧
      numBlocks F + 2 ≤ numBlocks F6 ∧
      (∀ y b0 b6, y ≠ bid → getBlock F y = some b0 → getBlock F6 y = some b6 →
        hasEffFirst b0 → hasEffFirst b6) := by
  have hbmem : b ∈ F.blocks := getBlock_mem F bid hfb
  have hbidlt : bid < fresh := by
    refine hG.2.2.2.1 bid ?_
    have h1 : b.id ∈ blockIds F := List.mem_map_of_mem (fun x => x.id) hbmem
    rw [← getBlock_id F bid hfb]
    exact h1
  obtain ⟨L, hL, hLk⟩ := blockTerm_some ht
  have hLt : isTermInst L = true := by
    unfold isTermInst
    rw [hLk]
  have hinst1mem : inst1 ∈ b.insts := List.mem_of_find?_eq_some hfirst
  by_cases hlen2 : 1 < t.successors.length
  · -- More than one successor: the join block is split off at the terminator first.
    have hndb : (instIdsB b).Nodup := nodup_instIdsB_of_allInstIds hG.1 hbmem
    have hw : b.insts.dropLast ++ [L] = b.insts := dropLast_append_last hL
    have hidsplit : instIdsB b = b.insts.dropLast.map (fun i => i.id) ++ [L.id] := by
      unfold instIdsB
      conv_lhs => rw [← hw]
      rw [List.map_append]
      rfl
    have hothers : ∀ x ∈ b.insts.dropLast, (fun i => decide (i.id ≠ L.id)) x = true := by
      intro x hx
      have hnd2 : (b.insts.dropLast.map (fun i => i.id) ++ [L.id]).Nodup := by
        rw [← hidsplit]
        exact hndb
      rw [List.nodup_append] at hnd2
      have hdisj := hnd2.2.2
      simp only [decide_eq_true_eq]
      intro he
      exact hdisj (List.mem_map_of_mem _ hx) (by rw [he]; exact List.mem_singleton.mpr rfl)
    obtain ⟨htake, hdrop⟩ := takeWhile_dropWhile_last hL (by simp) hothers
    have hpostA : b.insts.dropWhile (fun i => i.id ≠ L.id) ≠ [] := by
      rw [hdrop]
      simp
    obtain ⟨F2a, hsplitA, hGa, hpfa, hhuskA, hjoinA, hotherA, hbsubA, hbmemA, hbconA, hnumA,
      hupA, hdownA⟩ := split_lemma hG hpf hfb hpostA
    have ht1 : blockTerm (⟨bid, b.landing, b.insts.takeWhile (fun i => i.id ≠ L.id) ++
        [⟨fresh + 1, InstKind.term (Term.br fresh)⟩]⟩ : BasicBlock) =
        some (Term.br fresh) := by
      unfold blockTerm
      rw [show ((⟨bid, b.landing, b.insts.takeWhile (fun i => i.id ≠ L.id) ++
          [⟨fresh + 1, InstKind.term (Term.br fresh)⟩]⟩ : BasicBlock).insts.getLast?) =
          some (⟨fresh + 1, InstKind.term (Term.br fresh)⟩ : Inst) from by
        show ((b.insts.takeWhile (fun i => i.id ≠ L.id) ++
          [(⟨fresh + 1, InstKind.term (Term.br fresh)⟩ : Inst)]).getLast?) = _
        rw [List.getLast?_append_of_ne_nil _ (by simp)]
        rfl]
    have hinst1b1 : inst1 ∈ (⟨bid, b.landing, b.insts.takeWhile (fun i => i.id ≠ L.id) ++
        [⟨fresh + 1, InstKind.term (Term.br fresh)⟩]⟩ : BasicBlock).insts := by
      show inst1 ∈ b.insts.takeWhile (fun i => i.id ≠ L.id) ++ _
      refine List.mem_append.mpr (Or.inl ?_)
      rw [htake]
      have : inst1 ∈ b.insts.dropLast ++ [L] := by
        rw [hw]
        exact hinst1mem
      rcases List.mem_append.mp this with h | h
      · exact h
      · rw [List.mem_singleton] at h
        rw [h, hLt] at hfne
        simp at hfne
    obtain ⟨F6, fresh6, heq, hG6, hpf6, hfr6, hterm6, hso, hsc, hsv, hbs, hnb, heff⟩ :=
      step_tail hGa hpfa hhuskA ht1
        (show (Term.br fresh).successors = (some fresh : Option Nat).toList from rfl)
        hinst1b1 (show fresh ≤ fresh + 2 by omega) hbidlt
    refine ⟨F6, fresh6, fresh + 2, fresh + 2 + 2, some fresh, ?_, hG6, hpf6, by omega,
      by omega, hterm6, hso, hsc, ?_, ?_, ?_, ?_, ?_⟩
    · unfold transformSelectedBlock
      simp only [hfb, ht, hfirst, hL]
      rw [if_pos hlen2]
      simp only [hsplitA]
      exact heq
    · constructor
      · intro h
        simp at h
      · intro h
        rw [h] at hlen2
        simp at hlen2
    · exact fun x hx => hsv x (hupA x hx) (hG.2.2.1 x hx)
    · exact fun y hy => hbs y (hbsubA y hy)
    · rw [hnumA] at hnb
      omega
    · intro y b0 b6 hy hb0 hb6 hP
      have hymem : y ∈ blockIds F := by
        have hmem0 : b0 ∈ F.blocks := getBlock_mem F y hb0
        have hmm : b0.id ∈ blockIds F := List.mem_map_of_mem (fun x => x.id) hmem0
        rwa [getBlock_id F y hb0] at hmm
      have hylt : y < fresh := hG.2.2.2.1 y hymem
      refine heff y b0 b6 hy ?_ hb6 hP
      rw [hotherA y hy (by omega)]
      exact hb0
  · -- At most one successor: no pre-split.
    have hsuccs1 : t.successors = (t.successors.head?).toList := by
      rcases hl : t.successors with _ | ⟨s, rest⟩
      · rfl
      · have hle : (s :: rest).length ≤ 1 := by
          rw [← hl]
          omega
        cases rest with
        | nil => rfl
        | cons a r2 =>
          simp only [List.length_cons] at hle
          omega
    obtain ⟨F6, fresh6, heq, hG6, hpf6, hfr6, hterm6, hso, hsc, hsv, hbs, hnb, heff⟩ :=
      step_tail hG hpf hfb ht hsuccs1 hinst1mem (le_refl fresh) hbidlt
    refine ⟨F6, fresh6, fresh, fresh + 2, t.successors.head?, ?_, hG6, hpf6, by omega,
      by omega, hterm6, hso, hsc, List.head?_eq_none_iff, ?_, hbs, by omega, heff⟩
    · unfold transformSelectedBlock
      simp only [hfb, ht, hfirst]
      rw [if_neg hlen2]
      by_cases hlen1 : t.successors.length = 1
      · rw [if_pos hlen1]
        exact heq
      · rw [if_neg hlen1]
        have hnone : t.successors.head? = none := by
          have h0 : t.successors.length = 0 := by omega
          rw [List.length_eq_zero] at h0
          rw [h0]
          rfl
        rw [hnone] at heq ⊢
        exact heq
    · exact fun x hx => hsv x hx (hG.2.2.1 x hx)

/-! ### The engine loop: one iteration, reduced by the trial's outcome -/

theorem engineStep_true {p : ℚ} {st : EngineSt} {bid : Nat}
    (hd : decide (st.rs.stream st.rs.pos < p) = true) :
    engineStep p st bid =
      ⟨(transformSelectedBlock st.fn bid st.fresh).1, true, st.count + 1,
       ⟨st.rs.stream, st.rs.pos + 1⟩,
       (transformSelectedBlock st.fn bid st.fresh).2.1,
       st.trace ++ (transformSelectedBlock st.fn bid st.fresh).2.2.toList⟩ := by
  unfold engineStep bernoulliDraw
  simp only [hd, if_true]

theorem engineStep_false {p : ℚ} {st : EngineSt} {bid : Nat}
    (hd : decide (st.rs.stream st.rs.pos < p) = false) :
    engineStep p st bid =
      ⟨st.fn, st.modified, st.count, ⟨st.rs.stream, st.rs.pos + 1⟩, st.fresh, st.trace⟩ := by
  unfold engineStep bernoulliDraw
  simp only [hd, Bool.false_eq_true, if_false]

/-! ### The engine loop master invariant

Folding the per-block trial over any duplicate-free candidate list whose
blocks all carry a non-terminator effective first instruction preserves
well-formedness and PHI-freeness, only grows the fresh supply, destroys no
instruction and no block, consumes exactly one engine draw per candidate,
and adds two blocks per successful trial; when every draw succeeds, every
candidate is transformed. -/

theorem engine_master (p : ℚ) :
    ∀ (order : List Nat) (st : EngineSt),
    GoodF st.fn st.fresh → allPhiIds st.fn = [] → order.Nodup →
    (∀ y ∈ order, ∃ b, getBlock st.fn y = some b ∧ hasEffFirst b) →
    GoodF (order.foldl (engineStep p) st).fn (order.foldl (engineStep p) st).fresh ∧
    allPhiIds (order.foldl (engineStep p) st).fn = [] ∧
    st.fresh ≤ (order.foldl (engineStep p) st).fresh ∧
    (∀ x ∈ allInstIds st.fn, x ∈ allInstIds (order.foldl (engineStep p) st).fn) ∧
    (∀ y ∈ blockIds st.fn, y ∈ blockIds (order.foldl (engineStep p) st).fn) ∧
    (order.foldl (engineStep p) st).rs.stream = st.rs.stream ∧
    (order.foldl (engineStep p) st).rs.pos = st.rs.pos + order.length ∧
    st.count ≤ (order.foldl (engineStep p) st).count ∧
    numBlocks st.fn + 2 * ((order.foldl (engineStep p) st).count - st.count) ≤
      numBlocks (order.foldl (engineStep p) st).fn ∧
    (st.modified = true → (order.foldl (engineStep p) st).modified = true) ∧
    ((∀ k, st.rs.stream k < p) →
      (order.foldl (engineStep p) st).count = st.count + order.length ∧
      (order ≠ [] → (order.foldl (engineStep p) st).modified = true)) := by
  intro order
  induction order with
  | nil =>
    intro st hG hpf _ _
    exact ⟨hG, hpf, le_refl _, fun x hx => hx, fun y hy => hy, rfl, rfl, le_refl _,
      by show numBlocks st.fn + 2 * (st.count - st.count) ≤ numBlocks st.fn; omega,
      fun h => h, fun _ => ⟨rfl, fun h => absurd rfl h⟩⟩
  | cons bid rest ih =>
    intro st hG hpf hnd hcand
    rw [List.nodup_cons] at hnd
    rw [List.foldl_cons]
    cases hd : decide (st.rs.stream st.rs.pos < p) with
    | false =>
      rw [engineStep_false hd]
      obtain ⟨ihG, ihpf, ihfr, ihinst, ihbid, ihstream, ihpos, ihcnt, ihnum, ihmod, _⟩ :=
        ih ⟨st.fn, st.modified, st.count, ⟨st.rs.stream, st.rs.pos + 1⟩, st.fresh, st.trace⟩
          hG hpf hnd.2 (fun y hy => hcand y (List.mem_cons_of_mem bid hy))
      refine ⟨ihG, ihpf, ihfr, ihinst, ihbid, ihstream, ?_, ihcnt, ihnum, ihmod, ?_⟩
      · rw [ihpos]
        show st.rs.pos + 1 + rest.length = st.rs.pos + (rest.length + 1)
        omega
      · intro hall
        have hcontra : decide (st.rs.stream st.rs.pos < p) = true :=
          decide_eq_true (hall st.rs.pos)
        rw [hcontra] at hd
        simp at hd
    | true =>
      rw [engineStep_true hd]
      obtain ⟨b, hfb, inst1, hfirst, hfne⟩ := hcand bid (List.mem_cons_self bid rest)
      have hbmem : b ∈ st.fn.blocks := getBlock_mem st.fn bid hfb
      obtain ⟨L, hL, hLt⟩ := hG.2.2.2.2 b hbmem
      obtain ⟨t, ht⟩ : ∃ t, blockTerm b = some t := by
        unfold isTermInst at hLt
        cases hk : L.kind with
        | term t0 => exact ⟨t0, by unfold blockTerm; simp only [hL, hk]⟩
        | phi inc => rw [hk] at hLt; simp at hLt
        | dbg => rw [hk] at hLt; simp at hLt
        | simple ops => rw [hk] at hLt; simp at hLt
        | alloca => rw [hk] at hLt; simp at hLt
        | load s => rw [hk] at hLt; simp at hLt
        | store v s => rw [hk] at hLt; simp at hLt
      obtain ⟨F6, fresh6, origId, copyId, succOpt, heq, hG6, hpf6, hfr6, _, _,
        _, _, _, hsv, hbs, hnb, heff⟩ := step_main hG hpf hfb ht hfirst hfne
      simp only [heq]
      have hcand1 : ∀ y ∈ rest, ∃ b6, getBlock F6 y = some b6 ∧ hasEffFirst b6 := by
        intro y hy
        obtain ⟨b0, hb0, hP0⟩ := hcand y (List.mem_cons_of_mem bid hy)
        have hyne : y ≠ bid := fun he => hnd.1 (he ▸ hy)
        have hymem : y ∈ blockIds st.fn := by
          have hmm : b0.id ∈ blockIds st.fn :=
            List.mem_map_of_mem (fun x => x.id) (getBlock_mem st.fn y hb0)
          rwa [getBlock_id st.fn y hb0] at hmm
        have hymem6 : y ∈ blockIds F6 := hbs y hymem
        obtain ⟨b6, hb6mem, hb6id⟩ := List.mem_map.mp hymem6
        have hb6id2 : b6.id = y := hb6id
        have hgb6 : getBlock F6 y = some b6 := by
          rw [← hb6id2]
          exact getBlock_of_mem hG6.2.1 hb6mem
        exact ⟨b6, hgb6, heff y b0 b6 hyne hb0 hgb6 hP0⟩
      obtain ⟨ihG, ihpf, ihfr, ihinst, ihbid, ihstream, ihpos, ihcnt, ihnum, ihmod, ihall⟩ :=
        ih ⟨F6, true, st.count + 1, ⟨st.rs.stream, st.rs.pos + 1⟩, fresh6,
          st.trace ++ (some (⟨bid, origId, copyId, succOpt⟩ : TraceEnt)).toList⟩
          hG6 hpf6 hnd.2 hcand1
      refine ⟨ihG, ihpf, le_trans hfr6 ihfr, fun x hx => ihinst x (hsv x hx), ?_,
        ihstream, ?_, ?_, ?_, fun _ => ihmod rfl, ?_⟩
      · exact fun y hy => ihbid y (hbs y hy)
      · rw [ihpos]
        show st.rs.pos + 1 + rest.length = st.rs.pos + (rest.length + 1)
        omega
      · have hc : st.count + 1 ≤ (rest.foldl (engineStep p)
            ⟨F6, true, st.count + 1, ⟨st.rs.stream, st.rs.pos + 1⟩, fresh6,
             st.trace ++ (some (⟨bid, origId, copyId, succOpt⟩ : TraceEnt)).toList⟩).count :=
          ihcnt
        omega
      · have hc : st.count + 1 ≤ (rest.foldl (engineStep p)
            ⟨F6, true, st.count + 1, ⟨st.rs.stream, st.rs.pos + 1⟩, fresh6,
             st.trace ++ (some (⟨bid, origId, copyId, succOpt⟩ : TraceEnt)).toList⟩).count :=
          ihcnt
        have hn : numBlocks F6 + 2 * ((rest.foldl (engineStep p)
            ⟨F6, true, st.count + 1, ⟨st.rs.stream, st.rs.pos + 1⟩, fresh6,
             st.trace ++ (some (⟨bid, origId, copyId, succOpt⟩ : TraceEnt)).toList⟩).count -
            (st.count + 1)) ≤ numBlocks (rest.foldl (engineStep p)
            ⟨F6, true, st.count + 1, ⟨st.rs.stream, st.rs.pos + 1⟩, fresh6,
             st.trace ++ (some (⟨bid, origId, copyId, succOpt⟩ : TraceEnt)).toList⟩).fn :=
          ihnum
        omega
      · intro hall
        refine ⟨?_, fun _ => ihmod rfl⟩
        have hc2 : (rest.foldl (engineStep p)
            ⟨F6, true, st.count + 1, ⟨st.rs.stream, st.rs.pos + 1⟩, fresh6,
             st.trace ++ (some (⟨bid, origId, copyId, succOpt⟩ : TraceEnt)).toList⟩).count =
            st.count + 1 + rest.length :=
          (ihall (fun k => hall k)).1
        show _ = st.count + (rest.length + 1)
        omega

/-! ### From the candidate collection to the engine invariant -/

theorem hasEffFirst_of_skipFalse {F : Func} {n e : Nat} (hG : GoodF F n)
    {b : BasicBlock} (hb : b ∈ F.blocks) (hs : skipBlock e b = false) :
    hasEffFirst b := by
  obtain ⟨L, hL, hLt⟩ := hG.2.2.2.2 b hb
  have hLP : isPhiOrDbg L = false := term_not_phiOrDbg hLt
  cases hf : getFirstNonPHIOrDbgOrLifetime b with
  | none =>
    exfalso
    have hnone := List.find?_eq_none.mp hf L (List.mem_of_mem_getLast? hL)
    rw [hLP] at hnone
    simp at hnone
  | some i1 =>
    refine ⟨i1, hf, ?_⟩
    unfold skipBlock at hs
    simp only [hf, Bool.or_eq_false_iff] at hs
    exact hs.1.1

theorem normalize_effOK :
    ∀ (ps : List Nat) (F : Func) (n : Nat), GoodF F n →
    EffOK F (normalizePhis F ps n).1 := by
  intro ps
  induction ps with
  | nil => intro F n hG; exact effOK_refl F
  | cons p ps ih =>
    intro F n hG
    obtain ⟨hG1, _, _, _, _, hbi1, _, _⟩ :=
      (fun h => ⟨h.1, h.2.1, h.2.2.1, h.2.2.2.1, h.2.2.2.2.1, h.2.2.2.2.2.1,
        h.2.2.2.2.2.2.1, h.2.2.2.2.2.2.2⟩ :
        _ → GoodF (demotePHIToStack F p n).1 (demotePHIToStack F p n).2 ∧
          n ≤ (demotePHIToStack F p n).2 ∧
          (∀ x ∈ allInstIds F, x ≠ p → x ∈ allInstIds (demotePHIToStack F p n).1) ∧
          (∀ x ∈ allInstIds (demotePHIToStack F p n).1, x ∈ allInstIds F ∨ n ≤ x) ∧
          (∀ y, termShapeOf (demotePHIToStack F p n).1 y = termShapeOf F y) ∧
          blockIds (demotePHIToStack F p n).1 = blockIds F ∧
          numBlocks (demotePHIToStack F p n).1 = numBlocks F ∧
          (∀ q ∈ allPhiIds (demotePHIToStack F p n).1, q ∈ allPhiIds F ∧ q ≠ p))
      (demote_effects hG)
    rw [normalizePhis_cons]
    exact effOK_trans hG1.2.1 hbi1 (effOK_demote hG)
      (ih (demotePHIToStack F p n).1 (demotePHIToStack F p n).2 hG1)

theorem nonPhi_sub_allInst {F : Func} : ∀ x ∈ nonPhiIds F, x ∈ allInstIds F := by
  intro x hx
  unfold nonPhiIds at hx
  simp only [List.mem_flatMap, List.mem_map, List.mem_filter] at hx
  obtain ⟨b, hb, i, ⟨hi, _⟩, rfl⟩ := hx
  rw [allInstIds_eq_map]
  exact List.mem_map_of_mem _ (mem_allInsts.mpr ⟨b, hb, hi⟩)

theorem nonPhi_not_phiId {F : Func} {n : Nat} (hG : GoodF F n) :
    ∀ x ∈ nonPhiIds F, x ∉ allPhiIds F := by
  intro x hx hc
  unfold nonPhiIds at hx
  simp only [List.mem_flatMap, List.mem_map, List.mem_filter] at hx
  obtain ⟨b, hb, i, ⟨hi, hinp⟩, hix⟩ := hx
  obtain ⟨b2, hb2, j, hj, hjphi, hjx⟩ := mem_allPhiIds.mp hc
  have hij : i = j := inst_id_inj hG.1 (mem_allInsts.mpr ⟨b, hb, hi⟩)
    (mem_allInsts.mpr ⟨b2, hb2, hj⟩) (by rw [hix, hjx])
  rw [hij, hjphi] at hinp
  simp at hinp

/-- The main path of `runOnFunction`: every gate passed, a nonempty
candidate list was collected, so the Merge-Node Normalizer runs and the
engine folds over the shuffled candidates. -/
theorem runOn_main_eq (cfg : Config) (sh : List Nat → List Nat) (F : Func)
    (rs : RandState) (n : Nat)
    (h1 : cfg.disableBcf = false) (h2 : F.isDeclaration = false)
    (h3 : ¬(¬F.tagged ∧ cfg.bcfProbability = 0))
    (h4 : ¬(¬F.tagged ∧ ¬cfg.bcfFunc.isEmpty ∧ ¬cfg.bcfFunc.contains F.name))
    {cands : List Nat} (hcoll : collectPass F = some cands) (h5 : cands.isEmpty = false) :
    runOnFunction cfg sh F rs n =
      (fun st : EngineSt =>
        (⟨st.modified, if st.modified then tagFunction st.fn else st.fn,
          st.count, st.rs, st.fresh, st.trace⟩ : RunResult))
      ((sh cands).foldl (engineStep cfg.bcfProbability)
        ⟨(normalizePhis F (allPhiIds F) n).1, false, 0, rs,
         (normalizePhis F (allPhiIds F) n).2, []⟩) := by
  unfold runOnFunction
  rw [if_neg (by rw [h1]; simp), if_neg (by rw [h2]; simp), if_neg h3, if_neg h4]
  simp only [hcoll, h5, Bool.false_eq_true, if_false]

/-- The engine fold of the main path, from a well-formed function: the
result is PHI-free, non-PHI instructions and all blocks survive, two blocks
are added per transformed block, and when every engine draw succeeds every
candidate is transformed and the function is reported modified. -/
theorem mainFold_master (p : ℚ) (sh : List Nat → List Nat) {F : Func} {n : Nat}
    (hG : GoodF F n) {cands : List Nat} (hcoll : collectPass F = some cands)
    (hne : cands ≠ []) (hperm : (sh cands).Perm cands) (rs : RandState) :
    allPhiIds ((sh cands).foldl (engineStep p)
      ⟨(normalizePhis F (allPhiIds F) n).1, false, 0, rs,
       (normalizePhis F (allPhiIds F) n).2, []⟩).fn = [] ∧
    (∀ x ∈ allInstIds F, x ∉ allPhiIds F →
      x ∈ allInstIds ((sh cands).foldl (engineStep p)
        ⟨(normalizePhis F (allPhiIds F) n).1, false, 0, rs,
         (normalizePhis F (allPhiIds F) n).2, []⟩).fn) ∧
    (∀ y ∈ blockIds F, y ∈ blockIds ((sh cands).foldl (engineStep p)
      ⟨(normalizePhis F (allPhiIds F) n).1, false, 0, rs,
       (normalizePhis F (allPhiIds F) n).2, []⟩).fn) ∧
    numBlocks F + 2 * ((sh cands).foldl (engineStep p)
      ⟨(normalizePhis F (allPhiIds F) n).1, false, 0, rs,
       (normalizePhis F (allPhiIds F) n).2, []⟩).count ≤
      numBlocks ((sh cands).foldl (engineStep p)
        ⟨(normalizePhis F (allPhiIds F) n).1, false, 0, rs,
         (normalizePhis F (allPhiIds F) n).2, []⟩).fn ∧
    ((∀ k, rs.stream k < p) →
      ((sh cands).foldl (engineStep p)
        ⟨(normalizePhis F (allPhiIds F) n).1, false, 0, rs,
         (normalizePhis F (allPhiIds F) n).2, []⟩).count = cands.length ∧
      ((sh cands).foldl (engineStep p)
        ⟨(normalizePhis F (allPhiIds F) n).1, false, 0, rs,
         (normalizePhis F (allPhiIds F) n).2, []⟩).modified = true) := by
  obtain ⟨hGN, hleN, hupN, hshapeN, hbidsN, hnumN, hphiN⟩ :=
    normalize_effects (allPhiIds F) F n hG
  have hpfN : allPhiIds (normalizePhis F (allPhiIds F) n).1 = [] :=
    phiFree_iff_allPhiIds.mp (normalize_phiFree hG)
  obtain ⟨e, tl, hFb, hcoll2⟩ : ∃ e tl, F.blocks = e :: tl ∧
      collectGo e.id F.blocks = some cands := by
    unfold collectPass at hcoll
    cases hFb : F.blocks with
    | nil =>
      simp only [hFb] at hcoll
      rw [Option.some_inj] at hcoll
      exact absurd hcoll.symm hne
    | cons e tl =>
      simp only [hFb] at hcoll
      exact ⟨e, tl, rfl, hcoll⟩
  have hndsh : (sh cands).Nodup := hperm.nodup_iff.mpr (collectGo_nodup hG.2.1 hcoll2)
  have hcandN : ∀ y ∈ sh cands,
      ∃ b, getBlock (normalizePhis F (allPhiIds F) n).1 y = some b ∧ hasEffFirst b := by
    intro y hy
    have hyc : y ∈ cands := hperm.mem_iff.mp hy
    obtain ⟨b0, hb0mem, hb0id, hskip, _⟩ := collectGo_mem hcoll2 y hyc
    have hP0 : hasEffFirst b0 := hasEffFirst_of_skipFalse hG hb0mem hskip
    have hgb0 : getBlock F y = some b0 := by
      rw [← hb0id]
      exact getBlock_of_mem hG.2.1 hb0mem
    have hymem : y ∈ blockIds (normalizePhis F (allPhiIds F) n).1 := by
      rw [hbidsN, ← hb0id]
      exact List.mem_map_of_mem (fun x => x.id) hb0mem
    obtain ⟨bN, hbNmem, hbNid⟩ := List.mem_map.mp hymem
    have hbNid2 : bN.id = y := hbNid
    have hgbN : getBlock (normalizePhis F (allPhiIds F) n).1 y = some bN := by
      rw [← hbNid2]
      exact getBlock_of_mem hGN.2.1 hbNmem
    exact ⟨bN, hgbN, normalize_effOK (allPhiIds F) F n hG y b0 bN hgb0 hgbN hP0⟩
  obtain ⟨emG, empf, emfr, eminst, embid, emstream, empos, emcnt, emnum, emmod, emall⟩ :=
    engine_master p (sh cands)
      ⟨(normalizePhis F (allPhiIds F) n).1, false, 0, rs,
       (normalizePhis F (allPhiIds F) n).2, []⟩ hGN hpfN hndsh hcandN
  refine ⟨empf, ?_, ?_, ?_, ?_⟩
  · intro x hx hxnp
    exact eminst x (hupN x hx hxnp)
  · intro y hy
    refine embid y ?_
    rw [hbidsN]
    exact hy
  · have hnum2 : numBlocks (normalizePhis F (allPhiIds F) n).1 +
        2 * (((sh cands).foldl (engineStep p)
          ⟨(normalizePhis F (allPhiIds F) n).1, false, 0, rs,
           (normalizePhis F (allPhiIds F) n).2, []⟩).count - 0) ≤
        numBlocks ((sh cands).foldl (engineStep p)
          ⟨(normalizePhis F (allPhiIds F) n).1, false, 0, rs,
           (normalizePhis F (allPhiIds F) n).2, []⟩).fn := emnum
    rw [hnumN] at hnum2
    omega
  · intro hall
    obtain ⟨hcnt, hmod⟩ := emall (fun k => hall k)
    have hshne : sh cands ≠ [] := by
      intro he
      rw [he] at hperm
      exact hne hperm.symm.eq_nil
    refine ⟨?_, hmod hshne⟩
    rw [hcnt, hperm.length_eq]
    show 0 + cands.length = cands.length
    omega

/-- Claim C1 (amended): the per-function tag does not short-circuit
re-entry; it is read back as the `must_obfuscate` override.  A tagged
function (as a first modifying run leaves it) re-enters the engine: the
probability-zero gate and the name filter are waived, one Bernoulli trial
runs per shuffled candidate block, and when every engine draw succeeds (as
at probability 1 with canonical draws in [0,1)) every candidate block is
transformed again: the function is reported modified, the number of
transformed blocks equals the candidate count, and the block count
strictly grows. -/
theorem C1_tag_forces_reentry (cfg : Config) (sh : List Nat → List Nat)
    (F : Func) (rs : RandState) (n : Nat) (hG : GoodF F n)
    (htag : F.tagged = true) (hdis : cfg.disableBcf = false)
    (hdecl : F.isDeclaration = false)
    {cands : List Nat} (hcoll : collectPass F = some cands) (hne : cands ≠ [])
    (hperm : (sh cands).Perm cands)
    (hall : ∀ k, rs.stream k < cfg.bcfProbability) :
    (runOnFunction cfg sh F rs n).modified = true ∧
    (runOnFunction cfg sh F rs n).count = cands.length ∧
    numBlocks F < numBlocks (runOnFunction cfg sh F rs n).fn := by
  have hemp : cands.isEmpty = false := by
    rw [List.isEmpty_eq_false]
    exact hne
  have hrun := runOn_main_eq cfg sh F rs n hdis hdecl
    (fun h => h.1 htag) (fun h => h.1 htag) hcoll hemp
  obtain ⟨hpfE, hinstE, hbidE, hnumE, hallE⟩ :=
    mainFold_master cfg.bcfProbability sh hG hcoll hne hperm rs
  obtain ⟨hcntE, hmodE⟩ := hallE hall
  rw [hrun]
  refine ⟨hmodE, hcntE, ?_⟩
  show numBlocks F < numBlocks (if ((sh cands).foldl (engineStep cfg.bcfProbability)
      ⟨(normalizePhis F (allPhiIds F) n).1, false, 0, rs,
       (normalizePhis F (allPhiIds F) n).2, []⟩).modified = true
    then tagFunction ((sh cands).foldl (engineStep cfg.bcfProbability)
      ⟨(normalizePhis F (allPhiIds F) n).1, false, 0, rs,
       (normalizePhis F (allPhiIds F) n).2, []⟩).fn
    else ((sh cands).foldl (engineStep cfg.bcfProbability)
      ⟨(normalizePhis F (allPhiIds F) n).1, false, 0, rs,
       (normalizePhis F (allPhiIds F) n).2, []⟩).fn)
  rw [if_pos hmodE]
  show numBlocks F < numBlocks ((sh cands).foldl (engineStep cfg.bcfProbability)
    ⟨(normalizePhis F (allPhiIds F) n).1, false, 0, rs,
     (normalizePhis F (allPhiIds F) n).2, []⟩).fn
  have h1 : 1 ≤ cands.length := by
    cases cands with
    | nil => exact absurd rfl hne
    | cons a l => simp
  omega

theorem C1_tag_forces_reentry_witness :
    (runOnFunction exCfgP1 id exFunT exStream0 100).modified = true ∧
    (runOnFunction exCfgP1 id exFunT exStream0 100).count = 1 ∧
    numBlocks exFunT < numBlocks (runOnFunction exCfgP1 id exFunT exStream0 100).fn :=
  C1_tag_forces_reentry exCfgP1 id exFunT exStream0 100 (by decide) rfl rfl rfl rfl
    (by decide) (List.Perm.refl _) (fun k => by norm_num [exStream0, exCfgP1])

/-- Claim C3 (amended): every selected and fully transformed block yields a
head ending in a conditional branch with exactly two targets, the original
body and its clone.  When the original terminator had a successor (the
trace records `some j`) both bodies reconverge at the unique join point
`j`; when the original terminator was a return (the trace records `none`)
both bodies end with zero successors and there is no join point. -/
theorem C3_join_amended {F : Func} {fresh bid : Nat} (hG : GoodF F fresh)
    (hpf : allPhiIds F = [])
    {b : BasicBlock} (hfb : getBlock F bid = some b)
    {t : Term} (ht : blockTerm b = some t)
    {inst1 : Inst} (hfirst : getFirstNonPHIOrDbgOrLifetime b = some inst1)
    (hfne : isTermInst inst1 = false) :
    ∃ F6 fresh6 origId copyId succOpt,
      transformSelectedBlock F bid fresh =
        (F6, fresh6, some (⟨bid, origId, copyId, succOpt⟩ : TraceEnt)) ∧
      origId ≠ copyId ∧
      (∃ c, termOf F6 bid = some (Term.condbr c origId copyId)) ∧
      (∀ j, succOpt = some j →
        succsOf F6 origId = [j] ∧ succsOf F6 copyId = [j] ∧ JoinsAt F6 origId copyId) ∧
      (succOpt = none →
        succsOf F6 origId = [] ∧ succsOf F6 copyId = [] ∧
        ¬ JoinsAt F6 origId copyId) := by
  obtain ⟨F6, fresh6, origId, copyId, succOpt, heq, _, _, _, hoc, hterm6, hso, hsc, _, _, _,
    _, _⟩ := step_main hG hpf hfb ht hfirst hfne
  refine ⟨F6, fresh6, origId, copyId, succOpt, heq, hoc, hterm6, ?_, ?_⟩
  · intro j hj
    rw [hj] at hso hsc
    exact ⟨hso, hsc, by rw [hso]; rfl, hso.trans hsc.symm⟩
  · intro hnone
    rw [hnone] at hso hsc
    refine ⟨hso, hsc, ?_⟩
    intro hJ
    obtain ⟨hlen, _⟩ := hJ
    rw [hso] at hlen
    simp at hlen

theorem C3_join_amended_witness :
    ∃ F6 fresh6 origId copyId succOpt,
      transformSelectedBlock exFunA 1 100 =
        (F6, fresh6, some (⟨1, origId, copyId, succOpt⟩ : TraceEnt)) ∧
      origId ≠ copyId ∧
      (∃ c, termOf F6 1 = some (Term.condbr c origId copyId)) ∧
      (∀ j, succOpt = some j →
        succsOf F6 origId = [j] ∧ succsOf F6 copyId = [j] ∧ JoinsAt F6 origId copyId) ∧
      (succOpt = none →
        succsOf F6 origId = [] ∧ succsOf F6 copyId = [] ∧
        ¬ JoinsAt F6 origId copyId) :=
  C3_join_amended (by decide) (by decide) rfl rfl rfl rfl

/-- Claim C3 (counterexample): in the probability-1 run on `exFunA` block 1
is selected and fully transformed, yet its two bodies (100 and its clone
102) never reconverge: the original terminator was a return, the trace
records no join successor, both bodies have zero successors and no join
point exists. -/
theorem C3_counterexample :
    exRunA1.trace = [⟨1, 100, 102, none⟩] ∧
    succsOf exRunA1.fn 100 = [] ∧ succsOf exRunA1.fn 102 = [] ∧
    ¬ JoinsAt exRunA1.fn 100 102 := by decide

/-- Claim C6 (amended): across a whole run, every pre-existing non-PHI
instruction survives and no block is destroyed; pre-existing PHI nodes are
not preserved — whenever the run reports the function modified, the result
contains no merge node at all, every pre-existing PHI node having been
demoted to a stack slot and erased. -/
theorem C6_frame_amended (cfg : Config) (sh : List Nat → List Nat) (F : Func)
    (rs : RandState) (n : Nat) (hG : GoodF F n)
    (hsh : ∀ l : List Nat, (sh l).Perm l) :
    (∀ x ∈ nonPhiIds F, hasInst (runOnFunction cfg sh F rs n).fn x) ∧
    (∀ y ∈ blockIds F, y ∈ blockIds (runOnFunction cfg sh F rs n).fn) ∧
    ((runOnFunction cfg sh F rs n).modified = true →
      countPhis (runOnFunction cfg sh F rs n).fn = 0) := by
  have htriv : ∀ x ∈ nonPhiIds F, hasInst F x := nonPhi_sub_allInst
  by_cases h1 : cfg.disableBcf = true
  · have hrun : runOnFunction cfg sh F rs n = ⟨false, F, 0, rs, n, []⟩ := by
      unfold runOnFunction
      rw [if_pos h1]
    rw [hrun]
    exact ⟨htriv, fun y hy => hy, fun h => by simp at h⟩
  · rw [Bool.not_eq_true] at h1
    by_cases h2 : F.isDeclaration = true
    · have hrun : runOnFunction cfg sh F rs n = ⟨false, F, 0, rs, n, []⟩ := by
        unfold runOnFunction
        rw [if_neg (by rw [h1]; simp), if_pos h2]
      rw [hrun]
      exact ⟨htriv, fun y hy => hy, fun h => by simp at h⟩
    · rw [Bool.not_eq_true] at h2
      by_cases h3 : ¬F.tagged ∧ cfg.bcfProbability = 0
      · have hrun : runOnFunction cfg sh F rs n = ⟨false, F, 0, rs, n, []⟩ := by
          unfold runOnFunction
          rw [if_neg (by rw [h1]; simp), if_neg (by rw [h2]; simp), if_pos h3]
        rw [hrun]
        exact ⟨htriv, fun y hy => hy, fun h => by simp at h⟩
      · by_cases h4 : ¬F.tagged ∧ ¬cfg.bcfFunc.isEmpty ∧ ¬cfg.bcfFunc.contains F.name
        · have hrun : runOnFunction cfg sh F rs n = ⟨false, F, 0, rs, n, []⟩ := by
            unfold runOnFunction
            rw [if_neg (by rw [h1]; simp), if_neg (by rw [h2]; simp), if_neg h3, if_pos h4]
          rw [hrun]
          exact ⟨htriv, fun y hy => hy, fun h => by simp at h⟩
        · cases hcoll : collectPass F with
          | none =>
            have hrun : runOnFunction cfg sh F rs n = ⟨false, F, 0, rs, n, []⟩ := by
              unfold runOnFunction
              rw [if_neg (by rw [h1]; simp), if_neg (by rw [h2]; simp), if_neg h3, if_neg h4]
              simp only [hcoll]
            rw [hrun]
            exact ⟨htriv, fun y hy => hy, fun h => by simp at h⟩
          | some cands =>
            by_cases h5 : cands.isEmpty = true
            · have hrun : runOnFunction cfg sh F rs n = ⟨false, F, 0, rs, n, []⟩ := by
                unfold runOnFunction
                rw [if_neg (by rw [h1]; simp), if_neg (by rw [h2]; simp), if_neg h3,
                  if_neg h4]
                simp only [hcoll, h5, if_true]
              rw [hrun]
              exact ⟨htriv, fun y hy => hy, fun h => by simp at h⟩
            · rw [Bool.not_eq_true] at h5
              have hne : cands ≠ [] := by
                intro he
                rw [he] at h5
                simp at h5
              have hrun := runOn_main_eq cfg sh F rs n h1 h2 h3 h4 hcoll h5
              obtain ⟨hpfE, hinstE, hbidE, hnumE, _⟩ :=
                mainFold_master cfg.bcfProbability sh hG hcoll hne (hsh cands) rs
              rw [hrun]
              refine ⟨?_, ?_, ?_⟩
              · intro x hx
                have hxI : x ∈ allInstIds ((sh cands).foldl (engineStep cfg.bcfProbability)
                    ⟨(normalizePhis F (allPhiIds F) n).1, false, 0, rs,
                     (normalizePhis F (allPhiIds F) n).2, []⟩).fn :=
                  hinstE x (nonPhi_sub_allInst x hx) (nonPhi_not_phiId hG x hx)
                unfold hasInst
                cases hm : ((sh cands).foldl (engineStep cfg.bcfProbability)
                    ⟨(normalizePhis F (allPhiIds F) n).1, false, 0, rs,
                     (normalizePhis F (allPhiIds F) n).2, []⟩).modified with
                | true =>
                  simp only [hm, if_true]
                  exact hxI
                | false =>
                  simp only [hm, Bool.false_eq_true, if_false]
                  exact hxI
              · intro y hy
                have hyB : y ∈ blockIds ((sh cands).foldl (engineStep cfg.bcfProbability)
                    ⟨(normalizePhis F (allPhiIds F) n).1, false, 0, rs,
                     (normalizePhis F (allPhiIds F) n).2, []⟩).fn := hbidE y hy
                cases hm : ((sh cands).foldl (engineStep cfg.bcfProbability)
                    ⟨(normalizePhis F (allPhiIds F) n).1, false, 0, rs,
                     (normalizePhis F (allPhiIds F) n).2, []⟩).modified with
                | true =>
                  simp only [hm, if_true]
                  exact hyB
                | false =>
                  simp only [hm, Bool.false_eq_true, if_false]
                  exact hyB
              · intro hmod
                have hm : ((sh cands).foldl (engineStep cfg.bcfProbability)
                    ⟨(normalizePhis F (allPhiIds F) n).1, false, 0, rs,
                     (normalizePhis F (allPhiIds F) n).2, []⟩).modified = true := hmod
                simp only [hm, if_true]
                show countPhis ((sh cands).foldl (engineStep cfg.bcfProbability)
                  ⟨(normalizePhis F (allPhiIds F) n).1, false, 0, rs,
                   (normalizePhis F (allPhiIds F) n).2, []⟩).fn = 0
                exact countPhis_eq_zero_of_phiFree (phiFree_iff_allPhiIds.mpr hpfE)

theorem C6_frame_amended_witness :
    (∀ x ∈ nonPhiIds exFunD, hasInst (runOnFunction exCfgP1 id exFunD exStream0 100).fn x) ∧
    (∀ y ∈ blockIds exFunD, y ∈ blockIds (runOnFunction exCfgP1 id exFunD exStream0 100).fn) ∧
    ((runOnFunction exCfgP1 id exFunD exStream0 100).modified = true →
      countPhis (runOnFunction exCfgP1 id exFunD exStream0 100).fn = 0) :=
  C6_frame_amended exCfgP1 id exFunD exStream0 100 (by decide) (fun l => List.Perm.refl l)

/-! ### Counting merge nodes and stack slots through one reconciliation -/

theorem count_modify (pX : Inst → Bool) {F : Func} {bid : Nat} {b : BasicBlock}
    (hnd : (blockIds F).Nodup) (hfb : getBlock F bid = some b)
    (g : BasicBlock → BasicBlock) :
    ((modifyBlock F bid g).blocks.map (fun b0 => (b0.insts.filter pX).length)).sum +
      (b.insts.filter pX).length =
    (F.blocks.map (fun b0 => (b0.insts.filter pX).length)).sum +
      ((g b).insts.filter pX).length := by
  obtain ⟨l1, l2, hFb, hbid, h1, h2⟩ := getBlock_decomp hnd hfb
  rw [modifyBlock_blocks_decomp hFb hbid h1 h2, hFb]
  simp only [List.map_append, List.map_cons, List.sum_append, List.sum_cons]
  omega

theorem count_modify_any (pX : Inst → Bool) (F : Func) (bid : Nat)
    (g : BasicBlock → BasicBlock)
    (hg : ∀ b, ((g b).insts.filter pX).length = (b.insts.filter pX).length) :
    ((modifyBlock F bid g).blocks.map (fun b0 => (b0.insts.filter pX).length)).sum =
      (F.blocks.map (fun b0 => (b0.insts.filter pX).length)).sum := by
  unfold modifyBlock
  simp only [List.map_map]
  congr 1
  refine List.map_congr_left (fun b _ => ?_)
  show (fun b0 => (b0.insts.filter pX).length) (if b.id = bid then g b else b) =
    (b.insts.filter pX).length
  by_cases h : b.id = bid
  · simp only [if_pos h]
    exact hg b
  · simp only [if_neg h]

theorem count_perm_insert {pX : Inst → Bool} {g : BasicBlock → BasicBlock} {i : Inst}
    (hg : InsertsOne g i) (hpi : pX i = false) (b : BasicBlock) :
    ((g b).insts.filter pX).length = (b.insts.filter pX).length := by
  rw [(List.Perm.filter pX (hg b).2.1).length_eq, List.filter_cons]
  simp only [hpi, Bool.false_eq_true, if_false]

theorem filter_insertBeforeTerm_len {pX : Inst → Bool} {i : Inst}
    (hsh : kindTermShape i.kind = none) (hpi : pX i = false) (b : BasicBlock) :
    ((insertBeforeTerm i b).insts.filter pX).length = (b.insts.filter pX).length :=
  count_perm_insert (insertsOne_insertBeforeTerm i hsh) hpi b

theorem filter_remove_unique {l : List Inst} (hnd : (l.map (fun j => j.id)).Nodup)
    {i : Inst} (hi : i ∈ l) {pid : Nat} (hid : i.id = pid) (pX : Inst → Bool) :
    ((l.filter (fun j => j.id ≠ pid)).filter pX).length + (if pX i then 1 else 0) =
      (l.filter pX).length := by
  have hperm : l.Perm (i :: l.erase i) := List.perm_cons_erase hi
  have hnd2 : ((i :: l.erase i).map (fun j => j.id)).Nodup :=
    ((hperm.map (fun j => j.id)).nodup_iff).mp hnd
  rw [List.map_cons, List.nodup_cons] at hnd2
  have hothers : ∀ j ∈ l.erase i, j.id ≠ pid := by
    intro j hj hjp
    have hmap : j.id ∈ (l.erase i).map (fun j0 => j0.id) := List.mem_map_of_mem _ hj
    rw [hjp, ← hid] at hmap
    exact hnd2.1 hmap
  have hfe : (l.erase i).filter (fun j => decide (j.id ≠ pid)) = l.erase i :=
    List.filter_eq_self.mpr (fun j hj => by simp [hothers j hj])
  have hfeq : (l.filter (fun j => decide (j.id ≠ pid))).Perm (l.erase i) := by
    refine (List.Perm.filter _ hperm).trans ?_
    rw [List.filter_cons]
    have hii : (decide (i.id ≠ pid)) = false := by simp [hid]
    simp only [hii, Bool.false_eq_true, if_false, hfe]
    exact List.Perm.refl _
  rw [(hfeq.filter pX).length_eq, (List.Perm.filter pX hperm).length_eq, List.filter_cons]
  cases hpi : pX i with
  | true => simp
  | false => simp

theorem count_prepend (pX : Inst → Bool) (i : Inst) {F : Func} (hne : F.blocks ≠ []) :
    ((prependToEntry i F).blocks.map (fun b0 => (b0.insts.filter pX).length)).sum =
      (if pX i then 1 else 0) +
        (F.blocks.map (fun b0 => (b0.insts.filter pX).length)).sum := by
  cases hFb : F.blocks with
  | nil => exact absurd hFb hne
  | cons e rest =>
    have hblocks : (prependToEntry i F).blocks = { e with insts := i :: e.insts } :: rest := by
      unfold prependToEntry
      rw [hFb]
    rw [hblocks]
    simp only [List.map_cons, List.sum_cons]
    show ((i :: e.insts).filter pX).length + _ = _
    rw [List.filter_cons]
    cases hpi : pX i with
    | true =>
      rw [if_pos rfl, if_pos rfl]
      simp only [List.length_cons]
      omega
    | false =>
      rw [if_neg (by simp), if_neg (by simp)]
      omega

theorem count_addStores (pX : Inst → Bool)
    (hstore : ∀ v s sid, pX ⟨sid, InstKind.store v s⟩ = false) (slot : Nat) :
    ∀ (inc : List (Nat × Nat)) (sid : Nat) (F : Func),
    ((addStores slot inc sid F).blocks.map (fun b0 => (b0.insts.filter pX).length)).sum =
      (F.blocks.map (fun b0 => (b0.insts.filter pX).length)).sum := by
  intro inc
  induction inc with
  | nil => intro sid F; rfl
  | cons vb rest ih =>
    intro sid F
    show ((addStores slot rest (sid + 1)
      (modifyBlock F vb.2 (insertBeforeTerm ⟨sid, InstKind.store vb.1 slot⟩))).blocks.map
        (fun b0 => (b0.insts.filter pX).length)).sum = _
    rw [ih (sid + 1) _]
    exact count_modify_any pX F vb.2 _
      (fun b0 => @filter_insertBeforeTerm_len pX ⟨sid, InstKind.store vb.1 slot⟩ rfl
        (hstore vb.1 slot sid) b0)

theorem phi_not_alloca {i : Inst} (h : isPhi i = true) :
    (i.kind == InstKind.alloca) = false := by
  unfold isPhi at h
  cases hk : i.kind with
  | phi inc => rfl
  | dbg => rw [hk] at h; simp at h
  | simple ops => rw [hk] at h; simp at h
  | alloca => rw [hk] at h; simp at h
  | load s => rw [hk] at h; simp at h
  | store v s => rw [hk] at h; simp at h
  | term t => rw [hk] at h; simp at h

theorem filter_id_unique {l : List Inst} (hnd : (l.map (fun j => j.id)).Nodup)
    {i : Inst} (hi : i ∈ l) :
    l.filter (fun j => j.id == i.id) = [i] := by
  induction l with
  | nil => simp at hi
  | cons a rest ih =>
    rw [List.map_cons, List.nodup_cons] at hnd
    rcases List.mem_cons.mp hi with rfl | hmem
    · rw [List.filter_cons]
      simp only [beq_self_eq_true, if_true]
      show i :: rest.filter (fun j => j.id == i.id) = [i]
      congr 1
      rw [List.filter_eq_nil_iff]
      intro j hj hbeq
      rw [beq_iff_eq] at hbeq
      exact hnd.1 (hbeq ▸ List.mem_map_of_mem (fun j0 => j0.id) hj)
    · rw [List.filter_cons]
      have hane : (a.id == i.id) = false := by
        refine beq_eq_false_iff_ne.mpr ?_
        intro he
        exact hnd.1 (he ▸ List.mem_map_of_mem (fun j0 => j0.id) hmem)
      simp only [hane, Bool.false_eq_true, if_false]
      exact ih hnd.2 hmem

theorem findInstBlock_of_mem {F : Func} (hnd : (allInstIds F).Nodup) {b : BasicBlock}
    (hb : b ∈ F.blocks) {i : Inst} (hi : i ∈ b.insts) :
    findInstBlock F i.id = some (b.id, i) := by
  obtain ⟨l1, l2, hFb⟩ := List.append_of_mem hb
  have hids : allInstIds F = l1.flatMap instIdsB ++ (instIdsB b ++ l2.flatMap instIdsB) :=
    allInstIds_of_blocks hFb
  rw [hids, List.nodup_append] at hnd
  have hmemid : i.id ∈ instIdsB b := by
    show i.id ∈ b.insts.map (fun j => j.id)
    exact List.mem_map_of_mem _ hi
  unfold findInstBlock
  rw [hFb, List.flatMap_append, List.flatMap_cons]
  have hl1 : l1.flatMap (fun b0 => (b0.insts.filter (fun j => j.id == i.id)).map
      (fun j => (b0.id, j))) = [] := by
    rw [List.flatMap_eq_nil_iff]
    intro b0 hb0
    rw [List.map_eq_nil_iff, List.filter_eq_nil_iff]
    intro j hj hbeq
    rw [beq_iff_eq] at hbeq
    refine hnd.2.2 ?_ (List.mem_append.mpr (Or.inl hmemid))
    show i.id ∈ l1.flatMap instIdsB
    rw [List.mem_flatMap]
    exact ⟨b0, hb0, by rw [← hbeq]; exact List.mem_map_of_mem _ hj⟩
  have hndb : (b.insts.map (fun j => j.id)).Nodup := by
    have h1 := hnd.2.1
    rw [List.nodup_append] at h1
    exact h1.1
  rw [hl1, List.nil_append, filter_id_unique hndb hi]
  rfl

theorem addIncomingI_pres_contains (pid v bid w : Nat) (i : Inst)
    (h : i.kind.valueOps.contains w = true) :
    (addIncomingI pid v bid i).kind.valueOps.contains w = true := by
  cases i with
  | mk iid k =>
    unfold addIncomingI
    by_cases hid : iid = pid
    · rw [if_pos hid]
      cases k with
      | phi inc =>
        show (if inc.any (fun vb => vb.2 == bid) then (⟨iid, InstKind.phi inc⟩ : Inst)
          else ⟨iid, InstKind.phi (inc ++ [(v, bid)])⟩).kind.valueOps.contains w = true
        cases hany : inc.any (fun vb => vb.2 == bid) with
        | true =>
          rw [if_pos rfl]
          exact h
        | false =>
          rw [if_neg (by simp)]
          show ((inc ++ [(v, bid)]).map (fun vb => vb.1)).contains w = true
          have h2 : w ∈ inc.map (fun vb => vb.1) := List.elem_iff.mp h
          refine List.elem_iff.mpr ?_
          rw [List.map_append]
          exact List.mem_append.mpr (Or.inl h2)
      | dbg => exact h
      | simple ops => exact h
      | alloca => exact h
      | load s => exact h
      | store v2 s => exact h
      | term t => exact h
    · rw [if_neg hid]
      exact h

theorem mapInsts_blocks (h : Inst → Inst) (F : Func) :
    (mapInsts h F).blocks = F.blocks.map (fun b => { b with insts := b.insts.map h }) := by
  cases F with
  | mk nm d t L => rfl

theorem usersOf_mapInsts_ne {h : Inst → Inst} (F : Func) {v : Nat}
    (hpres : ∀ i, i.kind.valueOps.contains v = true →
      (h i).kind.valueOps.contains v = true)
    (hne : (usersOf F v).isEmpty = false) :
    (usersOf (mapInsts h F) v).isEmpty = false := by
  rw [List.isEmpty_eq_false] at hne ⊢
  obtain ⟨bi, hbi⟩ := List.exists_mem_of_ne_nil (usersOf F v) hne
  obtain ⟨b, hb, hbid, hmem, hops⟩ := mem_usersOf.mp hbi
  have hmem2 : (bi.1, h bi.2) ∈ usersOf (mapInsts h F) v := by
    refine mem_usersOf.mpr ⟨{ b with insts := b.insts.map h }, ?_, hbid, ?_, ?_⟩
    · rw [mapInsts_blocks]
      exact List.mem_map_of_mem _ hb
    · exact List.mem_map_of_mem h hmem
    · exact hpres bi.2 hops
  exact List.ne_nil_of_mem hmem2

/-- The busy branch of `DemotePHIToStack` (called from the reconciliation
loop at line 366): demoting a PHI node that has at least one user allocates
exactly one fresh stack slot, erases exactly one merge node, and the PHI's
identity no longer names any instruction. -/
theorem demote_busy_counts {F : Func} {n pid bId : Nat} {i : Inst} {inc : List (Nat × Nat)}
    (hG : GoodF F n) (hfind : findInstBlock F pid = some (bId, i))
    (hk : i.kind = InstKind.phi inc) (hu : (usersOf F pid).isEmpty = false) :
    countAllocas (demotePHIToStack F pid n).1 = countAllocas F + 1 ∧
    countPhis (demotePHIToStack F pid n).1 + 1 = countPhis F ∧
    pid ∉ allInstIds (demotePHIToStack F pid n).1 := by
  obtain ⟨b, hbmem, hbid, hi, hiid⟩ := findInstBlock_some hfind
  have hiphi : isPhi i = true := isPhi_of_kind hk
  have hfb : getBlock F bId = some b := by
    rw [← hbid]
    exact getBlock_of_mem hG.2.1 hbmem
  have hpidlt : pid < n := by
    refine hG.2.2.1 pid ?_
    rw [allInstIds_eq_map, ← hiid]
    exact List.mem_map_of_mem _ (mem_allInsts.mpr ⟨b, hbmem, hi⟩)
  have hid : demotePHIToStack F pid n =
      (replaceUsesEverywhere
        (modifyBlock (addStores n inc (n + 1) (prependToEntry ⟨n, InstKind.alloca⟩ F)) bId
          (fun b0 => insertAfterLeadingPhis ⟨n + 1 + inc.length, InstKind.load n⟩
            (removeInstFrom pid b0)))
        pid (n + 1 + inc.length), n + 2 + inc.length) := by
    unfold demotePHIToStack
    rw [hfind]
    simp only [hk, hu, Bool.false_eq_true, if_false]
  rw [hid]
  obtain ⟨hG1, hup1, hdown1, hshape1, hbids1, hnum1, hphi1⟩ :=
    prepend_effects ⟨n, InstKind.alloca⟩ hG (le_refl n) rfl
  obtain ⟨hG2, hup2, hdown2, hshape2, hbids2, hnum2, hphi2⟩ :=
    addStores_effects n inc (n + 1) _ (n + 1) hG1 (le_refl _)
  obtain ⟨b2, hb2, ip2, hip2, hipid2, hipphi2⟩ :=
    phiInBlock_addStores inc (n + 1) _ (phiInBlock_prepend ⟨b, hfb, i, hi, hiid, hiphi⟩)
  have hndb2 : (b2.insts.map (fun j => j.id)).Nodup :=
    nodup_instIdsB_of_allInstIds hG2.1 (getBlock_mem _ bId hb2)
  have hFne : F.blocks ≠ [] := List.ne_nil_of_mem hbmem
  have hins2 := insertsOne_insertAfterLeadingPhis
    (⟨n + 1 + inc.length, InstKind.load n⟩ : Inst) rfl
  refine ⟨?_, ?_, ?_⟩
  · -- One stack slot is allocated.
    show countAllocas (replaceUsesEverywhere _ pid (n + 1 + inc.length)) = _
    unfold replaceUsesEverywhere
    rw [countAllocas_mapInsts (instHom_subst pid (n + 1 + inc.length))]
    have hmod := count_modify (fun j => j.kind == InstKind.alloca) hG2.2.1 hb2
      (fun b0 => insertAfterLeadingPhis ⟨n + 1 + inc.length, InstKind.load n⟩
        (removeInstFrom pid b0))
    have hgcnt : (((insertAfterLeadingPhis ⟨n + 1 + inc.length, InstKind.load n⟩
        (removeInstFrom pid b2)).insts.filter (fun j => j.kind == InstKind.alloca)).length) =
        ((b2.insts.filter (fun j => j.kind == InstKind.alloca)).length) := by
      rw [count_perm_insert hins2 rfl (removeInstFrom pid b2)]
      have hrm := filter_remove_unique hndb2 hip2 hipid2 (fun j => j.kind == InstKind.alloca)
      rw [phi_not_alloca hipphi2] at hrm
      simp only [Bool.false_eq_true, if_false] at hrm
      exact hrm
    rw [hgcnt] at hmod
    have hadd := count_addStores (fun j => j.kind == InstKind.alloca)
      (fun v s sid => rfl) n inc (n + 1) (prependToEntry ⟨n, InstKind.alloca⟩ F)
    have hpre : ((prependToEntry ⟨n, InstKind.alloca⟩ F).blocks.map (fun b0 =>
        (b0.insts.filter (fun j => j.kind == InstKind.alloca)).length)).sum =
        1 + (F.blocks.map (fun b0 =>
          (b0.insts.filter (fun j => j.kind == InstKind.alloca)).length)).sum :=
      count_prepend (fun j => j.kind == InstKind.alloca) (⟨n, InstKind.alloca⟩ : Inst) hFne
    show ((modifyBlock (addStores n inc (n + 1) (prependToEntry ⟨n, InstKind.alloca⟩ F)) bId
      (fun b0 => insertAfterLeadingPhis ⟨n + 1 + inc.length, InstKind.load n⟩
        (removeInstFrom pid b0))).blocks.map
          (fun b0 => (b0.insts.filter (fun j => j.kind == InstKind.alloca)).length)).sum =
      (F.blocks.map (fun b0 =>
        (b0.insts.filter (fun j => j.kind == InstKind.alloca)).length)).sum + 1
    omega
  · -- One merge node is erased and none created.
    show countPhis (replaceUsesEverywhere _ pid (n + 1 + inc.length)) + 1 = _
    unfold replaceUsesEverywhere
    rw [countPhis_mapInsts (instHom_subst pid (n + 1 + inc.length))]
    have hmod := count_modify isPhi hG2.2.1 hb2
      (fun b0 => insertAfterLeadingPhis ⟨n + 1 + inc.length, InstKind.load n⟩
        (removeInstFrom pid b0))
    have hgcnt : (((insertAfterLeadingPhis ⟨n + 1 + inc.length, InstKind.load n⟩
        (removeInstFrom pid b2)).insts.filter isPhi).length) + 1 =
        ((b2.insts.filter isPhi).length) := by
      rw [count_perm_insert hins2 rfl (removeInstFrom pid b2)]
      have hrm := filter_remove_unique hndb2 hip2 hipid2 isPhi
      rw [hipphi2] at hrm
      simp only [if_true] at hrm
      exact hrm
    have hadd := count_addStores isPhi (fun v s sid => rfl) n inc (n + 1)
      (prependToEntry ⟨n, InstKind.alloca⟩ F)
    have hpre : ((prependToEntry ⟨n, InstKind.alloca⟩ F).blocks.map (fun b0 =>
        (b0.insts.filter isPhi).length)).sum =
        0 + (F.blocks.map (fun b0 => (b0.insts.filter isPhi).length)).sum :=
      count_prepend isPhi (⟨n, InstKind.alloca⟩ : Inst) hFne
    show ((modifyBlock (addStores n inc (n + 1) (prependToEntry ⟨n, InstKind.alloca⟩ F)) bId
      (fun b0 => insertAfterLeadingPhis ⟨n + 1 + inc.length, InstKind.load n⟩
        (removeInstFrom pid b0))).blocks.map
          (fun b0 => (b0.insts.filter isPhi).length)).sum + 1 =
      (F.blocks.map (fun b0 => (b0.insts.filter isPhi).length)).sum
    omega
  · -- The PHI's identity names no instruction any more.
    show pid ∉ allInstIds (replaceUsesEverywhere _ pid (n + 1 + inc.length))
    unfold replaceUsesEverywhere
    rw [allInstIds_mapInsts (instHom_subst pid (n + 1 + inc.length))]
    obtain ⟨l1, l2, hFAb, hbid2, h1, h2⟩ := getBlock_decomp hG2.2.1 hb2
    have hblocksM : (modifyBlock (addStores n inc (n + 1)
        (prependToEntry ⟨n, InstKind.alloca⟩ F)) bId
        (fun b0 => insertAfterLeadingPhis ⟨n + 1 + inc.length, InstKind.load n⟩
          (removeInstFrom pid b0))).blocks =
        l1 ++ (insertAfterLeadingPhis ⟨n + 1 + inc.length, InstKind.load n⟩
          (removeInstFrom pid b2)) :: l2 :=
      modifyBlock_blocks_decomp hFAb hbid2 h1 h2
    have hidsM := allInstIds_of_blocks hblocksM
    have hndA := hG2.1
    rw [allInstIds_of_blocks hFAb, List.nodup_append] at hndA
    have hpid2 : pid ∈ instIdsB b2 := by
      show pid ∈ b2.insts.map (fun j => j.id)
      rw [← hipid2]
      exact List.mem_map_of_mem _ hip2
    rw [hidsM]
    intro hmem
    rcases List.mem_append.mp hmem with hmem | hmem
    · exact hndA.2.2 hmem (List.mem_append.mpr (Or.inl hpid2))
    · rcases List.mem_append.mp hmem with hmem | hmem
      · have hperm := (hins2 (removeInstFrom pid b2)).2.1
        simp only [instIdsB, List.mem_map] at hmem
        obtain ⟨j, hj, hjid⟩ := hmem
        have hj2 := hperm.mem_iff.mp hj
        rcases List.mem_cons.mp hj2 with rfl | hj3
        · have hjid2 : n + 1 + inc.length = pid := hjid
          omega
        · have hjne := (List.mem_filter.mp hj3).2
          simp only [decide_eq_true_eq] at hjne
          exact hjne hjid
      · have hnd22 := hndA.2.1
        rw [List.nodup_append] at hnd22
        exact hnd22.2.2 hpid2 hmem

theorem kind_of_isPhi {i : Inst} (h : isPhi i = true) :
    ∃ inc, i.kind = InstKind.phi inc := by
  unfold isPhi at h
  cases hk : i.kind with
  | phi inc => exact ⟨inc, rfl⟩
  | dbg => rw [hk] at h; simp at h
  | simple ops => rw [hk] at h; simp at h
  | alloca => rw [hk] at h; simp at h
  | load s => rw [hk] at h; simp at h
  | store v s => rw [hk] at h; simp at h
  | term t => rw [hk] at h; simp at h

/-- Claim C7 (amended): when the only outside use of a body-defined value is
one merge-node read at the join point, the reconciliation adds the missing
incoming edges to that merge node and creates no additional one — but the
loop then unconditionally demotes it: exactly one fresh stack cell is
allocated, the merge node is erased (one fewer merge node than before), and
its identity names no instruction afterwards. -/
theorem C7_reconcile_amended {F : Func} {fresh : Nat} (hG : GoodF F fresh)
    (succId origId copyId v : Nat) (vmap : List (Nat × Nat))
    {ip : Inst} {inc : List (Nat × Nat)}
    (hfilter : (usersOf F v).filter
      (fun bi => decide (bi.1 ≠ copyId ∧ bi.1 ≠ origId)) = [(succId, ip)])
    (hkind : ip.kind = InstKind.phi inc)
    (hbusy : (usersOf F ip.id).isEmpty = false) :
    countAllocas (reconcileInst succId origId copyId vmap (F, fresh) v).1 =
      countAllocas F + 1 ∧
    countPhis (reconcileInst succId origId copyId vmap (F, fresh) v).1 + 1 = countPhis F ∧
    ip.id ∉ allInstIds (reconcileInst succId origId copyId vmap (F, fresh) v).1 := by
  have hne : usersOf F v ≠ [] := by
    intro he
    rw [he] at hfilter
    simp at hfilter
  have hu : (usersOf F v).isEmpty = false := List.isEmpty_eq_false.mpr hne
  have hiphi : isPhi ip = true := isPhi_of_kind hkind
  have hsp : isSuccPhi succId (succId, ip) = true := by
    unfold isSuccPhi
    show (succId == succId && isPhi ip) = true
    rw [beq_self_eq_true, hiphi]
    rfl
  have hred : reconcileInst succId origId copyId vmap (F, fresh) v =
      phiFixStep origId copyId v (lookupVM vmap v) [] (F, fresh) ip.id := by
    unfold reconcileInst
    simp only [hu, Bool.false_eq_true, if_false]
    rw [hfilter]
    have hsucc : ([((succId, ip) : Nat × Inst)].filter (isSuccPhi succId)).map
        (fun bi => bi.2.id) = [ip.id] := by
      rw [List.filter_cons]
      simp only [hsp, if_true, List.filter_nil, List.map_cons, List.map_nil]
    have hoth : ([((succId, ip) : Nat × Inst)].filter
        (fun bi => !isSuccPhi succId bi)).map (fun bi => bi.2.id) = ([] : List Nat) := by
      rw [List.filter_cons]
      simp only [hsp, Bool.not_true, Bool.false_eq_true, if_false, List.filter_nil,
        List.map_nil]
    simp only [List.isEmpty_cons, Bool.false_eq_true, if_false, hsucc, hoth,
      List.isEmpty_nil, eq_self_iff_true, if_true, List.foldl_cons, List.foldl_nil]
  rw [hred]
  have hstep : phiFixStep origId copyId v (lookupVM vmap v) [] (F, fresh) ip.id =
      demotePHIToStack
        (replaceUsesInUsers
          (addIncomingIfMissing (addIncomingIfMissing F ip.id v origId)
            ip.id (lookupVM vmap v) copyId)
          [] v ip.id)
        ip.id fresh := rfl
  rw [hstep]
  have hom1 := instHom_addIncomingI ip.id v origId
  have hom2 := instHom_addIncomingI ip.id (lookupVM vmap v) copyId
  have hom3 := instHom_ite (fun i => ([] : List Nat).contains i.id) (instHom_subst v ip.id)
  have hG3 : GoodF (replaceUsesInUsers
      (addIncomingIfMissing (addIncomingIfMissing F ip.id v origId)
        ip.id (lookupVM vmap v) copyId)
      [] v ip.id) fresh :=
    goodF_mapInsts hom3 (goodF_mapInsts hom2 (goodF_mapInsts hom1 hG))
  obtain ⟨bu, hbu, hbuid, hipmem, _⟩ := mem_usersOf.mp (show ((succId, ip) : Nat × Inst) ∈
    usersOf F v from List.mem_of_mem_filter (by rw [hfilter]; exact List.mem_cons_self _ _))
  have hipmem2 : ip ∈ bu.insts := hipmem
  have hip3mem : (fun i => if ([] : List Nat).contains i.id then Inst.subst v ip.id i else i)
        (addIncomingI ip.id (lookupVM vmap v) copyId (addIncomingI ip.id v origId ip)) ∈
      (((bu.insts.map (addIncomingI ip.id v origId)).map
        (addIncomingI ip.id (lookupVM vmap v) copyId)).map
        (fun i => if ([] : List Nat).contains i.id then Inst.subst v ip.id i else i)) :=
    List.mem_map_of_mem _ (List.mem_map_of_mem _ (List.mem_map_of_mem _ hipmem2))
  have hb3mem : (⟨bu.id, bu.landing,
      ((bu.insts.map (addIncomingI ip.id v origId)).map
        (addIncomingI ip.id (lookupVM vmap v) copyId)).map
        (fun i => if ([] : List Nat).contains i.id then Inst.subst v ip.id i else i)⟩ :
      BasicBlock) ∈ (replaceUsesInUsers
        (addIncomingIfMissing (addIncomingIfMissing F ip.id v origId)
          ip.id (lookupVM vmap v) copyId)
        [] v ip.id).blocks := by
    show _ ∈ (mapInsts (fun i => if ([] : List Nat).contains i.id
        then Inst.subst v ip.id i else i)
      (mapInsts (addIncomingI ip.id (lookupVM vmap v) copyId)
        (mapInsts (addIncomingI ip.id v origId) F))).blocks
    rw [mapInsts_blocks, mapInsts_blocks, mapInsts_blocks, List.map_map, List.map_map]
    exact List.mem_map_of_mem _ hbu
  have hid3 : ((fun i => if ([] : List Nat).contains i.id then Inst.subst v ip.id i else i)
      (addIncomingI ip.id (lookupVM vmap v) copyId (addIncomingI ip.id v origId ip))).id =
      ip.id := by
    rw [hom3.id_eq, hom2.id_eq, hom1.id_eq]
  have hphi3 : isPhi ((fun i => if ([] : List Nat).contains i.id
      then Inst.subst v ip.id i else i)
      (addIncomingI ip.id (lookupVM vmap v) copyId (addIncomingI ip.id v origId ip))) =
      true := by
    rw [hom3.phi_eq, hom2.phi_eq, hom1.phi_eq]
    exact hiphi
  obtain ⟨inc3, hkind3⟩ := kind_of_isPhi hphi3
  have hfind3 := findInstBlock_of_mem hG3.1 hb3mem hip3mem
  rw [hid3] at hfind3
  have hbusy3 : (usersOf (replaceUsesInUsers
      (addIncomingIfMissing (addIncomingIfMissing F ip.id v origId)
        ip.id (lookupVM vmap v) copyId)
      [] v ip.id) ip.id).isEmpty = false := by
    have hb1 : (usersOf (addIncomingIfMissing F ip.id v origId) ip.id).isEmpty = false :=
      usersOf_mapInsts_ne F
        (fun i hi => addIncomingI_pres_contains ip.id v origId ip.id i hi) hbusy
    have hb2 : (usersOf (addIncomingIfMissing (addIncomingIfMissing F ip.id v origId)
        ip.id (lookupVM vmap v) copyId) ip.id).isEmpty = false :=
      usersOf_mapInsts_ne _
        (fun i hi => addIncomingI_pres_contains ip.id (lookupVM vmap v) copyId ip.id i hi) hb1
    exact usersOf_mapInsts_ne _ (fun i hi => hi) hb2
  obtain ⟨hA, hP, hnm⟩ := demote_busy_counts hG3 hfind3 hkind3 hbusy3
  have hAeq : countAllocas (replaceUsesInUsers
      (addIncomingIfMissing (addIncomingIfMissing F ip.id v origId)
        ip.id (lookupVM vmap v) copyId)
      [] v ip.id) = countAllocas F := by
    show countAllocas (mapInsts _ (mapInsts _ (mapInsts _ F))) = countAllocas F
    rw [countAllocas_mapInsts hom3, countAllocas_mapInsts hom2, countAllocas_mapInsts hom1]
  have hPeq : countPhis (replaceUsesInUsers
      (addIncomingIfMissing (addIncomingIfMissing F ip.id v origId)
        ip.id (lookupVM vmap v) copyId)
      [] v ip.id) = countPhis F := by
    show countPhis (mapInsts _ (mapInsts _ (mapInsts _ F))) = countPhis F
    rw [countPhis_mapInsts hom3, countPhis_mapInsts hom2, countPhis_mapInsts hom1]
  rw [hAeq] at hA
  rw [hPeq] at hP
  exact ⟨hA, hP, hnm⟩

theorem C7_reconcile_amended_witness :
    countAllocas (reconcileInst 4 2 3 exVmap7 (exS7, 100) 30).1 = countAllocas exS7 + 1 ∧
    countPhis (reconcileInst 4 2 3 exVmap7 (exS7, 100) 30).1 + 1 = countPhis exS7 ∧
    (50 : Nat) ∉ allInstIds (reconcileInst 4 2 3 exVmap7 (exS7, 100) 30).1 :=
  @C7_reconcile_amended exS7 100 (by decide) 4 2 3 30 exVmap7
    ⟨50, InstKind.phi [(30, 2)]⟩ [(30, 2)] (by decide) rfl (by decide)

/-- Claim C7 (counterexample): in `exS7` the only outside use of the
body-defined value 30 is the join-point merge node 50, and the
reconciliation indeed creates no extra merge node — yet it allocates a
stack cell after all: the alloca count rises from 0 to 1, the merge node
count falls from 1 to 0, and instruction 50 is erased, contradicting the
claim that no stack cell is allocated for such a value. -/
theorem C7_counterexample :
    (usersOf exS7 30).filter (fun bi => decide (bi.1 ≠ 3 ∧ bi.1 ≠ 2)) =
      [(4, ⟨50, InstKind.phi [(30, 2)]⟩)] ∧
    countAllocas exS7 = 0 ∧ countPhis exS7 = 1 ∧
    countAllocas (reconcileInst 4 2 3 exVmap7 (exS7, 100) 30).1 = 1 ∧
    countPhis (reconcileInst 4 2 3 exVmap7 (exS7, 100) 30).1 = 0 ∧
    (50 : Nat) ∉ allInstIds (reconcileInst 4 2 3 exVmap7 (exS7, 100) 30).1 := by decide

end BogusCF
